import Mathlib

/-!
# Sliding window (package `window`): a shallow embedding

The Go package keeps a bounded, time-limited buffer of unique events.  The
embedding follows `window.go` and `config.go` function by function.

* A `*WinEvent` is an address into `heap` (allocation order); the fields
  `next` and `repeatTimes`, which the code mutates in place, live in the heap
  cell.
* The channel `buffer` is the list of the addresses it holds, front first,
  together with its capacity `bufferCap`.
* The `sync.Map` `table` is an association list in insertion order.
* `time.Time` is an integer count of nanoseconds; `time.Duration` is an
  `int64` count of nanoseconds, so negation wraps and `Sub` saturates.
* The timer `expiration` is its pending deadline, if any.
* The dispatcher (`ants.Pool`) is an external library: `Submit` is modelled by
  its outcome, which the environment supplies with every step.
* The counter `repeatTimes` is an `int64`; it is an unbounded integer here,
  since it wraps only after 2^63 duplicate arrivals of one buffered key.
* Every step reads the clock once; the two mutexes do nothing in an execution
  whose steps run one at a time and are left out.
* The fields of `Config` are `Int`s; a statement that depends on their being
  values of the Go types says so (`size ≤ maxInt64`, `isInt64 duration`).
* For two goroutines, `pushBuffer` and the timer callback are also given
  statement by statement (`Instr`); run without interruption the statements
  do what `pushBuffer` and `fire` do.
* A function returns `none` where the Go code does not return: a send on a
  full channel blocks, a nil pointer dereference panics.
-/

namespace SlidingWindow

/-! ## Time -/

/-! An instant (`time.Time`) is an `Int`, in nanoseconds; a `time.Duration` is
an `Int` within the range of `int64`, in nanoseconds. -/

/-- Smallest `int64`. -/
def minInt64 : Int := -9223372036854775808

/-- Largest `int64`. -/
def maxInt64 : Int := 9223372036854775807

/-- Two's complement wrap-around of `int64` arithmetic. -/
def wrap64 (x : Int) : Int := (x + 9223372036854775808) % 18446744073709551616 - 9223372036854775808

/-- Unary minus on a `time.Duration` (`-w.duration`). -/
def negDuration (d : Int) : Int := wrap64 (-d)

/-- Method `Time.Add`. -/
def timeAdd (t : Int) (d : Int) : Int := t + d

/-- Method `Time.Sub`: the difference, saturated to the range of `Duration`. -/
def timeSub (t u : Int) : Int :=
  if t - u < minInt64 then minInt64 else if maxInt64 < t - u then maxInt64 else t - u

/-! ## Events and entries -/

/-! The address of a `WinEvent` on the heap is a `Nat`. -/

/-- A caller's event (`*CustomEvent` of the test file): `Key()` returns `ID`. -/
structure Event where
  ID : String
  Name : String
deriving DecidableEq, Repr

/-- Method `Key` of a caller's event. -/
def Event.Key (e : Event) : String := e.ID

/-- Type `Meta`. -/
structure Meta where
  AddTime : Int
  RepeatTimes : Int
deriving DecidableEq, Repr

/-- Type `WinEvent`. -/
structure WinEvent where
  expireAt : Int
  UniqueEvent : Event
  next : Option Nat
  repeatTimes : Int
deriving DecidableEq, Repr

/-- Method `Key` of a `*WinEvent`, promoted from the embedded event. -/
def WinEvent.Key (we : WinEvent) : String := we.UniqueEvent.Key

/-- A value of interface type `UniqueEvent` with its dynamic type: a caller's
event, or a `*WinEvent` (which has the three methods by embedding). -/
inductive Iface where
  | customEvent (e : Event)
  | winEvent (we : WinEvent)
deriving DecidableEq, Repr

/-- The type assertion `new.(*CustomEvent)`; `none` is the run-time panic. -/
def Iface.assertCustomEvent : Iface → Option Event
  | .customEvent e => some e
  | .winEvent _ => none

/-- The merge the test file sketches for `CustomEvent.OnDuplicate`:
`e := new.(*CustomEvent); c.Name = e.Name`. -/
def CustomEvent.OnDuplicate (c : Event) (new : Iface) : Option Event :=
  match new.assertCustomEvent with
  | none => none
  | some e => some { c with Name := e.Name }

/-! ## Configuration (`config.go`) -/

/-- Type `Config`. -/
structure Config where
  size : Int
  duration : Int
  poolSize : Int
  block : Bool
deriving DecidableEq, Repr

/-- Function `defaultConfig`. -/
def defaultConfig : Config :=
  { size := 300, duration := 3 * 1000000000, poolSize := 20, block := true }

/-- An `Option` of the Go package: a function that updates the configuration. -/
abbrev ConfigOption := Config → Config

/-- Function `WithSize`. -/
def WithSize (size : Int) : ConfigOption := fun config => { config with size := size }

/-- Function `WithDuration`. -/
def WithDuration (duration : Int) : ConfigOption :=
  fun config => { config with duration := duration }

/-- Function `WithBlockPool`. -/
def WithBlockPool (poolSize : Int) : ConfigOption :=
  fun config => { config with poolSize := poolSize, block := true }

/-- Function `WithNonBlockPool`. -/
def WithNonBlockPool (poolSize : Int) : ConfigOption :=
  fun config => { config with poolSize := poolSize, block := false }

/-! ## The window -/

/-- What a timer runs when it fires: the timer of `start` runs `pop` and then
`resetExpiration`; the timers made where `expiration` is nil run `pop`. -/
inductive Callback where
  | popThenReset
  | popOnly
deriving DecidableEq, Repr

/-- A `*time.Timer`: the deadline it is armed with, if it is pending. -/
structure Timer where
  deadline : Option Int
  callback : Callback
deriving DecidableEq, Repr

/-- The dispatcher, as far as the window sees it. -/
structure Pool where
  nonblocking : Bool
  released : Bool
deriving DecidableEq, Repr

/-- Modelled from the spec: the dispatcher `ants.Pool` is a library outside
the repository.  Outcome of `pool.Submit`: an error once the pool is released
(a released dispatcher stops accepting submissions), else what the
environment decides (`ok = false`: the pool is saturated). -/
def Pool.Submit (p : Pool) (ok : Bool) : Bool := !p.released && ok

/-- What became of a popped entry's task: the pool accepted it (a worker will
call `Listen`), `Submit` returned an error, or there is no pool. -/
inductive Outcome where
  | accepted
  | refused
  | noPool
deriving DecidableEq, Repr

/-- Lines 109-120 of `pop`: the task is submitted when there is a pool. -/
def submitOutcome (pool : Option Pool) (ok : Bool) : Outcome :=
  match pool with
  | none => Outcome.noPool
  | some p => if p.Submit ok then Outcome.accepted else Outcome.refused

/-- Type `Window`, with the heap of entries and a record of the calls made
to the outside: the entries popped, in order, each with the outcome of its
submission, and the calls of `OnDuplicate` (receiver entry and argument). -/
structure Window where
  table : List (String × Nat)
  size : Int
  duration : Int
  expiration : Option Timer
  curr : Option Nat
  head : Option Nat
  buffer : List Nat
  bufferCap : Int
  pool : Option Pool
  config : Config
  heap : List WinEvent
  popped : List (Nat × Outcome)
  duplicates : List (Nat × Iface)
deriving DecidableEq, Repr

/-- The entries whose task the pool accepted, in the order of submission. -/
def Window.submitted (w : Window) : List Nat :=
  (w.popped.filter (fun p => decide (p.2 = Outcome.accepted))).map Prod.fst

/-- The entries whose task the pool refused. -/
def Window.refused (w : Window) : List Nat :=
  (w.popped.filter (fun p => decide (p.2 = Outcome.refused))).map Prod.fst

/-- Method `Load` of the table. -/
def tableLoad : List (String × Nat) → String → Option Nat
  | [], _ => none
  | (k, a) :: rest, key => if k = key then some a else tableLoad rest key

/-- Method `Delete` of the table. -/
def tableDelete (t : List (String × Nat)) (key : String) : List (String × Nat) :=
  t.filter (fun p => decide (p.1 ≠ key))

/-- Arm the timer `expiration` to fire after `d`: `Reset` on the existing
timer, `time.AfterFunc` with a callback that pops when there is none.  The
deadline is the instant `now + d`; when `d ≤ 0` it is not later than `now`
and the timer fires at once. -/
def armExpiration (w : Window) (now : Int) (d : Int) : Window :=
  match w.expiration with
  | none => { w with expiration := some { deadline := some (now + d), callback := .popOnly } }
  | some t => { w with expiration := some { t with deadline := some (now + d) } }

/-- Method `resetExpiration`. -/
def resetExpiration (w : Window) (now : Int) : Option Window :=
  if 0 < w.buffer.length then
    match w.head with
    | none => some w
    | some a =>
      match w.heap[a]? with
      | none => none
      | some firstEle => some (armExpiration w now (timeSub firstEle.expireAt now))
  else some w

/-- The task `pop` submits, run by a worker: the `Meta` that `Listen` receives
for the entry at `a`. -/
def listenMeta (w : Window) (a : Nat) : Option Meta :=
  match w.heap[a]? with
  | none => none
  | some e =>
    some { AddTime := timeAdd e.expireAt (negDuration w.duration), RepeatTimes := e.repeatTimes }

/-- Method `pop`: the window after it and the entry it returns. -/
def pop (w : Window) (now : Int) (ok : Bool) : Option (Window × Option Nat) :=
  match w.buffer with
  | [] =>
    let w1 := if w.head = none then { w with curr := none } else w
    (resetExpiration w1 now).map (fun w2 => (w2, none))
  | a :: rest =>
    match w.heap[a]? with
    | none => none
    | some e =>
      let w1 := { w with buffer := rest, head := e.next, table := tableDelete w.table e.Key }
      let w2 := { w1 with popped := w1.popped ++ [(a, submitOutcome w1.pool ok)] }
      let w3 := if w2.head = none then { w2 with curr := none } else w2
      (resetExpiration w3 now).map (fun w4 => (w4, some a))

/-- Method `pushBuffer`, for the entry at `a`. -/
def pushBuffer (w : Window) (a : Nat) (now : Int) (ok : Bool) : Option Window :=
  if (w.buffer.length : Int) < w.bufferCap then
    let w1 := { w with buffer := w.buffer ++ [a] }
    let w2 : Option Window :=
      match w1.curr with
      | some c =>
        match w1.heap[c]? with
        | none => none
        | some ce => some { w1 with heap := w1.heap.set c { ce with next := some a } }
      | none =>
        match w1.heap[a]? with
        | none => none
        | some we => some (armExpiration { w1 with head := some a } now (timeSub we.expireAt now))
    match w2 with
    | none => none
    | some w2 =>
      let w3 := { w2 with curr := some a }
      if w3.size < (w3.buffer.length : Int) then (pop w3 now ok).map Prod.fst
      else some w3
  else none

/-- Method `Add`. -/
def Add (w : Window) (e : Event) (now : Int) (ok : Bool) : Option Window :=
  let we : WinEvent :=
    { expireAt := timeAdd now w.duration, UniqueEvent := e, next := none, repeatTimes := 0 }
  match tableLoad w.table e.Key with
  | some old =>
    match w.heap[old]? with
    | none => none
    | some o =>
      some { w with
        heap := w.heap.set old { o with repeatTimes := o.repeatTimes + 1 }
        duplicates := w.duplicates ++ [(old, Iface.winEvent we)] }
  | none =>
    let a := w.heap.length
    pushBuffer { w with table := w.table ++ [(e.Key, a)], heap := w.heap ++ [we] } a now ok

/-- The timer `expiration` fires: it is no longer pending and its callback runs. -/
def fire (w : Window) (now : Int) (ok : Bool) : Option (Window × Option Nat) :=
  match w.expiration with
  | none => none
  | some t =>
    match pop { w with expiration := some { t with deadline := none } } now ok with
    | none => none
    | some (w1, r) =>
      match t.callback with
      | .popOnly => some (w1, r)
      | .popThenReset => (resetExpiration w1 now).map (fun w2 => (w2, r))

/-- Method `Close`. -/
def Close (w : Window) : Option Window :=
  match w.expiration, w.pool with
  | some t, some p =>
    some { w with
      expiration := some { t with deadline := none }
      pool := some { p with released := true } }
  | _, _ => none

/-- Function `New` (with `start`): `options` are applied to the defaults in
order, `pool` is what `ants.NewPool` returned and `now` the clock reading when
the timer is created.  `none`: `make` panics on a negative capacity. -/
def New (options : List ConfigOption) (pool : Option Pool) (now : Int) : Option Window :=
  let config := options.foldl (fun c opt => opt c) defaultConfig
  let cap := wrap64 (config.size + 1)
  if cap < 0 then none
  else
    some
      { table := []
        size := config.size
        duration := config.duration
        expiration := some { deadline := some (now + config.duration), callback := .popThenReset }
        curr := none
        head := none
        buffer := []
        bufferCap := cap
        pool := pool
        config := config
        heap := []
        popped := []
        duplicates := [] }

/-! ## Executions -/

/-- One step of a sequential execution: a call of `Add`, or the timer firing.
Each carries its clock reading and the outcome of `Submit`, should it evict. -/
inductive Op where
  | add (e : Event) (now : Int) (ok : Bool)
  | fire (now : Int) (ok : Bool)
deriving DecidableEq, Repr

/-- Clock reading of a step. -/
def Op.now : Op → Int
  | .add _ now _ => now
  | .fire now _ => now

/-- Run one step. -/
def step (w : Window) : Op → Option Window
  | .add e now ok => Add w e now ok
  | .fire now ok => (fire w now ok).map Prod.fst

/-- Run the steps one at a time. -/
def run : Window → List Op → Option Window
  | w, [] => some w
  | w, op :: ops =>
    match step w op with
    | none => none
    | some w1 => run w1 ops

/-! ## Invariant of the states of sequential executions -/

/-- Key of the entry at an address. -/
def keyAt (heap : List WinEvent) (a : Nat) : String :=
  match heap[a]? with
  | some e => e.Key
  | none => ""

/-- Number of entries that have left the buffer. -/
def Window.base (w : Window) : Nat := w.heap.length - w.buffer.length

/-- Pending deadline of the timer. -/
def Window.deadline (w : Window) : Option Int :=
  match w.expiration with
  | none => none
  | some t => t.deadline

/-- What holds of every state a sequential execution reaches: the buffer holds
the most recently allocated entries in allocation order, the popped entries are
the ones before them, the table lists the buffered entries under their keys,
which are distinct, `next` links each buffered entry to the following one,
`head` and `curr` are the two ends, and the timer is the one `start` made. -/
structure Inv (w : Window) : Prop where
  le : w.buffer.length ≤ w.heap.length
  buf : w.buffer = List.range' w.base w.buffer.length
  pop : w.popped.map Prod.fst = List.range w.base
  table : w.table = w.buffer.map (fun a => (keyAt w.heap a, a))
  keys : (w.buffer.map (keyAt w.heap)).Nodup
  next : ∀ a ∈ w.buffer, ∀ e, w.heap[a]? = some e →
    e.next = if a + 1 < w.heap.length then some (a + 1) else none
  head : w.head = w.buffer.head?
  curr : w.curr = w.buffer.getLast?
  timer : ∃ t, w.expiration = some t ∧ t.callback = Callback.popThenReset
  dups : ∀ q ∈ w.duplicates, q.1 < w.heap.length

/-- Expiry time of the entry at an address. -/
def expireAtOf (heap : List WinEvent) (a : Nat) : Int :=
  match heap[a]? with
  | some e => e.expireAt
  | none => 0

/-- The state `pop` leaves behind in a state that satisfies the invariant and
has a non-empty buffer, written out field by field. -/
def afterPop (w : Window) (now : Int) (ok : Bool) : Window :=
  { w with
    buffer := w.buffer.tail
    head := w.buffer.tail.head?
    curr := w.buffer.tail.getLast?
    table := w.table.tail
    popped := w.popped ++ [(w.buffer.headD 0, submitOutcome w.pool ok)]
    expiration :=
      match w.buffer.tail.head? with
      | none => w.expiration
      | some b =>
        some
          { deadline := some (now + timeSub (expireAtOf w.heap b) now)
            callback := Callback.popThenReset } }

/-- The heap after the assignment `c.next = we`, for the entries at `c` and `n`. -/
def linkNext (heap : List WinEvent) (c n : Nat) : List WinEvent :=
  match heap[c]? with
  | none => heap
  | some ce => heap.set c { ce with next := some n }

/-- The entry `Add` builds for an event. -/
def newEntry (w : Window) (e : Event) (now : Int) : WinEvent :=
  { expireAt := timeAdd now w.duration, UniqueEvent := e, next := none, repeatTimes := 0 }

/-- The state in which `pushBuffer` makes its overflow check, when `Add` is
called with an event of a new key in a state that satisfies the invariant,
written out field by field. -/
def afterPush (w : Window) (e : Event) (now : Int) : Window :=
  { w with
    table := w.table ++ [(e.Key, w.heap.length)]
    heap :=
      match w.buffer.getLast? with
      | none => w.heap ++ [newEntry w e now]
      | some c => linkNext (w.heap ++ [newEntry w e now]) c w.heap.length
    buffer := w.buffer ++ [w.heap.length]
    head := (w.buffer ++ [w.heap.length]).head?
    curr := some w.heap.length
    expiration :=
      match w.buffer with
      | [] =>
        some
          { deadline := some (now + timeSub (timeAdd now w.duration) now)
            callback := Callback.popThenReset }
      | _ :: _ => w.expiration }

/-- The heap after `old.repeatTimes.Add(1)`. -/
def bumpRepeat (heap : List WinEvent) (old : Nat) : List WinEvent :=
  match heap[old]? with
  | none => heap
  | some o => heap.set old { o with repeatTimes := o.repeatTimes + 1 }

/-- The state `Add` leaves behind when the key of the event is in the table
at `old`, in a state that satisfies the invariant. -/
def afterDup (w : Window) (old : Nat) (e : Event) (now : Int) : Window :=
  { w with
    heap := bumpRepeat w.heap old
    duplicates := w.duplicates ++ [(old, Iface.winEvent (newEntry w e now))] }

/-- The state once the timer has fired: it is no longer pending. -/
def disarm (w : Window) : Window :=
  match w.expiration with
  | none => w
  | some t => { w with expiration := some { t with deadline := none } }

/-- A value of a 64-bit Go integer type. -/
def isInt64 (x : Int) : Prop := minInt64 ≤ x ∧ x ≤ maxInt64

instance (x : Int) : Decidable (isInt64 x) := by
  unfold isInt64; infer_instance

/-- The buffer holds no more than `size` entries and its channel has one
slot more. -/
def Cap (w : Window) : Prop := (w.buffer.length : Int) ≤ w.size ∧ w.bufferCap = w.size + 1

/-- The five ways a step goes in a state that satisfies the invariant: `Add`
for a key in the table, `Add` for a new key without and with overflow, the
timer firing on an empty and on a non-empty buffer. -/
inductive Trans (w : Window) : Op → Window → Prop where
  | dup (e : Event) (now : Int) (ok : Bool) (old : Nat) :
    tableLoad w.table e.Key = some old → Trans w (Op.add e now ok) (afterDup w old e now)
  | push (e : Event) (now : Int) (ok : Bool) :
    tableLoad w.table e.Key = none → (w.buffer.length : Int) < w.bufferCap →
    ¬ w.size < (w.buffer.length : Int) + 1 → Trans w (Op.add e now ok) (afterPush w e now)
  | overflow (e : Event) (now : Int) (ok : Bool) :
    tableLoad w.table e.Key = none → (w.buffer.length : Int) < w.bufferCap →
    w.size < (w.buffer.length : Int) + 1 →
    Trans w (Op.add e now ok) (afterPop (afterPush w e now) now ok)
  | idle (now : Int) (ok : Bool) :
    w.buffer = [] → Trans w (Op.fire now ok) (disarm w)
  | expire (now : Int) (ok : Bool) (a : Nat) (rest : List Nat) :
    w.buffer = a :: rest → Trans w (Op.fire now ok) (afterPop (disarm w) now ok)

/-- A state some sequential execution reaches from a new window. -/
def Reachable (w : Window) : Prop :=
  ∃ (options : List ConfigOption) (pool : Option Pool) (now : Int) (w0 : Window) (ops : List Op),
    New options pool now = some w0 ∧ run w0 ops = some w

/-- Outcome of `Submit` that a step carries. -/
def Op.ok : Op → Bool
  | .add _ _ ok => ok
  | .fire _ ok => ok

/-- The calls of `Add` whose key the table does not hold when they are made,
in order, each with its clock reading. -/
def firstArrivals : Window → List Op → List (Event × Int)
  | _, [] => []
  | w, op :: ops =>
    (match op with
      | .add e now _ => if tableLoad w.table e.Key = none then [(e, now)] else []
      | .fire _ _ => []) ++
    (match step w op with
      | none => []
      | some w1 => firstArrivals w1 ops)

/-- The caller's event in the entry at an address. -/
def eventAt (heap : List WinEvent) (a : Nat) : Option Event :=
  match heap[a]? with
  | some e => some e.UniqueEvent
  | none => none

/-- The entries popped so far, in order. -/
def Window.evicted (w : Window) : List Nat := w.popped.map Prod.fst

/-- The part of an entry that is set when it is built and never assigned
to: the caller's event and the expiry time. -/
def WinEvent.ident (x : WinEvent) : Event × Int := (x.UniqueEvent, x.expireAt)

/-- Every task the pool was given so far was accepted. -/
def AllAccepted (w : Window) : Prop := ∀ q ∈ w.popped, q.2 = Outcome.accepted

/-- A new window of size 2 and duration 10 with a pool, made at time 0. -/
def demoWindow : Window :=
  { table := []
    size := 2
    duration := 10
    expiration := some { deadline := some 10, callback := Callback.popThenReset }
    curr := none
    head := none
    buffer := []
    bufferCap := 3
    pool := some { nonblocking := false, released := false }
    config := { size := 2, duration := 10, poolSize := 3, block := true }
    heap := []
    popped := []
    duplicates := [] }

/-- The state of `demoWindow` after `Add` for an event A at time 1. -/
def demoWindowA : Window :=
  { demoWindow with
    table := [("A", 0)]
    expiration := some { deadline := some 11, callback := Callback.popThenReset }
    curr := some 0
    head := some 0
    buffer := [0]
    heap := [{ expireAt := 11, UniqueEvent := { ID := "A", Name := "a1" }, next := none,
               repeatTimes := 0 }] }

/-- A new window of size 2 and duration 10 with a non-blocking pool of one
worker, made at time 0. -/
def demoWindowNonBlock : Window :=
  { demoWindow with
    pool := some { nonblocking := true, released := false }
    config := { size := 2, duration := 10, poolSize := 1, block := false } }

/-- Calls of `Add` for events A, B, C, D with their clock readings.  The
third call pops A and the pool accepts the task; the fourth call pops B while
the one worker is busy, and the pool refuses the task. -/
def demoOverflow : List (Event × Int × Bool) :=
  [({ ID := "A", Name := "a1" }, 1, true), ({ ID := "B", Name := "b1" }, 2, true),
    ({ ID := "C", Name := "c1" }, 3, true), ({ ID := "D", Name := "d1" }, 4, false)]

/-- The options that make `demoWindow`. -/
def demoOptions : List ConfigOption := [WithBlockPool 3, WithSize 2, WithDuration 10]

/-- Events A, B, A again, C are added, then the timer fires. -/
def demoOps : List Op :=
  [Op.add { ID := "A", Name := "a1" } 1 true, Op.add { ID := "B", Name := "b1" } 2 true,
    Op.add { ID := "A", Name := "a2" } 3 true, Op.add { ID := "C", Name := "c1" } 4 true,
    Op.fire 12 true]

/-- Whether a step is a call of `Add` with key `k`. -/
def Op.addsKey (k : String) : Op → Bool
  | .add e _ _ => decide (e.Key = k)
  | .fire _ _ => false

/-- Number of calls of `Add` with key `k` among the steps. -/
def countAdds (k : String) (ops : List Op) : Nat := (ops.filter (Op.addsKey k)).length

/-- The entry at `a` is in the buffer after every one of the steps. -/
def keptBuffered (a : Nat) : Window → List Op → Bool
  | _, [] => true
  | w, op :: ops =>
    match step w op with
    | none => false
    | some w1 => decide (a ∈ w1.buffer) && keptBuffered a w1 ops

/-- Number of calls of `OnDuplicate` made on the entry at `a`. -/
def dupCount (w : Window) (a : Nat) : Nat :=
  (w.duplicates.filter (fun q => decide (q.1 = a))).length

/-- Value of the counter `repeatTimes` of the entry at an address. -/
def repeatAt (heap : List WinEvent) (a : Nat) : Int :=
  match heap[a]? with
  | some e => e.repeatTimes
  | none => 0

/-- Every counter `repeatTimes` on the heap is 0. -/
def ZeroRepeat (w : Window) : Prop :=
  ∀ (a : Nat) (y : WinEvent), w.heap[a]? = some y → y.repeatTimes = 0

/-- The steps run one after another from `w`, no clock reading is earlier
than the one before it (`t` at the start), and the timer fires only while it
is pending and at or after its deadline. -/
def timely : Window → Int → List Op → Bool
  | _, _, [] => true
  | w, t, op :: ops =>
    decide (t ≤ op.now) &&
      (match op with
        | .fire now _ =>
          match w.deadline with
          | some dl => decide (dl ≤ now)
          | none => false
        | .add _ _ _ => true) &&
      (match step w op with
        | none => false
        | some w1 => timely w1 op.now ops)

/-- What holds of the timer when the clock has not gone backwards and reads
`t` or more: every buffered entry arrived by `t`, and while the buffer is not
empty the timer is pending with a deadline no earlier than the expiry time of
the front entry. -/
structure TimerInv (w : Window) (t : Int) : Prop where
  dur : isInt64 w.duration
  exp : ∀ a ∈ w.buffer, expireAtOf w.heap a ≤ t + w.duration
  armed : ∀ (a : Nat) (rest : List Nat), w.buffer = a :: rest →
    ∃ dl, w.deadline = some dl ∧ expireAtOf w.heap a ≤ dl

/-- The same step with another outcome of `Submit`. -/
def Op.withOk : Op → Bool → Op
  | .add e now _, b => .add e now b
  | .fire now _, b => .fire now b

/-- A call of one of the four option constructors of `config.go`. -/
inductive OptionCall where
  | withSize (size : Int)
  | withDuration (duration : Int)
  | withBlockPool (poolSize : Int)
  | withNonBlockPool (poolSize : Int)
deriving DecidableEq, Repr

/-- The option a call makes. -/
def OptionCall.toOption : OptionCall → ConfigOption
  | .withSize size => WithSize size
  | .withDuration duration => WithDuration duration
  | .withBlockPool poolSize => WithBlockPool poolSize
  | .withNonBlockPool poolSize => WithNonBlockPool poolSize

/-- The configuration `New` computes: the options applied to the defaults in
order (lines 53-56 of `window.go`). -/
def configOf (options : List ConfigOption) : Config :=
  options.foldl (fun c opt => opt c) defaultConfig

/-- Function `start`, line 72: the arguments it passes to `ants.NewPool`, the
pool size and the value of `WithNonblocking`. -/
def poolArguments (config : Config) : Int × Bool := (config.poolSize, !config.block)

/-- The size a call sets, if it sets one. -/
def OptionCall.setsSize : OptionCall → Option Int
  | .withSize size => some size
  | _ => none

/-- The duration a call sets, if it sets one. -/
def OptionCall.setsDuration : OptionCall → Option Int
  | .withDuration duration => some duration
  | _ => none

/-- The pool size and blocking flag a call sets, if it sets them. -/
def OptionCall.setsPool : OptionCall → Option (Int × Bool)
  | .withBlockPool poolSize => some (poolSize, true)
  | .withNonBlockPool poolSize => some (poolSize, false)
  | _ => none

/-- The size the last call of `WithSize` sets, if there is one. -/
def lastSize : List OptionCall → Option Int
  | [] => none
  | c :: rest => (lastSize rest).or c.setsSize

/-- The duration the last call of `WithDuration` sets, if there is one. -/
def lastDuration : List OptionCall → Option Int
  | [] => none
  | c :: rest => (lastDuration rest).or c.setsDuration

/-- The pool size and the blocking flag the last call of `WithBlockPool` or
`WithNonBlockPool` sets, if there is one. -/
def lastPool : List OptionCall → Option (Int × Bool)
  | [] => none
  | c :: rest => (lastPool rest).or c.setsPool

/-- Calls of `Add`, one for each event with its clock reading and the outcome
of `Submit`. -/
def addCalls (adds : List (Event × Int × Bool)) : List Op :=
  adds.map (fun q => Op.add q.1 q.2.1 q.2.2)

/-- A new window of size 0 and duration 10 with a pool, made at time 0. -/
def demoWindowZero : Window :=
  { demoWindow with
    size := 0
    bufferCap := 1
    config := { size := 0, duration := 10, poolSize := 3, block := true } }

/-- Three calls of `Add`: A, A again, B with a failing `Submit`. -/
def demoCalls : List (Event × Int × Bool) :=
  [({ ID := "A", Name := "a1" }, 1, true), ({ ID := "A", Name := "a2" }, 2, true),
    ({ ID := "B", Name := "b1" }, 3, false)]

/-- Follow `next` from `p` over at most `fuel` entries: the addresses visited,
in order. -/
def follow (heap : List WinEvent) : Nat → Option Nat → List Nat
  | 0, _ => []
  | _ + 1, none => []
  | fuel + 1, some a =>
    match heap[a]? with
    | none => [a]
    | some e => a :: follow heap fuel e.next

/-- No clock reading of the steps is earlier than the one before it, `t`
being the reading before the first step. -/
def monotoneClock : Int → List Op → Bool
  | _, [] => true
  | t, op :: ops => decide (t ≤ op.now) && monotoneClock op.now ops

/-- What holds of the expiry times under a clock that does not go backwards
and reads `t` or more: every buffered entry arrived by `t`, and an entry that
was allocated later expires no earlier. -/
structure SortedInv (w : Window) (t : Int) : Prop where
  hi : ∀ a ∈ w.buffer, expireAtOf w.heap a ≤ t + w.duration
  mono : ∀ a ∈ w.buffer, ∀ b ∈ w.buffer, a ≤ b → expireAtOf w.heap a ≤ expireAtOf w.heap b

/-- What holds of the timer under a clock that does not go backwards, reads
`t` or more and has read `lo` when the window was made, as long as `Sub` does
not saturate: every buffered entry arrived between `lo` and `t`, and while the
buffer is not empty the timer is pending with the expiry time of the front
entry as deadline. -/
structure ExactInv (w : Window) (lo t : Int) : Prop where
  dur : isInt64 w.duration
  le : lo ≤ t
  lo : ∀ a ∈ w.buffer, lo + w.duration ≤ expireAtOf w.heap a
  hi : ∀ a ∈ w.buffer, expireAtOf w.heap a ≤ t + w.duration
  armed : ∀ (a : Nat) (rest : List Nat), w.buffer = a :: rest →
    w.deadline = some (expireAtOf w.heap a)

/-- The step `op` takes the buffered entry at `a` out of the buffer. -/
def evicts (w : Window) (op : Op) (a : Nat) : Bool :=
  decide (a ∈ w.buffer) &&
    match step w op with
    | none => false
    | some w1 => decide (a ∉ w1.buffer)

/-- A call on the window: a step of an execution, or `Close`. -/
inductive Action where
  | op (o : Op)
  | close
deriving DecidableEq, Repr

/-- Run one call. -/
def act (w : Window) : Action → Option Window
  | .op o => step w o
  | .close => Close w

/-- Run the calls one at a time. -/
def runActions : Window → List Action → Option Window
  | w, [] => some w
  | w, a :: rest =>
    match act w a with
    | none => none
    | some w1 => runActions w1 rest

/-- The pool of the window has been released. -/
def Released (w : Window) : Prop := ∃ p, w.pool = some p ∧ p.released = true

/-- The window shared by two goroutines, with the local variable `c` of a
call of `pushBuffer`, the local variable `e` of a call of `pop`, and whether
the mutex `popLock` is held. -/
structure Shared where
  w : Window
  c : Option Nat
  e : Option Nat
  popLock : Bool
deriving DecidableEq, Repr

/-- The statements of `pushBuffer` and of the timer callback, each run in one
piece: a goroutine is a list of them, and another goroutine may run between
any two. -/
inductive Instr where
  | send (a : Nat)
  | readCurr
  | link (a : Nat) (now : Int)
  | setCurr (a : Nat)
  | overflowCheck (now : Int) (ok : Bool)
  | expire
  | lockPop
  | recv
  | setHead
  | delete
  | submit (ok : Bool)
  | clearCurr
  | reset (now : Int)
  | unlockPop
deriving DecidableEq, Repr

/-- Run one statement.
`send`: line 160, `w.buffer <- we` (blocks on a full channel).
`readCurr`: line 162, `c := w.curr`.
`link`: lines 163-175, `c.next = we`, or `w.head = we` and the timer reset.
`setCurr`: line 176, `w.curr = we`.
`overflowCheck`: lines 178-180, `pop` when the buffer is over `size`; `pop`
takes `popLock`, so the statement cannot run while the lock is held.
`expire`: the timer fires and is no longer pending.
`lockPop`, `unlockPop`: lines 101-102.
`recv`: lines 105-106, `e := <-w.buffer` when the buffer is not empty.
`setHead`: line 107, `w.head = e.next`.
`delete`: line 108, `w.table.Delete(e.Key())`.
`submit`: lines 109-120.
`clearCurr`: lines 125-127, `if w.head == nil { w.curr = nil }`.
`reset`: `resetExpiration`, called on line 128 and on line 77. -/
def Instr.exec (s : Shared) : Instr → Option Shared
  | .send a =>
    if (s.w.buffer.length : Int) < s.w.bufferCap then
      some { s with w := { s.w with buffer := s.w.buffer ++ [a] } }
    else none
  | .readCurr => some { s with c := s.w.curr }
  | .link a now =>
    match s.c with
    | some c =>
      match s.w.heap[c]? with
      | none => none
      | some ce => some { s with w := { s.w with heap := s.w.heap.set c { ce with next := some a } } }
    | none =>
      match s.w.heap[a]? with
      | none => none
      | some we =>
        some { s with
          w := armExpiration { s.w with head := some a } now (timeSub we.expireAt now) }
  | .setCurr a => some { s with w := { s.w with curr := some a } }
  | .overflowCheck now ok =>
    if s.w.size < (s.w.buffer.length : Int) then
      if s.popLock then none
      else (pop s.w now ok).map (fun r => { s with w := r.1 })
    else some s
  | .expire =>
    match s.w.expiration with
    | none => none
    | some t => some { s with w := { s.w with expiration := some { t with deadline := none } } }
  | .lockPop => if s.popLock then none else some { s with popLock := true }
  | .recv =>
    match s.w.buffer with
    | [] => some s
    | a :: rest => some { s with e := some a, w := { s.w with buffer := rest } }
  | .setHead =>
    match s.e with
    | none => some s
    | some a =>
      match s.w.heap[a]? with
      | none => none
      | some x => some { s with w := { s.w with head := x.next } }
  | .delete =>
    match s.e with
    | none => some s
    | some a =>
      match s.w.heap[a]? with
      | none => none
      | some x => some { s with w := { s.w with table := tableDelete s.w.table x.Key } }
  | .submit ok =>
    match s.e with
    | none => some s
    | some a =>
      some { s with w := { s.w with popped := s.w.popped ++ [(a, submitOutcome s.w.pool ok)] } }
  | .clearCurr =>
    if s.w.head = none then some { s with w := { s.w with curr := none } } else some s
  | .reset now => (resetExpiration s.w now).map (fun w1 => { s with w := w1 })
  | .unlockPop => some { s with popLock := false }

/-- Run the statements in the order given. -/
def runInstrs : Shared → List Instr → Option Shared
  | s, [] => some s
  | s, i :: rest =>
    match i.exec s with
    | none => none
    | some s1 => runInstrs s1 rest

/-- Method `pushBuffer` for the entry at `a`, statement by statement. -/
def pushProgram (a : Nat) (now : Int) (ok : Bool) : List Instr :=
  [Instr.send a, Instr.readCurr, Instr.link a now, Instr.setCurr a, Instr.overflowCheck now ok]

/-- The timer of `start` firing, statement by statement: `pop` under
`popLock`, then `resetExpiration`. -/
def timerProgram (now : Int) (ok : Bool) : List Instr :=
  [Instr.expire, Instr.lockPop, Instr.recv, Instr.setHead, Instr.delete, Instr.submit ok,
    Instr.clearCurr, Instr.reset now, Instr.unlockPop, Instr.reset now]

/-- Whether `zs` interleaves `xs` and `ys`: it holds the statements of both,
each list in its own order. -/
def isInterleaving : List Instr → List Instr → List Instr → Bool
  | [], [], [] => true
  | x :: xs, [], z :: zs => decide (x = z) && isInterleaving xs [] zs
  | [], y :: ys, z :: zs => decide (y = z) && isInterleaving [] ys zs
  | x :: xs, y :: ys, z :: zs =>
    (decide (x = z) && isInterleaving xs (y :: ys) zs) ||
      (decide (y = z) && isInterleaving (x :: xs) ys zs)
  | _, _, _ => false

/-- The state in which `Add` calls `pushBuffer` for an event of a new key:
the entry is allocated and stored in the table (lines 84-89). -/
def addPrelude (w : Window) (e : Event) (now : Int) : Window :=
  { w with table := w.table ++ [(e.Key, w.heap.length)], heap := w.heap ++ [newEntry w e now] }

/-- The window holds A; a producer is about to push B (allocated at 1) when
the timer fires at 11. -/
def raceStart : Shared :=
  { w := addPrelude demoWindowA { ID := "B", Name := "b1" } 11
    c := none
    e := none
    popLock := false }

/-- The timer receives A and sets `head` to A's `next`, which is nil; the
producer then runs `pushBuffer` for B to its end, linking B behind A; the
timer goes on, finds `head` nil, clears `curr` and does not arm the timer. -/
def raceSchedule : List Instr :=
  [Instr.expire, Instr.lockPop, Instr.recv, Instr.setHead,
    Instr.send 1, Instr.readCurr, Instr.link 1 11, Instr.setCurr 1, Instr.overflowCheck 11 true,
    Instr.delete, Instr.submit true, Instr.clearCurr, Instr.reset 11, Instr.unlockPop,
    Instr.reset 11]

theorem Inv.front {w : Window} (h : Inv w) {a : Nat} {rest : List Nat}
    (hb : w.buffer = a :: rest) :
    a = w.base ∧ a + 1 + rest.length = w.heap.length ∧
      rest = List.range' (a + 1) rest.length := by
  have hle := h.le
  have hbuf := h.buf
  rw [hb] at hbuf hle
  simp only [List.length_cons, List.range'_succ, List.cons.injEq] at hbuf hle
  have hbase : w.base = w.heap.length - (rest.length + 1) := by
    simp [Window.base, hb]
  obtain ⟨h1, h2⟩ := hbuf
  refine ⟨h1, ?_, ?_⟩
  · omega
  · rw [h1]; exact h2

theorem Inv.mem_lt {w : Window} (h : Inv w) {a : Nat} (ha : a ∈ w.buffer) :
    a < w.heap.length := by
  have hle := h.le
  rw [h.buf, List.mem_range'_1] at ha
  simp only [Window.base] at ha
  omega

theorem Inv.get {w : Window} (h : Inv w) {a : Nat} (ha : a ∈ w.buffer) :
    ∃ e, w.heap[a]? = some e := by
  have hlt := h.mem_lt ha
  exact ⟨w.heap[a], List.getElem?_eq_getElem hlt⟩

theorem pop_nil {w : Window} (h : Inv w) (hb : w.buffer = []) (now : Int) (ok : Bool) :
    pop w now ok = some (w, none) := by
  have hh : w.head = none := by rw [h.head, hb]; rfl
  have hc : w.curr = none := by rw [h.curr, hb]; rfl
  cases w
  simp only at hb hh hc
  subst hb hh hc
  simp [pop, resetExpiration]

theorem pop_cons {w : Window} (h : Inv w) {a : Nat} {rest : List Nat}
    (hb : w.buffer = a :: rest) (now : Int) (ok : Bool) :
    pop w now ok = some (afterPop w now ok, some a) := by
  obtain ⟨ha, hlen, hrest⟩ := h.front hb
  obtain ⟨e, he⟩ := h.get (a := a) (by rw [hb]; exact List.mem_cons_self _ _)
  obtain ⟨t, ht, hcb⟩ := h.timer
  have hnext := h.next a (by rw [hb]; exact List.mem_cons_self _ _) e he
  have htab := h.table
  have hkeys := h.keys
  have hcurr := h.curr
  rw [hb] at htab hkeys hcurr
  have hka : keyAt w.heap a = e.Key := by simp [keyAt, he]
  have hdel : tableDelete w.table e.Key = w.table.tail := by
    rw [htab]
    simp only [List.map_cons, tableDelete, List.tail_cons]
    rw [List.filter_cons_of_neg (by simp [hka])]
    rw [List.filter_eq_self]
    intro p hp
    simp only [List.mem_map] at hp
    obtain ⟨b, hbm, rfl⟩ := hp
    simp only [List.map_cons, List.nodup_cons, List.mem_map, not_exists, not_and] at hkeys
    have := hkeys.1 b hbm
    simp only [decide_eq_true_eq, ne_eq]
    rw [← hka]
    exact this
  cases rest with
  | nil =>
    have hn : e.next = none := by
      rw [hnext]; simp at hlen; simp; omega
    simp [pop, hb, he, hn, resetExpiration, afterPop, hdel]
  | cons b rest2 =>
    have hb2 : b = a + 1 := by
      simp [List.range'_succ] at hrest; exact hrest.1
    have hn : e.next = some (a + 1) := by
      rw [hnext]; simp at hlen; simp; omega
    obtain ⟨fe, hfe⟩ := h.get (a := b) (by rw [hb]; simp)
    subst hb2
    have hx : expireAtOf w.heap (a + 1) = fe.expireAt := by simp [expireAtOf, hfe]
    simp [pop, hb, he, hn, resetExpiration, afterPop, hdel, hfe, armExpiration, ht, hx, hcb,
      hcurr, List.getLast?_cons_cons]

theorem afterPop_inv {w : Window} (h : Inv w) {a : Nat} {rest : List Nat}
    (hb : w.buffer = a :: rest) (now : Int) (ok : Bool) : Inv (afterPop w now ok) := by
  obtain ⟨ha, hlen, hrest⟩ := h.front hb
  obtain ⟨t, ht, hcb⟩ := h.timer
  have hbase : (afterPop w now ok).base = a + 1 := by
    simp [afterPop, Window.base, hb]; omega
  refine ⟨?_, ?_, ?_, ?_, ?_, ?_, rfl, rfl, ?_, h.dups⟩
  · simp [afterPop, hb]; omega
  · rw [hbase]; simpa [afterPop, hb] using hrest
  · rw [hbase]
    simp only [afterPop, hb, List.headD_cons, List.map_append, List.map_cons, List.map_nil,
      h.pop, List.range_succ, ← ha]
  · have htab := h.table
    rw [hb] at htab
    simp [afterPop, hb, htab]
  · have hkeys := h.keys
    rw [hb] at hkeys
    simp only [List.map_cons, List.nodup_cons] at hkeys
    simpa [afterPop, hb] using hkeys.2
  · intro b hbm e he
    have hbm2 : b ∈ w.buffer := by
      rw [hb]; exact List.mem_cons_of_mem _ (by simpa [afterPop, hb] using hbm)
    exact h.next b hbm2 e (by simpa [afterPop] using he)
  · cases hr : rest with
    | nil => exact ⟨t, by simp [afterPop, hb, hr, ht], hcb⟩
    | cons b rest2 =>
      exact ⟨⟨some (now + timeSub (expireAtOf w.heap b) now), Callback.popThenReset⟩,
        by simp [afterPop, hb, hr], rfl⟩

/-! ### The table -/

theorem tableLoad_map (heap : List WinEvent) (buf : List Nat) (key : String) :
    tableLoad (buf.map (fun a => (keyAt heap a, a))) key = buf.find? (fun a => keyAt heap a = key) := by
  induction buf with
  | nil => rfl
  | cons b rest ih =>
    simp only [List.map_cons, tableLoad, List.find?_cons, ih]
    by_cases hk : keyAt heap b = key <;> simp [hk]

theorem Inv.load_none {w : Window} (h : Inv w) {key : String}
    (hl : tableLoad w.table key = none) : ∀ a ∈ w.buffer, keyAt w.heap a ≠ key := by
  rw [h.table, tableLoad_map, List.find?_eq_none] at hl
  intro a ha
  simpa using hl a ha

theorem Inv.load_some {w : Window} (h : Inv w) {key : String} {old : Nat}
    (hl : tableLoad w.table key = some old) : old ∈ w.buffer ∧ keyAt w.heap old = key := by
  rw [h.table, tableLoad_map] at hl
  have h1 := List.mem_of_find?_eq_some hl
  have h2 := List.find?_some hl
  exact ⟨h1, by simpa using h2⟩

/-! ### The heap -/

theorem linkNext_length (heap : List WinEvent) (c n : Nat) :
    (linkNext heap c n).length = heap.length := by
  unfold linkNext
  split <;> simp

theorem linkNext_get_ne (heap : List WinEvent) {c a : Nat} (n : Nat) (hne : c ≠ a) :
    (linkNext heap c n)[a]? = heap[a]? := by
  unfold linkNext
  split
  · rfl
  · simp [List.getElem?_set_ne hne]

theorem linkNext_get_eq (heap : List WinEvent) {c : Nat} (n : Nat) {ce : WinEvent}
    (hc : heap[c]? = some ce) : (linkNext heap c n)[c]? = some { ce with next := some n } := by
  have hlt : c < heap.length := by
    by_contra hcon
    rw [List.getElem?_eq_none (by omega)] at hc
    cases hc
  simp [linkNext, hc, List.getElem?_set, hlt]

theorem keyAt_linkNext (heap : List WinEvent) (c n a : Nat) :
    keyAt (linkNext heap c n) a = keyAt heap a := by
  by_cases hca : c = a
  · subst hca
    cases hc : heap[c]? with
    | none => simp [linkNext, hc]
    | some ce => simp [keyAt, linkNext_get_eq heap n hc, hc, WinEvent.Key]
  · simp [keyAt, linkNext_get_ne heap n hca]

theorem expireAtOf_linkNext (heap : List WinEvent) (c n a : Nat) :
    expireAtOf (linkNext heap c n) a = expireAtOf heap a := by
  by_cases hca : c = a
  · subst hca
    cases hc : heap[c]? with
    | none => simp [linkNext, hc]
    | some ce => simp [expireAtOf, linkNext_get_eq heap n hc, hc]
  · simp [expireAtOf, linkNext_get_ne heap n hca]

theorem keyAt_append_lt (heap : List WinEvent) (we : WinEvent) {a : Nat}
    (ha : a < heap.length) : keyAt (heap ++ [we]) a = keyAt heap a := by
  simp [keyAt, List.getElem?_append_left ha]

theorem keyAt_append_length (heap : List WinEvent) (we : WinEvent) :
    keyAt (heap ++ [we]) heap.length = we.Key := by
  simp [keyAt]

theorem expireAtOf_append_lt (heap : List WinEvent) (we : WinEvent) {a : Nat}
    (ha : a < heap.length) : expireAtOf (heap ++ [we]) a = expireAtOf heap a := by
  simp [expireAtOf, List.getElem?_append_left ha]

theorem afterPush_heap_length (w : Window) (e : Event) (now : Int) :
    (afterPush w e now).heap.length = w.heap.length + 1 := by
  simp only [afterPush]
  split <;> simp [linkNext_length]

theorem keyAt_afterPush_lt (w : Window) (e : Event) (now : Int) {a : Nat}
    (ha : a < w.heap.length) : keyAt (afterPush w e now).heap a = keyAt w.heap a := by
  simp only [afterPush]
  split
  · exact keyAt_append_lt _ _ ha
  · rw [keyAt_linkNext]; exact keyAt_append_lt _ _ ha

theorem keyAt_afterPush_length (w : Window) (e : Event) (now : Int) :
    keyAt (afterPush w e now).heap w.heap.length = e.Key := by
  simp only [afterPush]
  split
  · rw [keyAt_append_length]; rfl
  · rw [keyAt_linkNext, keyAt_append_length]; rfl

theorem Inv.last {w : Window} (h : Inv w) {c : Nat} (hc : w.buffer.getLast? = some c) :
    c + 1 = w.heap.length ∧ c ∈ w.buffer := by
  have hmem : c ∈ w.buffer := List.mem_of_getLast?_eq_some hc
  have hle := h.le
  rw [h.buf, List.getLast?_range'] at hc
  split at hc
  · cases hc
  · simp only [Option.some.injEq, Window.base] at hc
    exact ⟨by omega, hmem⟩

theorem afterPush_map_key {w : Window} (h : Inv w) (e : Event) (now : Int) :
    w.buffer.map (keyAt (afterPush w e now).heap) = w.buffer.map (keyAt w.heap) := by
  apply List.map_congr_left
  intro a ha
  exact keyAt_afterPush_lt w e now (h.mem_lt ha)

theorem afterPush_base {w : Window} (h : Inv w) (e : Event) (now : Int) :
    (afterPush w e now).base = w.base := by
  have hle := h.le
  simp only [Window.base, afterPush_heap_length]
  simp only [afterPush, List.length_append, List.length_singleton]
  omega

theorem afterPush_inv {w : Window} (h : Inv w) {e : Event}
    (hl : tableLoad w.table e.Key = none) (now : Int) : Inv (afterPush w e now) := by
  have hle := h.le
  have hnone := h.load_none hl
  obtain ⟨t, ht, hcb⟩ := h.timer
  have hbl : w.base + w.buffer.length = w.heap.length := by
    simp only [Window.base]; omega
  refine ⟨?_, ?_, ?_, ?_, ?_, ?_, rfl, ?_, ?_, ?_⟩
  rotate_right
  · intro q hq
    rw [afterPush_heap_length]
    exact Nat.lt_succ_of_lt (h.dups q hq)
  · rw [afterPush_heap_length]; simp [afterPush]; exact hle
  · rw [afterPush_base h]
    have hb := h.buf
    simp only [afterPush, List.length_append, List.length_singleton, List.range'_1_concat, hbl]
    rw [← hb]
  · rw [afterPush_base h]; simpa [afterPush] using h.pop
  · have hk := afterPush_map_key h e now
    have hn := keyAt_afterPush_length w e now
    have htab := h.table
    have hmap : w.buffer.map (fun a => (keyAt (afterPush w e now).heap a, a)) =
        w.buffer.map (fun a => (keyAt w.heap a, a)) := by
      apply List.map_congr_left
      intro a ha
      rw [keyAt_afterPush_lt w e now (h.mem_lt ha)]
    show w.table ++ [(e.Key, w.heap.length)] =
      (w.buffer ++ [w.heap.length]).map (fun a => (keyAt (afterPush w e now).heap a, a))
    rw [List.map_append, hmap, ← htab]
    simp [hn]
  · show ((w.buffer ++ [w.heap.length]).map (keyAt (afterPush w e now).heap)).Nodup
    rw [List.map_append, afterPush_map_key h e now]
    simp only [List.map_cons, List.map_nil, keyAt_afterPush_length]
    rw [List.nodup_append]
    refine ⟨h.keys, List.nodup_singleton _, ?_⟩
    intro k hk1 hk2
    simp only [List.mem_singleton] at hk2
    subst hk2
    simp only [List.mem_map] at hk1
    obtain ⟨a, ha, hka⟩ := hk1
    exact hnone a ha hka
  · intro a ha x hx
    rw [afterPush_heap_length]
    have ha2 : a ∈ w.buffer ∨ a = w.heap.length := by
      simpa [afterPush] using ha
    cases hlast : w.buffer.getLast? with
    | none =>
      have hnil : w.buffer = [] := by simpa using hlast
      have haeq : a = w.heap.length := by
        rcases ha2 with h1 | h1
        · rw [hnil] at h1; cases h1
        · exact h1
      subst haeq
      simp only [afterPush, hlast] at hx
      simp only [List.getElem?_concat_length, Option.some.injEq] at hx
      subst hx
      simp [newEntry]
    | some c =>
      obtain ⟨hc1, hc2⟩ := h.last hlast
      simp only [afterPush, hlast] at hx
      rcases ha2 with h1 | h1
      · have halt := h.mem_lt h1
        by_cases hac : c = a
        · subst hac
          obtain ⟨ce, hce⟩ := h.get hc2
          have hce2 : (w.heap ++ [newEntry w e now])[c]? = some ce := by
            rw [List.getElem?_append_left halt]; exact hce
          rw [linkNext_get_eq _ _ hce2] at hx
          simp only [Option.some.injEq] at hx
          subst hx
          simp [hc1]
        · rw [linkNext_get_ne _ _ hac, List.getElem?_append_left halt] at hx
          rw [h.next a h1 x hx]
          have : a + 1 < w.heap.length := by omega
          simp [this, halt]
      · subst h1
        have hne : c ≠ w.heap.length := by omega
        rw [linkNext_get_ne _ _ hne] at hx
        simp only [List.getElem?_concat_length, Option.some.injEq] at hx
        subst hx
        simp [newEntry]
  · simp [afterPush]
  · cases hb : w.buffer with
    | nil =>
      exact ⟨⟨some (now + timeSub (timeAdd now w.duration) now), Callback.popThenReset⟩,
        by simp [afterPush, hb], rfl⟩
    | cons b rest => exact ⟨t, by simp [afterPush, hb, ht], hcb⟩

/-! ### `Add`, written out -/

theorem pushBuffer_new {w : Window} (h : Inv w) (e : Event) (now : Int) (ok : Bool)
    (hcap : (w.buffer.length : Int) < w.bufferCap) :
    pushBuffer
        { w with
          table := w.table ++ [(e.Key, w.heap.length)]
          heap := w.heap ++ [newEntry w e now] }
        w.heap.length now ok =
      if w.size < (w.buffer.length : Int) + 1 then
        (pop (afterPush w e now) now ok).map Prod.fst
      else some (afterPush w e now) := by
  obtain ⟨t, ht, hcb⟩ := h.timer
  have hcurr := h.curr
  have hhead := h.head
  cases hlast : w.buffer.getLast? with
  | none =>
    have hnil : w.buffer = [] := by simpa using hlast
    rw [hlast] at hcurr
    rw [hnil] at hhead
    simp only [List.head?_nil] at hhead
    have hst : afterPush w e now =
        { w with
          table := w.table ++ [(e.Key, w.heap.length)]
          heap := w.heap ++ [newEntry w e now]
          buffer := [w.heap.length]
          head := some w.heap.length
          curr := some w.heap.length
          expiration := some
            { deadline := some (now + timeSub (timeAdd now w.duration) now)
              callback := Callback.popThenReset } } := by
      simp [afterPush, hlast, hnil]
    rw [hst]
    have hcap0 : (0 : Int) < w.bufferCap := by simpa [hnil] using hcap
    simp [pushBuffer, hcap0, hcurr, hnil, armExpiration, ht, hcb, newEntry]
  | some c =>
    obtain ⟨hc1, hc2⟩ := h.last hlast
    obtain ⟨ce, hce⟩ := h.get hc2
    have hclt : c < w.heap.length := by omega
    rw [hlast] at hcurr
    have hne : w.buffer ≠ [] := by
      intro hcon; rw [hcon] at hc2; cases hc2
    obtain ⟨b, rest, hbr⟩ := List.exists_cons_of_ne_nil hne
    have hst : afterPush w e now =
        { w with
          table := w.table ++ [(e.Key, w.heap.length)]
          heap := (w.heap ++ [newEntry w e now]).set c { ce with next := some w.heap.length }
          buffer := w.buffer ++ [w.heap.length]
          curr := some w.heap.length } := by
      simp only [afterPush, hlast, linkNext, List.getElem?_append_left hclt, hce]
      cases w
      simp only at hbr hhead
      subst hbr hhead
      simp
    rw [hst]
    simp [pushBuffer, hcap, hcurr, List.getElem?_append_left hclt, hce]

theorem Add_new {w : Window} (h : Inv w) {e : Event} (now : Int) (ok : Bool)
    (hl : tableLoad w.table e.Key = none) :
    Add w e now ok =
      if (w.buffer.length : Int) < w.bufferCap then
        if w.size < (w.buffer.length : Int) + 1 then some (afterPop (afterPush w e now) now ok)
        else some (afterPush w e now)
      else none := by
  by_cases hcap : (w.buffer.length : Int) < w.bufferCap
  swap
  · simp [Add, hl, pushBuffer, hcap]
  rw [if_pos hcap]
  have hp := pushBuffer_new h e now ok hcap
  have hinv := afterPush_inv h hl now
  have hbuf : (afterPush w e now).buffer = w.buffer ++ [w.heap.length] := rfl
  have hpop : pop (afterPush w e now) now ok =
      some (afterPop (afterPush w e now) now ok, (afterPush w e now).buffer.head?) := by
    cases hb : (afterPush w e now).buffer with
    | nil => rw [hbuf] at hb; simp at hb
    | cons a rest => rw [pop_cons hinv hb]; rfl
  rw [hpop] at hp
  simp only [Add, hl]
  exact hp

theorem Add_dup {w : Window} (h : Inv w) {e : Event} {old : Nat} (now : Int) (ok : Bool)
    (hl : tableLoad w.table e.Key = some old) :
    Add w e now ok = some (afterDup w old e now) := by
  obtain ⟨hmem, _⟩ := h.load_some hl
  obtain ⟨o, ho⟩ := h.get hmem
  simp [Add, hl, ho, afterDup, bumpRepeat, newEntry]

theorem bumpRepeat_length (heap : List WinEvent) (old : Nat) :
    (bumpRepeat heap old).length = heap.length := by
  unfold bumpRepeat
  split <;> simp

theorem bumpRepeat_get_ne (heap : List WinEvent) {old a : Nat} (hne : old ≠ a) :
    (bumpRepeat heap old)[a]? = heap[a]? := by
  unfold bumpRepeat
  split
  · rfl
  · simp [List.getElem?_set_ne hne]

theorem bumpRepeat_get_eq (heap : List WinEvent) {old : Nat} {o : WinEvent}
    (ho : heap[old]? = some o) :
    (bumpRepeat heap old)[old]? = some { o with repeatTimes := o.repeatTimes + 1 } := by
  have hlt : old < heap.length := by
    by_contra hcon
    rw [List.getElem?_eq_none (by omega)] at ho
    cases ho
  simp [bumpRepeat, ho, List.getElem?_set, hlt]

theorem keyAt_bumpRepeat (heap : List WinEvent) (old a : Nat) :
    keyAt (bumpRepeat heap old) a = keyAt heap a := by
  by_cases hca : old = a
  · subst hca
    cases hc : heap[old]? with
    | none => simp [bumpRepeat, hc]
    | some o => simp [keyAt, bumpRepeat_get_eq heap hc, hc, WinEvent.Key]
  · simp [keyAt, bumpRepeat_get_ne heap hca]

theorem expireAtOf_bumpRepeat (heap : List WinEvent) (old a : Nat) :
    expireAtOf (bumpRepeat heap old) a = expireAtOf heap a := by
  by_cases hca : old = a
  · subst hca
    cases hc : heap[old]? with
    | none => simp [bumpRepeat, hc]
    | some o => simp [expireAtOf, bumpRepeat_get_eq heap hc, hc]
  · simp [expireAtOf, bumpRepeat_get_ne heap hca]

theorem afterDup_inv {w : Window} (h : Inv w) {old : Nat} (hold : old ∈ w.buffer) (e : Event)
    (now : Int) : Inv (afterDup w old e now) := by
  have hfun : (fun a => (keyAt (bumpRepeat w.heap old) a, a)) = fun a => (keyAt w.heap a, a) := by
    funext a; rw [keyAt_bumpRepeat]
  have hfun2 : keyAt (bumpRepeat w.heap old) = keyAt w.heap := by
    funext a; rw [keyAt_bumpRepeat]
  have hbase : (afterDup w old e now).base = w.base := by
    simp [afterDup, Window.base, bumpRepeat_length]
  refine ⟨?_, ?_, ?_, ?_, ?_, ?_, h.head, h.curr, h.timer, ?_⟩
  rotate_right
  · intro q hq
    have hq2 : q ∈ w.duplicates ++ [(old, Iface.winEvent (newEntry w e now))] := hq
    show q.1 < (bumpRepeat w.heap old).length
    rw [bumpRepeat_length]
    rw [List.mem_append, List.mem_singleton] at hq2
    rcases hq2 with h1 | h1
    · exact h.dups q h1
    · rw [h1]; exact h.mem_lt hold
  · simpa [afterDup, bumpRepeat_length] using h.le
  · rw [hbase]; exact h.buf
  · rw [hbase]; exact h.pop
  · show w.table = w.buffer.map (fun a => (keyAt (bumpRepeat w.heap old) a, a))
    rw [hfun]; exact h.table
  · show (w.buffer.map (keyAt (bumpRepeat w.heap old))).Nodup
    rw [hfun2]; exact h.keys
  · intro a ha x hx
    have ha2 : a ∈ w.buffer := ha
    have hx2 : (bumpRepeat w.heap old)[a]? = some x := hx
    show x.next = if a + 1 < (bumpRepeat w.heap old).length then some (a + 1) else none
    rw [bumpRepeat_length]
    by_cases hoa : old = a
    · subst hoa
      obtain ⟨o, ho⟩ := h.get ha2
      rw [bumpRepeat_get_eq _ ho] at hx2
      simp only [Option.some.injEq] at hx2
      subst hx2
      exact h.next old ha2 o ho
    · rw [bumpRepeat_get_ne _ hoa] at hx2
      exact h.next a ha2 x hx2

/-! ### The timer firing, written out -/

theorem disarm_inv {w : Window} (h : Inv w) : Inv (disarm w) := by
  obtain ⟨t, ht, hcb⟩ := h.timer
  have hd : disarm w = { w with expiration := some { t with deadline := none } } := by
    simp [disarm, ht]
  rw [hd]
  exact ⟨h.le, h.buf, h.pop, h.table, h.keys, h.next, h.head, h.curr, ⟨_, rfl, hcb⟩, h.dups⟩

theorem resetExpiration_nil {w : Window} (hb : w.buffer = []) (now : Int) :
    resetExpiration w now = some w := by
  simp [resetExpiration, hb]

theorem resetExpiration_afterPop {w : Window} (h : Inv w) {a : Nat} {rest : List Nat}
    (hb : w.buffer = a :: rest) (now : Int) (ok : Bool) :
    resetExpiration (afterPop w now ok) now = some (afterPop w now ok) := by
  cases hr : rest with
  | nil => exact resetExpiration_nil (by simp [afterPop, hb, hr]) now
  | cons b rest2 =>
    obtain ⟨fe, hfe⟩ := h.get (a := b) (by rw [hb, hr]; simp)
    simp [resetExpiration, afterPop, hb, hr, hfe, armExpiration, expireAtOf]

theorem fire_nil {w : Window} (h : Inv w) (hb : w.buffer = []) (now : Int) (ok : Bool) :
    fire w now ok = some (disarm w, none) := by
  obtain ⟨t, ht, hcb⟩ := h.timer
  have hd : disarm w = { w with expiration := some { t with deadline := none } } := by
    simp [disarm, ht]
  have hbd : (disarm w).buffer = [] := by rw [hd]; exact hb
  have hp := pop_nil (disarm_inv h) hbd now ok
  simp only [fire, ht]
  rw [← hd, hp]
  simp only [hcb]
  rw [resetExpiration_nil hbd]
  rfl

theorem fire_cons {w : Window} (h : Inv w) {a : Nat} {rest : List Nat}
    (hb : w.buffer = a :: rest) (now : Int) (ok : Bool) :
    fire w now ok = some (afterPop (disarm w) now ok, some a) := by
  obtain ⟨t, ht, hcb⟩ := h.timer
  have hd : disarm w = { w with expiration := some { t with deadline := none } } := by
    simp [disarm, ht]
  have hb2 : (disarm w).buffer = a :: rest := by rw [hd]; exact hb
  have hp := pop_cons (disarm_inv h) hb2 now ok
  have hr := resetExpiration_afterPop (disarm_inv h) hb2 now ok
  simp only [fire, ht]
  rw [← hd, hp]
  simp only [hcb]
  rw [hr]
  rfl

/-! ### Steps -/

theorem step_trans {w : Window} (h : Inv w) {op : Op} {w1 : Window}
    (hs : step w op = some w1) : Trans w op w1 := by
  cases op with
  | add e now ok =>
    simp only [step] at hs
    cases hl : tableLoad w.table e.Key with
    | some old =>
      rw [Add_dup h now ok hl] at hs
      cases hs
      exact Trans.dup e now ok old hl
    | none =>
      rw [Add_new h now ok hl] at hs
      by_cases hcap : (w.buffer.length : Int) < w.bufferCap
      · rw [if_pos hcap] at hs
        by_cases hov : w.size < (w.buffer.length : Int) + 1
        · rw [if_pos hov] at hs
          cases hs
          exact Trans.overflow e now ok hl hcap hov
        · rw [if_neg hov] at hs
          cases hs
          exact Trans.push e now ok hl hcap hov
      · rw [if_neg hcap] at hs
        cases hs
  | fire now ok =>
    simp only [step] at hs
    cases hb : w.buffer with
    | nil =>
      rw [fire_nil h hb] at hs
      cases hs
      exact Trans.idle now ok hb
    | cons a rest =>
      rw [fire_cons h hb] at hs
      cases hs
      exact Trans.expire now ok a rest hb

theorem trans_step {w : Window} (h : Inv w) {op : Op} {w1 : Window}
    (ht : Trans w op w1) : step w op = some w1 := by
  cases ht with
  | dup e now ok old hl => simp only [step]; exact Add_dup h now ok hl
  | push e now ok hl hcap hov => simp only [step]; rw [Add_new h now ok hl, if_pos hcap, if_neg hov]
  | overflow e now ok hl hcap hov =>
    simp only [step]; rw [Add_new h now ok hl, if_pos hcap, if_pos hov]
  | idle now ok hb => simp only [step]; rw [fire_nil h hb]; rfl
  | expire now ok a rest hb => simp only [step]; rw [fire_cons h hb]; rfl

theorem trans_inv {w : Window} (h : Inv w) {op : Op} {w1 : Window}
    (ht : Trans w op w1) : Inv w1 := by
  cases ht with
  | dup e now ok old hl => exact afterDup_inv h (h.load_some hl).1 e now
  | push e now ok hl hcap hov => exact afterPush_inv h hl now
  | overflow e now ok hl hcap hov =>
    have hinv := afterPush_inv h hl now
    cases hb : (afterPush w e now).buffer with
    | nil =>
      have : (afterPush w e now).buffer = w.buffer ++ [w.heap.length] := rfl
      rw [this] at hb; simp at hb
    | cons a rest => exact afterPop_inv hinv hb now ok
  | idle now ok hb => exact disarm_inv h
  | expire now ok a rest hb =>
    have hd := disarm_inv h
    have hb2 : (disarm w).buffer = a :: rest := by
      unfold disarm; split <;> exact hb
    exact afterPop_inv hd hb2 now ok

theorem step_inv {w : Window} (h : Inv w) {op : Op} {w1 : Window}
    (hs : step w op = some w1) : Inv w1 :=
  trans_inv h (step_trans h hs)

theorem run_inv {w : Window} (h : Inv w) {ops : List Op} {w1 : Window}
    (hr : run w ops = some w1) : Inv w1 := by
  induction ops generalizing w with
  | nil => simp only [run, Option.some.injEq] at hr; subst hr; exact h
  | cons op ops ih =>
    simp only [run] at hr
    cases hs : step w op with
    | none => rw [hs] at hr; cases hr
    | some w2 => rw [hs] at hr; exact ih (step_inv h hs) hr

theorem New_inv {options : List ConfigOption} {pool : Option Pool} {now : Int} {w0 : Window}
    (hn : New options pool now = some w0) : Inv w0 := by
  simp only [New] at hn
  split at hn
  · cases hn
  · simp only [Option.some.injEq] at hn
    subst hn
    exact ⟨by simp, by simp [Window.base], by simp [Window.base], by simp, by simp, by simp,
      rfl, rfl, ⟨_, rfl, rfl⟩, by simp⟩

theorem Reachable.inv {w : Window} (h : Reachable w) : Inv w := by
  obtain ⟨options, pool, now, w0, ops, hn, hr⟩ := h
  exact run_inv (New_inv hn) hr

/-! ### Capacity and progress -/

theorem trans_cap {w : Window} (hc : Cap w) {op : Op} {w1 : Window}
    (ht : Trans w op w1) : Cap w1 := by
  obtain ⟨h1, h2⟩ := hc
  cases ht with
  | dup e now ok old hl => exact ⟨h1, h2⟩
  | push e now ok hl hcap hov =>
    refine ⟨?_, h2⟩
    show (((w.buffer ++ [w.heap.length]).length : Nat) : Int) ≤ w.size
    simp only [List.length_append, List.length_singleton]
    push_cast
    omega
  | overflow e now ok hl hcap hov =>
    refine ⟨?_, h2⟩
    show (((w.buffer ++ [w.heap.length]).tail.length : Nat) : Int) ≤ w.size
    simp only [List.length_tail, List.length_append, List.length_singleton]
    omega
  | idle now ok hb =>
    unfold disarm
    split
    · exact ⟨h1, h2⟩
    · exact ⟨h1, h2⟩
  | expire now ok a rest hb =>
    have hb2 : (disarm w).buffer = w.buffer := by unfold disarm; split <;> rfl
    have hs : (disarm w).size = w.size := by unfold disarm; split <;> rfl
    have hbc : (disarm w).bufferCap = w.bufferCap := by unfold disarm; split <;> rfl
    refine ⟨?_, ?_⟩
    · show (((disarm w).buffer.tail.length : Nat) : Int) ≤ (disarm w).size
      rw [hb2, hs, List.length_tail]
      omega
    · show (disarm w).bufferCap = (disarm w).size + 1
      rw [hbc, hs]; exact h2

theorem step_total {w : Window} (h : Inv w) (hc : Cap w) (op : Op) :
    ∃ w1, step w op = some w1 := by
  obtain ⟨h1, h2⟩ := hc
  cases op with
  | add e now ok =>
    cases hl : tableLoad w.table e.Key with
    | some old => exact ⟨_, trans_step h (Trans.dup e now ok old hl)⟩
    | none =>
      have hcap : (w.buffer.length : Int) < w.bufferCap := by omega
      by_cases hov : w.size < (w.buffer.length : Int) + 1
      · exact ⟨_, trans_step h (Trans.overflow e now ok hl hcap hov)⟩
      · exact ⟨_, trans_step h (Trans.push e now ok hl hcap hov)⟩
  | fire now ok =>
    cases hb : w.buffer with
    | nil => exact ⟨_, trans_step h (Trans.idle now ok hb)⟩
    | cons a rest => exact ⟨_, trans_step h (Trans.expire now ok a rest hb)⟩

theorem run_total {w : Window} (h : Inv w) (hc : Cap w) (ops : List Op) :
    ∃ w1, run w ops = some w1 ∧ Inv w1 ∧ Cap w1 := by
  induction ops generalizing w with
  | nil => exact ⟨w, rfl, h, hc⟩
  | cons op ops ih =>
    obtain ⟨w2, hs⟩ := step_total h hc op
    have ht := step_trans h hs
    obtain ⟨w1, hr, hi, hcc⟩ := ih (trans_inv h ht) (trans_cap hc ht)
    exact ⟨w1, by simp only [run, hs]; exact hr, hi, hcc⟩

theorem wrap64_of_isInt64 {x : Int} (h : isInt64 x) : wrap64 x = x := by
  obtain ⟨h1, h2⟩ := h
  simp only [minInt64, maxInt64] at h1 h2
  unfold wrap64
  omega

theorem New_cap {options : List ConfigOption} {pool : Option Pool} {now : Int} {w0 : Window}
    (hn : New options pool now = some w0) (h0 : 0 ≤ w0.size) (h64 : w0.size ≤ maxInt64) :
    Cap w0 := by
  simp only [New] at hn
  split at hn
  · cases hn
  · rename_i hcap
    simp only [Option.some.injEq] at hn
    subst hn
    simp only [maxInt64] at h64
    simp only at h0 h64
    generalize (List.foldl (fun c opt => opt c) defaultConfig options).size = sz at *
    refine ⟨by simpa using h0, ?_⟩
    simp only [wrap64] at hcap ⊢
    omega

theorem trans_size {w : Window} {op : Op} {w1 : Window} (ht : Trans w op w1) :
    w1.size = w.size ∧ w1.duration = w.duration ∧ w1.pool = w.pool := by
  cases ht with
  | dup e now ok old hl => exact ⟨rfl, rfl, rfl⟩
  | push e now ok hl hcap hov => exact ⟨rfl, rfl, rfl⟩
  | overflow e now ok hl hcap hov => exact ⟨rfl, rfl, rfl⟩
  | idle now ok hb => unfold disarm; split <;> exact ⟨rfl, rfl, rfl⟩
  | expire now ok a rest hb =>
    show (disarm w).size = w.size ∧ (disarm w).duration = w.duration ∧ (disarm w).pool = w.pool
    unfold disarm; split <;> exact ⟨rfl, rfl, rfl⟩

theorem run_size {w : Window} (h : Inv w) {ops : List Op} {w1 : Window}
    (hr : run w ops = some w1) :
    w1.size = w.size ∧ w1.duration = w.duration ∧ w1.pool = w.pool := by
  induction ops generalizing w with
  | nil => simp only [run, Option.some.injEq] at hr; subst hr; exact ⟨rfl, rfl, rfl⟩
  | cons op ops ih =>
    simp only [run] at hr
    cases hs : step w op with
    | none => rw [hs] at hr; cases hr
    | some w2 =>
      rw [hs] at hr
      have ht := step_trans h hs
      obtain ⟨a1, a2, a3⟩ := ih (trans_inv h ht) hr
      obtain ⟨b1, b2, b3⟩ := trans_size ht
      exact ⟨a1.trans b1, a2.trans b2, a3.trans b3⟩

/-! ### The heap lists the first arrivals -/

theorem linkNext_map_ident (heap : List WinEvent) (c n : Nat) :
    (linkNext heap c n).map WinEvent.ident = heap.map WinEvent.ident := by
  apply List.ext_getElem?
  intro i
  rw [List.getElem?_map, List.getElem?_map]
  by_cases hci : c = i
  · subst hci
    cases hc : heap[c]? with
    | none => simp [linkNext, hc]
    | some ce => rw [linkNext_get_eq heap n hc]; rfl
  · rw [linkNext_get_ne heap n hci]

theorem bumpRepeat_map_ident (heap : List WinEvent) (old : Nat) :
    (bumpRepeat heap old).map WinEvent.ident = heap.map WinEvent.ident := by
  apply List.ext_getElem?
  intro i
  rw [List.getElem?_map, List.getElem?_map]
  by_cases hci : old = i
  · subst hci
    cases hc : heap[old]? with
    | none => simp [bumpRepeat, hc]
    | some o => rw [bumpRepeat_get_eq heap hc]; rfl
  · rw [bumpRepeat_get_ne heap hci]

theorem afterPush_map_ident (w : Window) (e : Event) (now : Int) :
    (afterPush w e now).heap.map WinEvent.ident =
      w.heap.map WinEvent.ident ++ [(e, timeAdd now w.duration)] := by
  simp only [afterPush]
  split
  · simp [WinEvent.ident, newEntry]
  · rw [linkNext_map_ident]; simp [WinEvent.ident, newEntry]

theorem disarm_heap (w : Window) : (disarm w).heap = w.heap := by
  unfold disarm; split <;> rfl

theorem disarm_buffer (w : Window) : (disarm w).buffer = w.buffer := by
  unfold disarm; split <;> rfl

theorem disarm_popped (w : Window) : (disarm w).popped = w.popped := by
  unfold disarm; split <;> rfl

theorem disarm_pool (w : Window) : (disarm w).pool = w.pool := by
  unfold disarm; split <;> rfl

theorem disarm_table (w : Window) : (disarm w).table = w.table := by
  unfold disarm; split <;> rfl

theorem disarm_duplicates (w : Window) : (disarm w).duplicates = w.duplicates := by
  unfold disarm; split <;> rfl

theorem firstArrivals_cons {w : Window} {op : Op} {w1 : Window} (hs : step w op = some w1)
    (ops : List Op) :
    firstArrivals w (op :: ops) = firstArrivals w [op] ++ firstArrivals w1 ops := by
  simp [firstArrivals, hs]

theorem trans_heap {w : Window} {op : Op} {w1 : Window} (h : Inv w) (ht : Trans w op w1) :
    w1.heap.map WinEvent.ident =
      w.heap.map WinEvent.ident ++
        (firstArrivals w [op]).map (fun p => (p.1, timeAdd p.2 w.duration)) := by
  have hs := trans_step h ht
  cases ht with
  | dup e now ok old hl =>
    simp only [firstArrivals, hl, hs]
    simp [afterDup, bumpRepeat_map_ident]
  | push e now ok hl hcap hov =>
    simp only [firstArrivals, hl, hs]
    simp [afterPush_map_ident]
  | overflow e now ok hl hcap hov =>
    simp only [firstArrivals, hl, hs]
    have : (afterPop (afterPush w e now) now ok).heap = (afterPush w e now).heap := rfl
    rw [this]
    simp [afterPush_map_ident]
  | idle now ok hb =>
    simp only [firstArrivals, hs]
    simp [disarm_heap]
  | expire now ok a rest hb =>
    simp only [firstArrivals, hs]
    have : (afterPop (disarm w) now ok).heap = (disarm w).heap := rfl
    rw [this]
    simp [disarm_heap]

theorem run_heap {w : Window} (h : Inv w) {ops : List Op} {w1 : Window}
    (hr : run w ops = some w1) :
    w1.heap.map WinEvent.ident =
      w.heap.map WinEvent.ident ++
        (firstArrivals w ops).map (fun p => (p.1, timeAdd p.2 w.duration)) := by
  induction ops generalizing w with
  | nil =>
    simp only [run, Option.some.injEq] at hr
    subst hr
    simp [firstArrivals]
  | cons op ops ih =>
    simp only [run] at hr
    cases hs : step w op with
    | none => rw [hs] at hr; cases hr
    | some w2 =>
      rw [hs] at hr
      have ht := step_trans h hs
      have h2 := ih (trans_inv h ht) hr
      rw [h2, trans_heap h ht, firstArrivals_cons hs ops, (trans_size ht).2.1]
      simp

theorem Inv.evicted_append_buffer {w : Window} (h : Inv w) :
    w.evicted ++ w.buffer = List.range w.heap.length := by
  have hle := h.le
  have hb := h.buf
  have hp := h.pop
  unfold Window.evicted
  rw [hp, hb, List.range_eq_range', List.range_eq_range']
  have := List.range'_append_1 0 w.base w.buffer.length
  simp only [Nat.zero_add] at this
  rw [this]
  congr 1
  simp only [Window.base]; omega

theorem map_eventAt_range (heap : List WinEvent) :
    (List.range heap.length).map (eventAt heap) = heap.map (fun x => some x.UniqueEvent) := by
  apply List.ext_getElem?
  intro i
  rw [List.getElem?_map, List.getElem?_map]
  by_cases hi : i < heap.length
  · rw [List.getElem?_range hi, List.getElem?_eq_getElem hi]
    simp [eventAt, List.getElem?_eq_getElem hi]
  · rw [List.getElem?_eq_none (by simpa using hi), List.getElem?_eq_none (by simpa using hi)]
    rfl

theorem AllAccepted.submitted {w : Window} (h : AllAccepted w) : w.submitted = w.evicted := by
  unfold Window.submitted Window.evicted
  rw [List.filter_eq_self.mpr]
  intro q hq
  simp [h q hq]

theorem trans_accepted {w : Window} {op : Op} {w1 : Window} (ht : Trans w op w1)
    (ha : AllAccepted w) {p : Pool} (hp : w.pool = some p) (hrel : p.released = false)
    (hok : op.ok = true) : AllAccepted w1 := by
  have hout : submitOutcome w.pool true = Outcome.accepted := by
    simp [submitOutcome, hp, Pool.Submit, hrel]
  cases ht with
  | dup e now ok old hl => exact ha
  | push e now ok hl hcap hov => exact ha
  | overflow e now ok hl hcap hov =>
    simp only [Op.ok] at hok
    subst hok
    intro q hq
    have hq2 : q ∈ w.popped ++ [((w.buffer ++ [w.heap.length]).headD 0, submitOutcome w.pool true)] := hq
    rw [List.mem_append, List.mem_singleton] at hq2
    rcases hq2 with h1 | h1
    · exact ha q h1
    · rw [h1]; exact hout
  | idle now ok hb => intro q hq; rw [disarm_popped] at hq; exact ha q hq
  | expire now ok a rest hb =>
    simp only [Op.ok] at hok
    subst hok
    intro q hq
    have hq2 : q ∈ (disarm w).popped ++ [((disarm w).buffer.headD 0, submitOutcome (disarm w).pool true)] := hq
    rw [List.mem_append, List.mem_singleton, disarm_popped, disarm_pool] at hq2
    rcases hq2 with h1 | h1
    · exact ha q h1
    · rw [h1]; exact hout

theorem run_accepted {w : Window} (h : Inv w) {ops : List Op} {w1 : Window}
    (hr : run w ops = some w1) (ha : AllAccepted w) {p : Pool} (hp : w.pool = some p)
    (hrel : p.released = false) (hok : ∀ op ∈ ops, op.ok = true) : AllAccepted w1 := by
  induction ops generalizing w with
  | nil => simp only [run, Option.some.injEq] at hr; subst hr; exact ha
  | cons op ops ih =>
    simp only [run] at hr
    cases hs : step w op with
    | none => rw [hs] at hr; cases hr
    | some w2 =>
      rw [hs] at hr
      have ht := step_trans h hs
      exact ih (trans_inv h ht) hr
        (trans_accepted ht ha hp hrel (hok op (List.mem_cons_self _ _)))
        ((trans_size ht).2.2.trans hp) (fun o ho => hok o (List.mem_cons_of_mem _ ho))

theorem New_fields {options : List ConfigOption} {pool : Option Pool} {now : Int} {w0 : Window}
    (hn : New options pool now = some w0) :
    w0.heap = [] ∧ w0.popped = [] ∧ w0.buffer = [] ∧ w0.pool = pool ∧ w0.table = [] ∧
      w0.duplicates = [] := by
  simp only [New] at hn
  split at hn
  · cases hn
  · simp only [Option.some.injEq] at hn
    subst hn
    exact ⟨rfl, rfl, rfl, rfl, rfl, rfl⟩

/-! ### Entries while they are buffered -/

theorem afterPush_get_length {w : Window} (h : Inv w) (e : Event) (now : Int) :
    (afterPush w e now).heap[w.heap.length]? = some (newEntry w e now) := by
  simp only [afterPush]
  cases hlast : w.buffer.getLast? with
  | none => simp
  | some c =>
    obtain ⟨hc1, -⟩ := h.last hlast
    have hne : c ≠ w.heap.length := by omega
    simp only []
    rw [linkNext_get_ne _ _ hne]
    simp

theorem afterPush_get_lt (w : Window) (e : Event) (now : Int) {a : Nat} {x : WinEvent}
    (hx : w.heap[a]? = some x) :
    ∃ y, (afterPush w e now).heap[a]? = some y ∧ y.UniqueEvent = x.UniqueEvent ∧
      y.expireAt = x.expireAt ∧ y.repeatTimes = x.repeatTimes := by
  have halt : a < w.heap.length := by
    by_contra hcon
    rw [List.getElem?_eq_none (by omega)] at hx
    cases hx
  have hx2 : (w.heap ++ [newEntry w e now])[a]? = some x := by
    rw [List.getElem?_append_left halt]; exact hx
  simp only [afterPush]
  cases hlast : w.buffer.getLast? with
  | none => exact ⟨x, hx2, rfl, rfl, rfl⟩
  | some c =>
    simp only []
    by_cases hca : c = a
    · subst hca
      exact ⟨_, linkNext_get_eq _ _ hx2, rfl, rfl, rfl⟩
    · rw [linkNext_get_ne _ _ hca]
      exact ⟨x, hx2, rfl, rfl, rfl⟩

theorem Inv.key_inj {w : Window} (h : Inv w) {a b : Nat} (ha : a ∈ w.buffer) (hb : b ∈ w.buffer)
    (hk : keyAt w.heap a = keyAt w.heap b) : a = b :=
  List.inj_on_of_nodup_map h.keys ha hb hk

theorem dupCount_append (w : Window) (a old : Nat) (x : Iface) :
    ((w.duplicates ++ [(old, x)]).filter (fun q => decide (q.1 = a))).length =
      dupCount w a + if old = a then 1 else 0 := by
  unfold dupCount
  rw [List.filter_append, List.length_append]
  by_cases ho : old = a <;> simp [List.filter_cons, ho]

/-- What a step leaves of an entry that is buffered before and after it. -/
theorem trans_kept {w : Window} {op : Op} {w1 : Window} (h : Inv w) (ht : Trans w op w1)
    {a : Nat} (ha : a ∈ w.buffer) :
    repeatAt w1.heap a = repeatAt w.heap a + (if op.addsKey (keyAt w.heap a) then 1 else 0) ∧
      dupCount w1 a = dupCount w a + (if op.addsKey (keyAt w.heap a) then 1 else 0) ∧
      keyAt w1.heap a = keyAt w.heap a ∧ eventAt w1.heap a = eventAt w.heap a := by
  obtain ⟨x, hx⟩ := h.get ha
  have push_case : ∀ (e : Event) (now : Int), tableLoad w.table e.Key = none →
      repeatAt (afterPush w e now).heap a =
          repeatAt w.heap a + (if (Op.add e now true).addsKey (keyAt w.heap a) then 1 else 0) ∧
        keyAt (afterPush w e now).heap a = keyAt w.heap a ∧
        eventAt (afterPush w e now).heap a = eventAt w.heap a := by
    intro e now hl
    obtain ⟨y, hy, h1, h2, h3⟩ := afterPush_get_lt w e now hx
    have hne := h.load_none hl a ha
    have hne2 : ¬ e.Key = keyAt w.heap a := fun hc => hne hc.symm
    simp [repeatAt, keyAt, eventAt, hy, hx, h1, h3, WinEvent.Key, Op.addsKey]
    simpa [keyAt, hx, WinEvent.Key] using hne2
  cases ht with
  | dup e now ok old hl =>
    obtain ⟨hold, hk⟩ := h.load_some hl
    show repeatAt (bumpRepeat w.heap old) a = _ ∧
      ((w.duplicates ++ [(old, Iface.winEvent (newEntry w e now))]).filter
        (fun q => decide (q.1 = a))).length = _ ∧
      keyAt (bumpRepeat w.heap old) a = _ ∧ eventAt (bumpRepeat w.heap old) a = _
    rw [dupCount_append, keyAt_bumpRepeat]
    by_cases hoa : old = a
    · subst hoa
      have hadds : (Op.add e now ok).addsKey (keyAt w.heap old) = true := by
        simp [Op.addsKey, hk]
      simp [hadds, repeatAt, eventAt, bumpRepeat_get_eq _ hx, hx]
    · have hadds : (Op.add e now ok).addsKey (keyAt w.heap a) = false := by
        simp only [Op.addsKey, decide_eq_false_iff_not]
        intro hc
        exact hoa (h.key_inj hold ha (hk.trans hc))
      simp [hadds, repeatAt, eventAt, bumpRepeat_get_ne _ hoa, hoa]
  | push e now ok hl hcap hov =>
    obtain ⟨p1, p2, p3⟩ := push_case e now hl
    have hne := h.load_none hl a ha
    refine ⟨p1, ?_, p2, p3⟩
    have : (Op.add e now ok).addsKey (keyAt w.heap a) = false := by
      simp only [Op.addsKey, decide_eq_false_iff_not]
      exact fun hc => hne hc.symm
    rw [this]
    rfl
  | overflow e now ok hl hcap hov =>
    obtain ⟨p1, p2, p3⟩ := push_case e now hl
    have hne := h.load_none hl a ha
    refine ⟨p1, ?_, p2, p3⟩
    have : (Op.add e now ok).addsKey (keyAt w.heap a) = false := by
      simp only [Op.addsKey, decide_eq_false_iff_not]
      exact fun hc => hne hc.symm
    rw [this]
    rfl
  | idle now ok hb =>
    simp only [Op.addsKey, disarm_heap, dupCount, disarm_duplicates]
    simp
  | expire now ok b rest hb =>
    show repeatAt (disarm w).heap a = _ ∧
      ((disarm w).duplicates.filter (fun q => decide (q.1 = a))).length = _ ∧
      keyAt (disarm w).heap a = _ ∧ eventAt (disarm w).heap a = _
    simp only [Op.addsKey, disarm_heap, dupCount, disarm_duplicates]
    simp

theorem countAdds_cons (k : String) (op : Op) (ops : List Op) :
    countAdds k (op :: ops) = (if op.addsKey k then 1 else 0) + countAdds k ops := by
  unfold countAdds
  by_cases hk : op.addsKey k = true
  · simp [List.filter_cons, hk]; omega
  · simp [List.filter_cons, hk]

theorem run_kept {w : Window} (h : Inv w) {a : Nat} (ha : a ∈ w.buffer) {ops : List Op}
    {w1 : Window} (hr : run w ops = some w1) (hk : keptBuffered a w ops = true) :
    a ∈ w1.buffer ∧
      repeatAt w1.heap a = repeatAt w.heap a + (countAdds (keyAt w.heap a) ops : Nat) ∧
      dupCount w1 a = dupCount w a + countAdds (keyAt w.heap a) ops ∧
      keyAt w1.heap a = keyAt w.heap a ∧ eventAt w1.heap a = eventAt w.heap a := by
  induction ops generalizing w with
  | nil =>
    simp only [run, Option.some.injEq] at hr
    subst hr
    simp [countAdds, ha]
  | cons op ops ih =>
    simp only [run] at hr
    simp only [keptBuffered] at hk
    cases hs : step w op with
    | none => rw [hs] at hr; cases hr
    | some w2 =>
      rw [hs] at hr hk
      simp only [Bool.and_eq_true, decide_eq_true_eq] at hk
      have ht := step_trans h hs
      obtain ⟨q1, q2, q3, q4⟩ := trans_kept h ht ha
      obtain ⟨r0, r1, r2, r3, r4⟩ := ih (trans_inv h ht) hk.1 hr hk.2
      rw [q3] at r1 r2
      refine ⟨r0, ?_, ?_, r3.trans q3, r4.trans q4⟩
      · rw [r1, q1, countAdds_cons]
        split <;> push_cast <;> omega
      · rw [r2, q2, countAdds_cons]
        omega

/-- The entry a call of `Add` for a new key makes, if it is buffered when the
call returns. -/
theorem trans_first {w : Window} {e : Event} {now : Int} {ok : Bool} {w1 : Window} (h : Inv w)
    (ht : Trans w (Op.add e now ok) w1) (hl : tableLoad w.table e.Key = none) :
    w1.heap[w.heap.length]? = some (newEntry w e now) ∧ dupCount w1 w.heap.length = 0 := by
  have hd : dupCount w w.heap.length = 0 := by
    unfold dupCount
    rw [List.length_eq_zero, List.filter_eq_nil_iff]
    intro q hq
    have := h.dups q hq
    simp only [decide_eq_true_eq]
    omega
  cases ht with
  | dup e now ok old hl2 => rw [hl] at hl2; cases hl2
  | push e now ok hl hcap hov => exact ⟨afterPush_get_length h e now, hd⟩
  | overflow e now ok hl hcap hov => exact ⟨afterPush_get_length h e now, hd⟩

/-! ### Entries that have left the buffer -/

theorem Inv.not_mem_evicted {w : Window} (h : Inv w) {a : Nat} (ha : a ∈ w.buffer) :
    a ∉ w.evicted := by
  have hb := h.buf
  unfold Window.evicted
  rw [h.pop, List.mem_range]
  rw [hb, List.mem_range'_1] at ha
  omega

theorem submitted_sublist (w : Window) : ∀ a ∈ w.submitted, a ∈ w.evicted := by
  intro a ha
  unfold Window.submitted at ha
  unfold Window.evicted
  rw [List.mem_map] at ha ⊢
  obtain ⟨q, hq, rfl⟩ := ha
  exact ⟨q, List.mem_of_mem_filter hq, rfl⟩

theorem afterPop_submitted (w : Window) (now : Int) (ok : Bool) :
    (afterPop w now ok).submitted =
      w.submitted ++
        (if submitOutcome w.pool ok = Outcome.accepted then [w.buffer.headD 0] else []) := by
  unfold Window.submitted
  simp only [afterPop, List.filter_append, List.map_append]
  by_cases hacc : submitOutcome w.pool ok = Outcome.accepted <;> simp [List.filter_cons, hacc]

/-- A step leaves alone an entry that is on the heap and not in the buffer. -/
theorem trans_frozen {w : Window} {op : Op} {w1 : Window} (h : Inv w) (ht : Trans w op w1)
    {a : Nat} (halt : a < w.heap.length) (ha : a ∉ w.buffer) :
    w1.heap[a]? = w.heap[a]? ∧ a ∉ w1.buffer ∧ a < w1.heap.length ∧
      w1.submitted.count a = w.submitted.count a := by
  have push_case : ∀ (e : Event) (now : Int),
      (afterPush w e now).heap[a]? = w.heap[a]? ∧ a ∉ (afterPush w e now).buffer ∧
        a < (afterPush w e now).heap.length := by
    intro e now
    refine ⟨?_, ?_, ?_⟩
    · simp only [afterPush]
      cases hlast : w.buffer.getLast? with
      | none => exact List.getElem?_append_left halt
      | some c =>
        obtain ⟨-, hc2⟩ := h.last hlast
        have hne : c ≠ a := fun hc => ha (hc ▸ hc2)
        simp only []
        rw [linkNext_get_ne _ _ hne]
        exact List.getElem?_append_left halt
    · show a ∉ w.buffer ++ [w.heap.length]
      rw [List.mem_append, List.mem_singleton]
      intro hc
      rcases hc with h1 | h1
      · exact ha h1
      · omega
    · rw [afterPush_heap_length]; omega
  have pop_case : ∀ (v : Window) (now : Int) (ok : Bool), a ∉ v.buffer → v.buffer ≠ [] →
      a ∉ (afterPop v now ok).buffer ∧
        (afterPop v now ok).submitted.count a = v.submitted.count a := by
    intro v now ok hv hne
    refine ⟨fun hc => hv (List.mem_of_mem_tail hc), ?_⟩
    rw [afterPop_submitted, List.count_append]
    obtain ⟨b, rest, hbr⟩ := List.exists_cons_of_ne_nil hne
    have hba : b ≠ a := by
      intro hc; apply hv; rw [hbr, hc]; exact List.mem_cons_self _ _
    split
    · simp [hbr, List.count_cons, hba]
    · simp
  cases ht with
  | dup e now ok old hl =>
    obtain ⟨hold, -⟩ := h.load_some hl
    have hne : old ≠ a := fun hc => ha (hc ▸ hold)
    refine ⟨bumpRepeat_get_ne _ hne, ha, ?_, rfl⟩
    show a < (bumpRepeat w.heap old).length
    rw [bumpRepeat_length]; exact halt
  | push e now ok hl hcap hov =>
    obtain ⟨p1, p2, p3⟩ := push_case e now
    exact ⟨p1, p2, p3, rfl⟩
  | overflow e now ok hl hcap hov =>
    obtain ⟨p1, p2, p3⟩ := push_case e now
    have hne : (afterPush w e now).buffer ≠ [] := by
      show w.buffer ++ [w.heap.length] ≠ []
      simp
    obtain ⟨r1, r2⟩ := pop_case (afterPush w e now) now ok p2 hne
    exact ⟨p1, r1, p3, r2⟩
  | idle now ok hb =>
    refine ⟨?_, ?_, ?_, ?_⟩
    · rw [disarm_heap]
    · rw [disarm_buffer]; exact ha
    · rw [disarm_heap]; exact halt
    · simp [Window.submitted, disarm_popped]
  | expire now ok b rest hb =>
    have hne : (disarm w).buffer ≠ [] := by rw [disarm_buffer, hb]; simp
    have hv : a ∉ (disarm w).buffer := by rw [disarm_buffer]; exact ha
    obtain ⟨r1, r2⟩ := pop_case (disarm w) now ok hv hne
    refine ⟨?_, r1, ?_, ?_⟩
    · show (disarm w).heap[a]? = w.heap[a]?
      rw [disarm_heap]
    · show a < (disarm w).heap.length
      rw [disarm_heap]; exact halt
    · rw [r2]; simp [Window.submitted, disarm_popped]

theorem run_frozen {w : Window} (h : Inv w) {a : Nat} (halt : a < w.heap.length)
    (ha : a ∉ w.buffer) {ops : List Op} {w1 : Window} (hr : run w ops = some w1) :
    w1.heap[a]? = w.heap[a]? ∧ a ∉ w1.buffer ∧ w1.submitted.count a = w.submitted.count a := by
  induction ops generalizing w with
  | nil =>
    simp only [run, Option.some.injEq] at hr
    subst hr
    exact ⟨rfl, ha, rfl⟩
  | cons op ops ih =>
    simp only [run] at hr
    cases hs : step w op with
    | none => rw [hs] at hr; cases hr
    | some w2 =>
      rw [hs] at hr
      have ht := step_trans h hs
      obtain ⟨q1, q2, q3, q4⟩ := trans_frozen h ht halt ha
      obtain ⟨r1, r2, r3⟩ := ih (trans_inv h ht) q3 q2 hr
      exact ⟨r1.trans q1, r2, r3.trans q4⟩

/-- The step that takes a buffered entry out of the buffer: the entry is
popped, and its counter, event and expiry time are as before the step. -/
theorem trans_evict {w : Window} {op : Op} {w1 : Window} (h : Inv w) (ht : Trans w op w1)
    {a : Nat} (ha : a ∈ w.buffer) (ha1 : a ∉ w1.buffer) :
    repeatAt w1.heap a = repeatAt w.heap a ∧ eventAt w1.heap a = eventAt w.heap a ∧
      w1.popped = w.popped ++ [(a, submitOutcome w.pool op.ok)] ∧
      w1.submitted =
        w.submitted ++ (if submitOutcome w.pool op.ok = Outcome.accepted then [a] else []) ∧
      a < w1.heap.length := by
  obtain ⟨q1, -, -, q4⟩ := trans_kept h ht ha
  have halt := h.mem_lt ha
  have head_eq : ∀ l : List Nat, a ∈ l → a ∉ l.tail → l.headD 0 = a := by
    intro l h1 h2
    cases l with
    | nil => cases h1
    | cons b rest =>
      rcases List.mem_cons.mp h1 with h3 | h3
      · simp [h3]
      · exact absurd h3 h2
  cases ht with
  | dup e now ok old hl => exact absurd ha ha1
  | push e now ok hl hcap hov =>
    exact absurd (List.mem_append_left _ ha : a ∈ w.buffer ++ [w.heap.length]) ha1
  | overflow e now ok hl hcap hov =>
    have hne := h.load_none hl a ha
    have hadds : (Op.add e now ok).addsKey (keyAt w.heap a) = false := by
      simp only [Op.addsKey, decide_eq_false_iff_not]
      exact fun hc => hne hc.symm
    rw [hadds] at q1
    have hhd : (w.buffer ++ [w.heap.length]).headD 0 = a :=
      head_eq _ (List.mem_append_left _ ha) ha1
    refine ⟨by simpa using q1, q4, ?_, ?_, ?_⟩
    · show w.popped ++ [((w.buffer ++ [w.heap.length]).headD 0, submitOutcome w.pool ok)] = _
      rw [hhd]; rfl
    · rw [afterPop_submitted]
      show (afterPush w e now).submitted ++
        (if submitOutcome w.pool ok = Outcome.accepted then
          [(w.buffer ++ [w.heap.length]).headD 0] else []) = _
      rw [hhd]; rfl
    · show a < (afterPush w e now).heap.length
      rw [afterPush_heap_length]; omega
  | idle now ok hb => rw [disarm_buffer] at ha1; exact absurd ha ha1
  | expire now ok b rest hb =>
    have ha1b : a ∉ (disarm w).buffer.tail := ha1
    rw [disarm_buffer] at ha1b
    have hhd : w.buffer.headD 0 = a := head_eq _ ha ha1b
    refine ⟨by simpa [Op.addsKey] using q1, q4, ?_, ?_, ?_⟩
    · show (disarm w).popped ++ [((disarm w).buffer.headD 0, submitOutcome (disarm w).pool ok)] = _
      rw [disarm_popped, disarm_buffer, disarm_pool, hhd]; rfl
    · rw [afterPop_submitted, disarm_buffer, disarm_pool, hhd]
      simp [Window.submitted, disarm_popped, Op.ok]
    · show a < (disarm w).heap.length
      rw [disarm_heap]; exact halt

theorem keptBuffered_run {a : Nat} {w : Window} {ops : List Op}
    (hk : keptBuffered a w ops = true) : ∃ w1, run w ops = some w1 := by
  induction ops generalizing w with
  | nil => exact ⟨w, rfl⟩
  | cons op ops ih =>
    simp only [keptBuffered] at hk
    cases hs : step w op with
    | none => rw [hs] at hk; cases hk
    | some w2 =>
      rw [hs] at hk
      simp only [Bool.and_eq_true, decide_eq_true_eq] at hk
      obtain ⟨w1, hr⟩ := ih hk.2
      exact ⟨w1, by simp only [run, hs]; exact hr⟩

theorem filter_key_eq {w : Window} (h : Inv w) {a : Nat} (ha : a ∈ w.buffer) :
    w.buffer.filter (fun b => decide (keyAt w.heap b = keyAt w.heap a)) = [a] := by
  have hk := h.keys
  have key : ∀ l : List Nat, (l.map (keyAt w.heap)).Nodup → a ∈ l →
      l.filter (fun b => decide (keyAt w.heap b = keyAt w.heap a)) = [a] := by
    intro l
    induction l with
    | nil => intro _ h2; cases h2
    | cons b rest ih =>
      intro h1 h2
      simp only [List.map_cons, List.nodup_cons, List.mem_map, not_exists, not_and] at h1
      rcases List.mem_cons.mp h2 with h3 | h3
      · subst h3
        rw [List.filter_cons_of_pos (by simp)]
        congr 1
        rw [List.filter_eq_nil_iff]
        intro c hc
        simp only [decide_eq_true_eq]
        exact h1.1 c hc
      · rw [List.filter_cons_of_neg, ih h1.2 h3]
        simp only [decide_eq_true_eq]
        exact fun hc => h1.1 a h3 hc.symm
  exact key _ hk ha

theorem repeatAt_eq {heap : List WinEvent} {a : Nat} {y : WinEvent} (hy : heap[a]? = some y) :
    repeatAt heap a = y.repeatTimes := by
  simp [repeatAt, hy]

/-! ### Arrival times -/

theorem negDuration_eq {d : Int} (h1 : minInt64 < d) (h2 : d ≤ maxInt64) :
    negDuration d = -d := by
  simp only [minInt64, maxInt64] at h1 h2
  unfold negDuration wrap64
  omega

theorem Inv.submitted_lt {w : Window} (h : Inv w) {a : Nat} (ha : a ∈ w.submitted) :
    a < w.heap.length := by
  have h1 := submitted_sublist w a ha
  have h2 : a ∈ w.evicted ++ w.buffer := List.mem_append_left _ h1
  rw [h.evicted_append_buffer, List.mem_range] at h2
  exact h2

/-- The entry at `a` in a state run from a new window is the `a`-th first
arrival: its event, and its clock reading plus `duration` as expiry time. -/
theorem run_entry {options : List ConfigOption} {pool : Option Pool} {now0 : Int} {w0 : Window}
    (hn : New options pool now0 = some w0) {ops : List Op} {w : Window}
    (hr : run w0 ops = some w) {a : Nat} (ha : a < w.heap.length) :
    ∃ q y, (firstArrivals w0 ops)[a]? = some q ∧ w.heap[a]? = some y ∧
      y.UniqueEvent = q.1 ∧ y.expireAt = timeAdd q.2 w.duration := by
  have hinv := New_inv hn
  obtain ⟨hheap, -⟩ := New_fields hn
  have hh := run_heap hinv hr
  rw [hheap] at hh
  simp only [List.map_nil, List.nil_append] at hh
  have hidx := congrArg (fun l => l[a]?) hh
  simp only [List.getElem?_map, List.getElem?_eq_getElem ha, Option.map_some'] at hidx
  cases hq : (firstArrivals w0 ops)[a]? with
  | none => rw [hq] at hidx; cases hidx
  | some q =>
    rw [hq] at hidx
    simp only [Option.map_some', Option.some.injEq, WinEvent.ident, Prod.mk.injEq] at hidx
    refine ⟨q, w.heap[a], rfl, List.getElem?_eq_getElem ha, hidx.1, ?_⟩
    rw [hidx.2, (run_size hinv hr).2.1]

/-! ### Adding distinct keys -/

theorem tableLoad_eq_none_iff (t : List (String × Nat)) (k : String) :
    tableLoad t k = none ↔ ∀ q ∈ t, q.1 ≠ k := by
  induction t with
  | nil => simp [tableLoad]
  | cons q rest ih =>
    obtain ⟨k1, a1⟩ := q
    simp only [tableLoad, List.mem_cons, forall_eq_or_imp]
    by_cases hk : k1 = k
    · simp [hk]
    · simp [hk, ih]

/-- A call of `Add` for another key leaves a key that is not in the table
out of it. -/
theorem trans_add_absent {w : Window} {e : Event} {now : Int} {ok : Bool} {w1 : Window}
    (ht : Trans w (Op.add e now ok) w1) {k : String} (hk : tableLoad w.table k = none)
    (hne : e.Key ≠ k) : tableLoad w1.table k = none := by
  have happ : tableLoad (w.table ++ [(e.Key, w.heap.length)]) k = none := by
    rw [tableLoad_eq_none_iff] at hk ⊢
    intro q hq
    rw [List.mem_append, List.mem_singleton] at hq
    rcases hq with h1 | h1
    · exact hk q h1
    · rw [h1]; exact hne
  cases ht with
  | dup e now ok old hl => exact hk
  | push e now ok hl hcap hov => exact happ
  | overflow e now ok hl hcap hov =>
    show tableLoad (w.table ++ [(e.Key, w.heap.length)]).tail k = none
    rw [tableLoad_eq_none_iff] at happ ⊢
    exact fun q hq => happ q (List.mem_of_mem_tail hq)

theorem trans_add_new {w : Window} {e : Event} {now : Int} {ok : Bool} {w1 : Window}
    (h : Inv w) (hc : Cap w) (ht : Trans w (Op.add e now ok) w1)
    (hl : tableLoad w.table e.Key = none) (hz : ZeroRepeat w) :
    ZeroRepeat w1 ∧ (w1.buffer.length : Int) = min ((w.buffer.length : Int) + 1) w.size := by
  have hzp : ZeroRepeat (afterPush w e now) := by
    intro a y hy
    by_cases ha : a < w.heap.length
    · obtain ⟨y2, hy2, -, -, h3⟩ := afterPush_get_lt w e now (List.getElem?_eq_getElem ha)
      rw [hy] at hy2
      cases hy2
      rw [h3]
      exact hz a _ (List.getElem?_eq_getElem ha)
    · have hlt : a < (afterPush w e now).heap.length := by
        by_contra hcon
        rw [List.getElem?_eq_none (by omega)] at hy
        cases hy
      rw [afterPush_heap_length] at hlt
      have hae : a = w.heap.length := by omega
      subst hae
      rw [afterPush_get_length h] at hy
      cases hy
      rfl
  obtain ⟨hc1, hc2⟩ := hc
  cases ht with
  | dup e now ok old hl2 => rw [hl] at hl2; cases hl2
  | push e now ok hl hcap hov =>
    refine ⟨hzp, ?_⟩
    show (((w.buffer ++ [w.heap.length]).length : Nat) : Int) = _
    simp only [List.length_append, List.length_singleton]
    push_cast
    omega
  | overflow e now ok hl hcap hov =>
    refine ⟨fun a y hy => hzp a y hy, ?_⟩
    show (((w.buffer ++ [w.heap.length]).tail.length : Nat) : Int) = _
    simp only [List.length_tail, List.length_append, List.length_singleton]
    omega

theorem trans_add_popped {w : Window} {e : Event} {now : Int} {ok : Bool} {w1 : Window}
    (ht : Trans w (Op.add e now ok) w1) (hl : tableLoad w.table e.Key = none) :
    w1.popped.map Prod.snd =
      w.popped.map Prod.snd ++
        (if w.size < (w.buffer.length : Int) + 1 then [submitOutcome w.pool ok] else []) := by
  cases ht with
  | dup e now ok old hl2 => rw [hl] at hl2; cases hl2
  | push e now ok hl hcap hov =>
    rw [if_neg hov, List.append_nil]
    rfl
  | overflow e now ok hl hcap hov =>
    rw [if_pos hov]
    show (w.popped ++ [((w.buffer ++ [w.heap.length]).headD 0, submitOutcome w.pool ok)]).map
        Prod.snd = _
    rw [List.map_append]
    rfl

theorem run_addCalls {w : Window} (h : Inv w) (hc : Cap w) (hz : ZeroRepeat w)
    (s : Nat) (hs : w.size = (s : Int)) (hle : w.buffer.length ≤ s)
    (adds : List (Event × Int × Bool)) (hkeys : (adds.map (fun q => q.1.Key)).Nodup)
    (hnew : ∀ q ∈ adds, tableLoad w.table q.1.Key = none) :
    ∃ w1, run w (addCalls adds) = some w1 ∧ Inv w1 ∧ ZeroRepeat w1 ∧
      firstArrivals w (addCalls adds) = adds.map (fun q => (q.1, q.2.1)) ∧
      (w1.buffer.length : Int) = min ((w.buffer.length : Int) + adds.length) w.size ∧
      w1.popped.map Prod.snd =
        w.popped.map Prod.snd ++
          (adds.drop (s - w.buffer.length)).map (fun q => submitOutcome w.pool q.2.2) := by
  induction adds generalizing w with
  | nil =>
    refine ⟨w, rfl, h, hz, rfl, ?_, by simp⟩
    have := hc.1
    simp only [List.length_nil]
    push_cast
    omega
  | cons q adds ih =>
    obtain ⟨w2, hst⟩ := step_total h hc (Op.add q.1 q.2.1 q.2.2)
    have ht := step_trans h hst
    have hl := hnew q (List.mem_cons_self _ _)
    obtain ⟨hz2, hlen2⟩ := trans_add_new h hc ht hl hz
    have hpop2 := trans_add_popped ht hl
    simp only [List.map_cons, List.nodup_cons, List.mem_map, not_exists, not_and] at hkeys
    have hnew2 : ∀ r ∈ adds, tableLoad w2.table r.1.Key = none := by
      intro r hr
      apply trans_add_absent ht (hnew r (List.mem_cons_of_mem _ hr))
      exact fun hc => hkeys.1 r hr hc.symm
    have hc2 := trans_cap hc ht
    obtain ⟨hsz, -, hpool⟩ := trans_size ht
    have hle2 : w2.buffer.length ≤ s := by
      rw [hs] at hlen2
      omega
    obtain ⟨w1, hr1, hi1, hz1, hf1, hlen1, hp1⟩ :=
      ih (trans_inv h ht) hc2 hz2 (hsz.trans hs) hle2 hkeys.2 hnew2
    refine ⟨w1, ?_, hi1, hz1, ?_, ?_, ?_⟩
    · show run w (Op.add q.1 q.2.1 q.2.2 :: addCalls adds) = some w1
      simp only [run, hst]
      exact hr1
    · show firstArrivals w (Op.add q.1 q.2.1 q.2.2 :: addCalls adds) = _
      rw [firstArrivals_cons hst, hf1]
      simp [firstArrivals, hl, hst]
    · rw [hlen1, hlen2, hsz]
      have := hc.1
      simp only [List.length_cons]
      push_cast
      omega
    · rw [hp1, hpop2, hpool]
      by_cases hov : w.size < (w.buffer.length : Int) + 1
      · have e1 : s - w.buffer.length = 0 := by rw [hs] at hov; omega
        have e2 : s - w2.buffer.length = 0 := by rw [hs] at hlen2 hov; omega
        rw [if_pos hov, e1, e2]
        simp
      · have e1 : s - w.buffer.length = (s - w2.buffer.length) + 1 := by
          rw [hs] at hlen2 hov; omega
        rw [if_neg hov, e1]
        simp

theorem filter_zip_map {α β γ δ : Type} (f : α → γ) (g : β → δ) (P : δ → Bool)
    (xs : List α) (ys : List β) :
    (((xs.map f).zip (ys.map g)).filter (fun p => P p.2)).map Prod.fst =
      ((xs.zip ys).filter (fun p => P (g p.2))).map (fun p => f p.1) := by
  induction xs generalizing ys with
  | nil => simp
  | cons x xs ih =>
    cases ys with
    | nil => simp
    | cons y ys =>
      simp only [List.map_cons, List.zip_cons_cons, List.filter_cons]
      by_cases hp : P (g y) = true
      · simp only [hp, if_true, List.map_cons, ih]
      · simp only [hp, if_false, ih, Bool.false_eq_true]

theorem zip_map_fst_map_snd {α β : Type} (l : List (α × β)) :
    (l.map Prod.fst).zip (l.map Prod.snd) = l := by
  induction l with
  | nil => rfl
  | cons x l ih => simp only [List.map_cons, List.zip_cons_cons, ih]

theorem submitted_eq_zip (w : Window) :
    w.submitted =
      ((w.evicted.zip (w.popped.map Prod.snd)).filter
        (fun p => decide (p.2 = Outcome.accepted))).map Prod.fst := by
  unfold Window.submitted Window.evicted
  rw [zip_map_fst_map_snd]

/-! ### The timer -/

theorem le_add_timeSub {x now : Int} (h : x - now ≤ maxInt64) : x ≤ now + timeSub x now := by
  unfold timeSub
  simp only [minInt64, maxInt64] at h ⊢
  split
  · omega
  · split <;> omega

theorem expireAtOf_afterPush_lt (w : Window) (e : Event) (now : Int) {a : Nat}
    (ha : a < w.heap.length) :
    expireAtOf (afterPush w e now).heap a = expireAtOf w.heap a := by
  obtain ⟨y, hy, -, h2, -⟩ := afterPush_get_lt w e now (List.getElem?_eq_getElem ha)
  simp [expireAtOf, hy, h2, List.getElem?_eq_getElem ha]

theorem expireAtOf_afterPush_length {w : Window} (h : Inv w) (e : Event) (now : Int) :
    expireAtOf (afterPush w e now).heap w.heap.length = timeAdd now w.duration := by
  simp [expireAtOf, afterPush_get_length h, newEntry]

theorem afterPop_armed {v : Window} {now : Int} (ok : Bool) (hd : isInt64 v.duration)
    (hexp : ∀ a ∈ v.buffer, expireAtOf v.heap a ≤ now + v.duration) :
    TimerInv (afterPop v now ok) now := by
  refine ⟨hd, ?_, ?_⟩
  · intro a ha
    exact hexp a (List.mem_of_mem_tail ha)
  · intro a rest hb
    have hb2 : v.buffer.tail = a :: rest := hb
    have hmem : a ∈ v.buffer := List.mem_of_mem_tail (by rw [hb2]; exact List.mem_cons_self _ _)
    refine ⟨now + timeSub (expireAtOf v.heap a) now, ?_, ?_⟩
    · simp [Window.deadline, afterPop, hb2]
    · show expireAtOf v.heap a ≤ now + timeSub (expireAtOf v.heap a) now
      apply le_add_timeSub
      have := hexp a hmem
      have := hd.2
      omega

theorem afterPush_exp {w : Window} (h : Inv w) {t now : Int} (ht : TimerInv w t) (hle : t ≤ now)
    (e : Event) :
    ∀ a ∈ (afterPush w e now).buffer,
      expireAtOf (afterPush w e now).heap a ≤ now + (afterPush w e now).duration := by
  intro a ha
  have ha2 : a ∈ w.buffer ++ [w.heap.length] := ha
  show _ ≤ now + w.duration
  rw [List.mem_append, List.mem_singleton] at ha2
  rcases ha2 with h1 | h1
  · rw [expireAtOf_afterPush_lt w e now (h.mem_lt h1)]
    have := ht.exp a h1
    omega
  · rw [h1, expireAtOf_afterPush_length h, timeAdd]

theorem disarm_duration (w : Window) : (disarm w).duration = w.duration := by
  unfold disarm; split <;> rfl

theorem trans_timer {w : Window} {op : Op} {w1 : Window} (h : Inv w) {t : Int}
    (ht : TimerInv w t) (htr : Trans w op w1) (hle : t ≤ op.now) : TimerInv w1 op.now := by
  cases htr with
  | dup e now ok old hl =>
    simp only [Op.now] at hle ⊢
    refine ⟨ht.dur, ?_, ?_⟩
    · intro a ha
      show expireAtOf (bumpRepeat w.heap old) a ≤ now + w.duration
      rw [expireAtOf_bumpRepeat]
      have := ht.exp a ha
      omega
    · intro a rest hb
      obtain ⟨dl, h1, h2⟩ := ht.armed a rest hb
      refine ⟨dl, h1, ?_⟩
      show expireAtOf (bumpRepeat w.heap old) a ≤ dl
      rw [expireAtOf_bumpRepeat]; exact h2
  | push e now ok hl hcap hov =>
    simp only [Op.now] at hle ⊢
    refine ⟨ht.dur, afterPush_exp h ht hle e, ?_⟩
    intro a rest hb
    have hb2 : w.buffer ++ [w.heap.length] = a :: rest := hb
    cases hw : w.buffer with
    | nil =>
      rw [hw] at hb2
      simp only [List.nil_append, List.cons.injEq] at hb2
      obtain ⟨ha, -⟩ := hb2
      subst ha
      refine ⟨now + timeSub (timeAdd now w.duration) now, ?_, ?_⟩
      · simp [Window.deadline, afterPush, hw]
      · rw [expireAtOf_afterPush_length h]
        apply le_add_timeSub
        have := ht.dur.2
        simp only [timeAdd]
        omega
    | cons b rest2 =>
      rw [hw] at hb2
      simp only [List.cons_append, List.cons.injEq] at hb2
      obtain ⟨ha, -⟩ := hb2
      subst ha
      obtain ⟨dl, h1, h2⟩ := ht.armed b rest2 hw
      have hb_mem : b ∈ w.buffer := by rw [hw]; exact List.mem_cons_self _ _
      refine ⟨dl, ?_, ?_⟩
      · simpa [Window.deadline, afterPush, hw] using h1
      · rw [expireAtOf_afterPush_lt w e now (h.mem_lt hb_mem)]; exact h2
  | overflow e now ok hl hcap hov =>
    simp only [Op.now] at hle ⊢
    exact afterPop_armed ok ht.dur (afterPush_exp h ht hle e)
  | idle now ok hb =>
    simp only [Op.now] at hle ⊢
    refine ⟨by rw [disarm_duration]; exact ht.dur, ?_, ?_⟩
    · intro a ha
      rw [disarm_buffer, hb] at ha
      cases ha
    · intro a rest hb2
      rw [disarm_buffer, hb] at hb2
      cases hb2
  | expire now ok b rest hb =>
    simp only [Op.now] at hle ⊢
    apply afterPop_armed ok (by rw [disarm_duration]; exact ht.dur)
    intro a ha
    rw [disarm_buffer] at ha
    rw [disarm_heap, disarm_duration]
    have := ht.exp a ha
    omega

/-- An execution that is timely up to a firing of the timer: the state in
which the timer fires satisfies both invariants, and the deadline has come. -/
theorem timely_fire {w : Window} {t : Int} (h : Inv w) (ht : TimerInv w t) (pre : List Op)
    (now : Int) (ok : Bool) (hty : timely w t (pre ++ [Op.fire now ok]) = true) :
    ∃ w1 t1, run w pre = some w1 ∧ Inv w1 ∧ TimerInv w1 t1 ∧
      ∃ dl, w1.deadline = some dl ∧ dl ≤ now := by
  induction pre generalizing w t with
  | nil =>
    simp only [List.nil_append, timely, Bool.and_eq_true, decide_eq_true_eq] at hty
    obtain ⟨⟨-, h2⟩, -⟩ := hty
    cases hdl : w.deadline with
    | none => rw [hdl] at h2; cases h2
    | some dl =>
      rw [hdl] at h2
      simp only [decide_eq_true_eq] at h2
      exact ⟨w, t, rfl, h, ht, dl, hdl, h2⟩
  | cons op pre ih =>
    simp only [List.cons_append, timely, Bool.and_eq_true, decide_eq_true_eq] at hty
    obtain ⟨⟨hle, -⟩, h3⟩ := hty
    cases hs : step w op with
    | none => rw [hs] at h3; cases h3
    | some w2 =>
      rw [hs] at h3
      have htr := step_trans h hs
      obtain ⟨w1, t1, hr, hi, hti, hdl⟩ := ih (trans_inv h htr) (trans_timer h ht htr hle) h3
      exact ⟨w1, t1, by simp only [run, hs]; exact hr, hi, hti, hdl⟩

/-! ### Popping -/

/-- What `pop` does to the front entry, whatever the outcome of `Submit`. -/
theorem afterPop_front {v : Window} (hv : Inv v) {a : Nat} {rest : List Nat}
    (hb : v.buffer = a :: rest) (now : Int) (ok : Bool) :
    a ∉ (afterPop v now ok).buffer ∧
      tableLoad (afterPop v now ok).table (keyAt v.heap a) = none ∧
      (∀ q ∈ (afterPop v now ok).table, q.2 ≠ a) ∧
      (afterPop v now ok).submitted.count a =
        (if submitOutcome v.pool ok = Outcome.accepted then 1 else 0) := by
  have hinv1 := afterPop_inv hv hb now ok
  have hkeys := hv.keys
  rw [hb] at hkeys
  simp only [List.map_cons, List.nodup_cons, List.mem_map, not_exists, not_and] at hkeys
  obtain ⟨-, -, hrest⟩ := hv.front hb
  have hnot : a ∉ rest := by
    rw [hrest, List.mem_range'_1]; omega
  have htab : (afterPop v now ok).table = rest.map (fun b => (keyAt v.heap b, b)) := by
    have := hinv1.table
    simpa [afterPop, hb] using this
  have hmem : a ∈ v.buffer := by rw [hb]; exact List.mem_cons_self _ _
  have hc0 : v.submitted.count a = 0 := by
    rw [List.count_eq_zero]
    exact fun hc => hv.not_mem_evicted hmem (submitted_sublist v _ hc)
  refine ⟨by simpa [afterPop, hb] using hnot, ?_, ?_, ?_⟩
  · rw [tableLoad_eq_none_iff, htab]
    intro q hq
    rw [List.mem_map] at hq
    obtain ⟨b, hbm, rfl⟩ := hq
    exact hkeys.1 b hbm
  · rw [htab]
    intro q hq
    rw [List.mem_map] at hq
    obtain ⟨b, hbm, rfl⟩ := hq
    exact fun hc => hnot (hc ▸ hbm)
  · rw [afterPop_submitted, List.count_append, hc0, hb]
    split <;> simp

theorem Inv.evicted_count {w : Window} (h : Inv w) {a : Nat} (halt : a < w.heap.length)
    (ha : a ∉ w.buffer) : w.evicted.count a = 1 := by
  have hmem : a ∈ w.evicted ++ w.buffer := by
    rw [h.evicted_append_buffer, List.mem_range]; exact halt
  rw [List.mem_append] at hmem
  have hmem2 : a ∈ w.evicted := by
    rcases hmem with h1 | h1
    · exact h1
    · exact absurd h1 ha
  have hnd : w.evicted.Nodup := by
    unfold Window.evicted; rw [h.pop]; exact List.nodup_range _
  exact List.count_eq_one_of_mem hnd hmem2

/-- An entry that is on the heap and not in the buffer stays so, and no task
is submitted for it again. -/
theorem run_gone {w : Window} (h : Inv w) {a : Nat} (halt : a < w.heap.length)
    (ha : a ∉ w.buffer) {ops : List Op} {w1 : Window} (hr : run w ops = some w1) :
    a ∉ w1.buffer ∧ w1.submitted.count a = w.submitted.count a ∧ w1.evicted.count a = 1 := by
  obtain ⟨f1, f2, f3⟩ := run_frozen h halt ha hr
  have hlt : a < w1.heap.length := by
    by_contra hcon
    have h3 : w1.heap[a]? = none := List.getElem?_eq_none (by omega)
    rw [f1, List.getElem?_eq_getElem halt] at h3
    cases h3
  exact ⟨f2, f3, (run_inv h hr).evicted_count hlt f2⟩

/-! ## The claims -/

/-- C1 (FIFO delivery).  In a new window of size at least 0 whose dispatcher
accepts every submission, after any sequence of calls of `Add` and timer
firings run one at a time, the events of the entries handed to the dispatcher,
in the order of submission, followed by the events of the entries still
buffered from head to tail, are the events of the calls of `Add` for a key not
in the table, in the order of the calls.  A call of `Add` for a buffered key
adds nothing to either list. -/
theorem fifo_delivery (options : List ConfigOption) (p : Pool) (now0 : Int) (w0 : Window)
    (hn : New options (some p) now0 = some w0) (hrel : p.released = false)
    (h0 : 0 ≤ w0.size) (h64 : w0.size ≤ maxInt64)
    (ops : List Op) (hok : ∀ op ∈ ops, op.ok = true) :
    ∃ w, run w0 ops = some w ∧
      (w.submitted ++ w.buffer).map (eventAt w.heap) =
        (firstArrivals w0 ops).map (fun q => some q.1) := by
  have hinv := New_inv hn
  obtain ⟨hheap, hpop, -, hpool, -, -⟩ := New_fields hn
  obtain ⟨w, hr, hi, -⟩ := run_total hinv (New_cap hn h0 h64) ops
  refine ⟨w, hr, ?_⟩
  have hacc : AllAccepted w :=
    run_accepted hinv hr (by intro q hq; rw [hpop] at hq; cases hq) hpool hrel hok
  rw [hacc.submitted, hi.evicted_append_buffer, map_eventAt_range]
  have hh := run_heap hinv hr
  rw [hheap] at hh
  simp only [List.map_nil, List.nil_append] at hh
  have hfst := congrArg (List.map (fun q : Event × Int => some q.1)) hh
  simp only [List.map_map] at hfst
  exact hfst

theorem fifo_delivery_witness :
    ∃ w, run demoWindow demoOps = some w ∧
      (w.submitted ++ w.buffer).map (eventAt w.heap) =
        (firstArrivals demoWindow demoOps).map (fun q => some q.1) :=
  fifo_delivery demoOptions { nonblocking := false, released := false } 0 demoWindow
    (by decide) rfl (by decide) (by decide) demoOps (by decide)

/-- C2 (capacity invariant).  In a new window of size at least 0, every
sequence of calls of `Add` and timer firings run one at a time runs to its
end, and in the state it leaves (so in the state every call of `Add` leaves)
the buffer holds at most `size` entries. -/
theorem capacity_invariant (options : List ConfigOption) (pool : Option Pool) (now0 : Int)
    (w0 : Window) (hn : New options pool now0 = some w0)
    (h0 : 0 ≤ w0.size) (h64 : w0.size ≤ maxInt64) (ops : List Op) :
    ∃ w, run w0 ops = some w ∧ (w.buffer.length : Int) ≤ w.size ∧ w.size = w0.size := by
  have hinv := New_inv hn
  obtain ⟨w, hr, -, hc⟩ := run_total hinv (New_cap hn h0 h64) ops
  exact ⟨w, hr, hc.1, (run_size hinv hr).1⟩

theorem capacity_invariant_witness :
    ∃ w, run demoWindow demoOps = some w ∧ (w.buffer.length : Int) ≤ w.size ∧
      w.size = demoWindow.size :=
  capacity_invariant demoOptions (some { nonblocking := false, released := false }) 0 demoWindow
    (by decide) (by decide) (by decide) demoOps

/-- C3 (dedup count).  In a reachable state that does not hold key `k`, let
`Add` be called for an event `e0` of key `k`, followed by further steps, such
that the entry made for `e0` is in the buffer after every step, and let `m` be
the number of calls of `Add` with key `k` among them (the first included).
Then the buffer holds exactly one entry of key `k`, it carries `e0`,
`OnDuplicate` was called on it `m - 1` times and its counter is `m - 1`; no
task was submitted for it yet; and once a step pops it and the pool accepts
the task, in every later state exactly one task was submitted for it and
`Listen` receives `RepeatTimes = m - 1`. -/
theorem dedup_count (w : Window) (hreach : Reachable w) (e0 : Event) (t0 : Int) (ok0 : Bool)
    (rest : List Op) (m : Nat) (hnew : tableLoad w.table e0.Key = none)
    (hkept : keptBuffered w.heap.length w (Op.add e0 t0 ok0 :: rest) = true)
    (hm : m = countAdds e0.Key (Op.add e0 t0 ok0 :: rest)) :
    ∃ w1, run w (Op.add e0 t0 ok0 :: rest) = some w1 ∧
      w1.buffer.filter (fun b => decide (keyAt w1.heap b = e0.Key)) = [w.heap.length] ∧
      eventAt w1.heap w.heap.length = some e0 ∧
      dupCount w1 w.heap.length = m - 1 ∧
      repeatAt w1.heap w.heap.length = (m : Int) - 1 ∧
      w1.submitted.count w.heap.length = 0 ∧
      ∀ (op : Op) (w2 : Window), step w1 op = some w2 → w.heap.length ∉ w2.buffer →
        submitOutcome w1.pool op.ok = Outcome.accepted →
        ∀ (ops3 : List Op) (w3 : Window), run w2 ops3 = some w3 →
          w3.submitted.count w.heap.length = 1 ∧
          ∃ mt, listenMeta w3 w.heap.length = some mt ∧ mt.RepeatTimes = (m : Int) - 1 := by
  have hinv := hreach.inv
  obtain ⟨w1, hr⟩ := keptBuffered_run hkept
  refine ⟨w1, hr, ?_⟩
  simp only [keptBuffered] at hkept
  simp only [run] at hr
  cases hs : step w (Op.add e0 t0 ok0) with
  | none => rw [hs] at hr; cases hr
  | some wA =>
    rw [hs] at hr hkept
    simp only [Bool.and_eq_true, decide_eq_true_eq] at hkept
    obtain ⟨hmemA, hkeptA⟩ := hkept
    have htA := step_trans hinv hs
    have hinvA := trans_inv hinv htA
    obtain ⟨hgetA, hdupA⟩ := trans_first hinv htA hnew
    have hkeyA : keyAt wA.heap w.heap.length = e0.Key := by
      simp [keyAt, hgetA, newEntry, WinEvent.Key]
    have hrepA : repeatAt wA.heap w.heap.length = 0 := by
      simp [repeatAt, hgetA, newEntry]
    have hevA : eventAt wA.heap w.heap.length = some e0 := by
      simp [eventAt, hgetA, newEntry]
    obtain ⟨hmem1, hrep1, hdup1, hkey1, hev1⟩ := run_kept hinvA hmemA hr hkeptA
    have hinv1 := run_inv hinvA hr
    rw [hkeyA] at hrep1 hdup1 hkey1
    have hmc : m = 1 + countAdds e0.Key rest := by
      rw [hm, countAdds_cons]
      simp [Op.addsKey]
    have hrep1b : repeatAt w1.heap w.heap.length = (m : Int) - 1 := by
      rw [hrep1, hrepA, hmc]; push_cast; omega
    refine ⟨?_, hev1.trans hevA, ?_, hrep1b, ?_, ?_⟩
    · have := filter_key_eq hinv1 hmem1
      rw [hkey1] at this
      exact this
    · rw [hdup1, hdupA, hmc]; omega
    · rw [List.count_eq_zero]
      exact fun hc => hinv1.not_mem_evicted hmem1 (submitted_sublist w1 _ hc)
    · intro op w2 hs2 hout hacc ops3 w3 hr3
      have ht2 := step_trans hinv1 hs2
      have hinv2 := trans_inv hinv1 ht2
      obtain ⟨e1, -, -, e4, e5⟩ := trans_evict hinv1 ht2 hmem1 hout
      obtain ⟨f1, -, f3⟩ := run_frozen hinv2 e5 hout hr3
      have hcount0 : w1.submitted.count w.heap.length = 0 := by
        rw [List.count_eq_zero]
        exact fun hc => hinv1.not_mem_evicted hmem1 (submitted_sublist w1 _ hc)
      refine ⟨?_, ?_⟩
      · rw [f3, e4, if_pos hacc, List.count_append, hcount0]
        simp
      · have hlt3 : w.heap.length < w3.heap.length := by
          by_contra hcon
          have h3 : w3.heap[w.heap.length]? = none := List.getElem?_eq_none (by omega)
          rw [f1, List.getElem?_eq_getElem e5] at h3
          cases h3
        have hy : w3.heap[w.heap.length]? = some (w3.heap[w.heap.length]) :=
          List.getElem?_eq_getElem hlt3
        refine ⟨{ AddTime := timeAdd (w3.heap[w.heap.length]).expireAt (negDuration w3.duration)
                  RepeatTimes := (w3.heap[w.heap.length]).repeatTimes },
          by simp only [listenMeta, hy], ?_⟩
        show (w3.heap[w.heap.length]).repeatTimes = (m : Int) - 1
        rw [← repeatAt_eq hy]
        have : repeatAt w3.heap w.heap.length = repeatAt w2.heap w.heap.length := by
          simp only [repeatAt, f1]
        rw [this, e1, hrep1b]

theorem dedup_count_witness :
    ∃ w1, run demoWindow (Op.add { ID := "A", Name := "a1" } 1 true ::
        [Op.add { ID := "B", Name := "b1" } 2 true, Op.add { ID := "A", Name := "a2" } 3 true]) =
          some w1 ∧
      w1.buffer.filter (fun b => decide (keyAt w1.heap b = Event.Key { ID := "A", Name := "a1" })) =
        [demoWindow.heap.length] ∧
      eventAt w1.heap demoWindow.heap.length = some { ID := "A", Name := "a1" } ∧
      dupCount w1 demoWindow.heap.length = 2 - 1 ∧
      repeatAt w1.heap demoWindow.heap.length = ((2 : Nat) : Int) - 1 ∧
      w1.submitted.count demoWindow.heap.length = 0 ∧
      ∀ (op : Op) (w2 : Window), step w1 op = some w2 → demoWindow.heap.length ∉ w2.buffer →
        submitOutcome w1.pool op.ok = Outcome.accepted →
        ∀ (ops3 : List Op) (w3 : Window), run w2 ops3 = some w3 →
          w3.submitted.count demoWindow.heap.length = 1 ∧
          ∃ mt, listenMeta w3 demoWindow.heap.length = some mt ∧
            mt.RepeatTimes = ((2 : Nat) : Int) - 1 :=
  dedup_count demoWindow
    ⟨demoOptions, some { nonblocking := false, released := false }, 0, demoWindow, [],
      by decide, rfl⟩
    { ID := "A", Name := "a1" } 1 true
    [Op.add { ID := "B", Name := "b1" } 2 true, Op.add { ID := "A", Name := "a2" } 3 true] 2
    (by decide) (by decide) (by decide)

/-- C4 (argument of `OnDuplicate`).  `Add` is called for event A and then for
a second event of the same key: `OnDuplicate` is called on the first entry
with the `*WinEvent` that wraps the second event, not with the event the
caller passed; the merge of the test file, which asserts `*CustomEvent`,
panics on it and would succeed on the event itself. -/
theorem onDuplicate_receives_wrapper :
    (run demoWindow
        [Op.add { ID := "A", Name := "a1" } 1 true,
          Op.add { ID := "A", Name := "a2" } 3 true]).map (fun w => w.duplicates) =
      some [(0, Iface.winEvent
        { expireAt := 13, UniqueEvent := { ID := "A", Name := "a2" }, next := none,
          repeatTimes := 0 })] ∧
    CustomEvent.OnDuplicate { ID := "A", Name := "a1" }
      (Iface.winEvent
        { expireAt := 13, UniqueEvent := { ID := "A", Name := "a2" }, next := none,
          repeatTimes := 0 }) = none ∧
    CustomEvent.OnDuplicate { ID := "A", Name := "a1" }
      (Iface.customEvent { ID := "A", Name := "a2" }) = some { ID := "A", Name := "a2" } := by
  decide

/-- C5 (a duplicate `Add` changes the counter only).  In a reachable state
whose table holds the key of `e` at `old`, `Add` returns; `old` is a buffered
entry of that key; buffer, table, `head`, `curr`, the timer, the record of
popped entries, the configuration and every other entry are as before; the
entry at `old` is as before but for its counter, which is larger by 1. -/
theorem duplicate_add_frame (w : Window) (hreach : Reachable w) (e : Event) (now : Int)
    (ok : Bool) (old : Nat) (hl : tableLoad w.table e.Key = some old) :
    ∃ w1 o, Add w e now ok = some w1 ∧ w.heap[old]? = some o ∧
      old ∈ w.buffer ∧ o.Key = e.Key ∧
      w1.buffer = w.buffer ∧ w1.table = w.table ∧ w1.head = w.head ∧ w1.curr = w.curr ∧
      w1.expiration = w.expiration ∧ w1.popped = w.popped ∧ w1.size = w.size ∧
      w1.duration = w.duration ∧ w1.bufferCap = w.bufferCap ∧ w1.pool = w.pool ∧
      w1.config = w.config ∧ w1.heap.length = w.heap.length ∧
      w1.heap[old]? = some { o with repeatTimes := o.repeatTimes + 1 } ∧
      (∀ a, a ≠ old → w1.heap[a]? = w.heap[a]?) ∧
      (∀ a, expireAtOf w1.heap a = expireAtOf w.heap a) := by
  have hinv := hreach.inv
  obtain ⟨hold, hkey⟩ := hinv.load_some hl
  obtain ⟨o, ho⟩ := hinv.get hold
  refine ⟨afterDup w old e now, o, Add_dup hinv now ok hl, ho, hold, ?_, rfl, rfl, rfl, rfl, rfl,
    rfl, rfl, rfl, rfl, rfl, rfl, bumpRepeat_length _ _, bumpRepeat_get_eq _ ho, ?_, ?_⟩
  · simpa [keyAt, ho] using hkey
  · intro a ha
    exact bumpRepeat_get_ne _ (fun hc => ha hc.symm)
  · intro a
    exact expireAtOf_bumpRepeat _ _ _

theorem duplicate_add_frame_witness :
    ∃ w1 o, Add demoWindowA { ID := "A", Name := "a2" } 3 true = some w1 ∧
      demoWindowA.heap[0]? = some o ∧
      0 ∈ demoWindowA.buffer ∧ o.Key = Event.Key { ID := "A", Name := "a2" } ∧
      w1.buffer = demoWindowA.buffer ∧ w1.table = demoWindowA.table ∧
      w1.head = demoWindowA.head ∧ w1.curr = demoWindowA.curr ∧
      w1.expiration = demoWindowA.expiration ∧ w1.popped = demoWindowA.popped ∧
      w1.size = demoWindowA.size ∧ w1.duration = demoWindowA.duration ∧
      w1.bufferCap = demoWindowA.bufferCap ∧ w1.pool = demoWindowA.pool ∧
      w1.config = demoWindowA.config ∧ w1.heap.length = demoWindowA.heap.length ∧
      w1.heap[0]? = some { o with repeatTimes := o.repeatTimes + 1 } ∧
      (∀ a, a ≠ 0 → w1.heap[a]? = demoWindowA.heap[a]?) ∧
      (∀ a, expireAtOf w1.heap a = expireAtOf demoWindowA.heap a) :=
  duplicate_add_frame demoWindowA
    ⟨demoOptions, some { nonblocking := false, released := false }, 0, demoWindow,
      [Op.add { ID := "A", Name := "a1" } 1 true], by decide, by decide⟩
    { ID := "A", Name := "a2" } 3 true 0 (by decide)

/-- C6, as stated, fails for the duration `-2^63`: with that duration the
timer of `start` fires at once on the empty window, `Add` is called for X at
clock reading 1000 and the timer, armed in the past, fires again; the entry
is handed to the dispatcher and `Listen` receives `AddTime = 1000 - 2^64`. -/
theorem addTime_minDuration_counterexample :
    ((New [WithDuration minInt64] (some { nonblocking := false, released := false }) 0).bind
        (fun w0 => run w0
          [Op.fire 0 true, Op.add { ID := "X", Name := "x" } 1000 true, Op.fire 1000 true])).map
      (fun w => (w.submitted, listenMeta w 0)) =
      some ([0], some { AddTime := 1000 - 18446744073709551616, RepeatTimes := 0 }) ∧
    (1000 - 18446744073709551616 : Int) ≠ 1000 := by
  decide

/-- C6, amended (arrival-time round trip).  In a new window of size at least
0 whose duration is an `int64` other than `-2^63`, after any sequence of
calls of `Add` and timer firings, every entry handed to the dispatcher is the
entry of a call of `Add` for a new key, and the `AddTime` that `Listen`
receives for it is the clock reading of that call, whatever duplicates came
later and whichever step evicted it. -/
theorem arrival_time_round_trip (options : List ConfigOption) (pool : Option Pool) (now0 : Int)
    (w0 : Window) (hn : New options pool now0 = some w0)
    (h0 : 0 ≤ w0.size) (h64 : w0.size ≤ maxInt64)
    (hd1 : minInt64 < w0.duration) (hd2 : w0.duration ≤ maxInt64) (ops : List Op) :
    ∃ w, run w0 ops = some w ∧
      ∀ a ∈ w.submitted, ∃ q mt, (firstArrivals w0 ops)[a]? = some q ∧
        eventAt w.heap a = some q.1 ∧ listenMeta w a = some mt ∧ mt.AddTime = q.2 := by
  have hinv := New_inv hn
  obtain ⟨w, hr, hi, -⟩ := run_total hinv (New_cap hn h0 h64) ops
  refine ⟨w, hr, ?_⟩
  intro a ha
  obtain ⟨q, y, hq, hy, hy1, hy2⟩ := run_entry hn hr (hi.submitted_lt ha)
  have hdur := (run_size hinv hr).2.1
  refine ⟨q, { AddTime := timeAdd y.expireAt (negDuration w.duration)
               RepeatTimes := y.repeatTimes }, hq, ?_, ?_, ?_⟩
  · simp [eventAt, hy, hy1]
  · simp [listenMeta, hy]
  · show timeAdd y.expireAt (negDuration w.duration) = q.2
    rw [hy2, hdur, negDuration_eq hd1 hd2]
    simp only [timeAdd]
    omega

theorem arrival_time_round_trip_witness :
    ∃ w, run demoWindow demoOps = some w ∧
      ∀ a ∈ w.submitted, ∃ q mt, (firstArrivals demoWindow demoOps)[a]? = some q ∧
        eventAt w.heap a = some q.1 ∧ listenMeta w a = some mt ∧ mt.AddTime = q.2 :=
  arrival_time_round_trip demoOptions (some { nonblocking := false, released := false }) 0
    demoWindow (by decide) (by decide) (by decide) (by decide) (by decide) demoOps

/-- C7, as stated, fails.  A window of size 2 with a non-blocking pool of one
worker: `Add` is called for A, B, C and D.  The third call pops A and its
task is accepted; the fourth call pops B, and the pool, its worker busy,
refuses the task.  The calls return, A and B are popped in the order of
arrival and C and D stay in the buffer, but only A is dispatched: B, one of
the first `n - s = 2` keys, is evicted and never dispatched. -/
theorem overflow_refused_counterexample :
    ((New [WithNonBlockPool 1, WithSize 2, WithDuration 10]
          (some { nonblocking := true, released := false }) 0).bind
        (fun w0 => run w0 (addCalls demoOverflow))).map
        (fun w =>
          (w.evicted.map (eventAt w.heap), w.submitted.map (eventAt w.heap),
            w.refused.map (eventAt w.heap), w.buffer.map (eventAt w.heap))) =
      some
        ([some { ID := "A", Name := "a1" }, some { ID := "B", Name := "b1" }],
          [some { ID := "A", Name := "a1" }],
          [some { ID := "B", Name := "b1" }],
          [some { ID := "C", Name := "c1" }, some { ID := "D", Name := "d1" }]) := by
  decide

/-- C7, amended (overflow evicts the oldest, synchronously; an evicted entry
is dispatched when its submission is accepted).  In a new window of size `s`,
with any pool or none, `Add` is called for `n` events of pairwise distinct
keys, each call with the outcome its `Submit` would have, and the timer does
not fire.  The calls return; the entries popped carry the first `n - s`
events (none when `n ≤ s`) in the order of arrival, each with
`RepeatTimes = 0`; the buffer holds the remaining events in the order of
arrival; the `j`-th entry popped was handed to `Submit` in call `s + j`, the
call that overflowed; the entries dispatched are those of the first `n - s`
whose submission was accepted, in the order of arrival, and they are all of
the first `n - s` when every submission is accepted.  As this holds for every
`n`, it holds when each call returns. -/
theorem overflow_evicts_oldest (options : List ConfigOption) (pool : Option Pool) (now0 : Int)
    (w0 : Window) (hn : New options pool now0 = some w0)
    (s : Nat) (hs : w0.size = (s : Int)) (h64 : w0.size ≤ maxInt64)
    (adds : List (Event × Int × Bool)) (hkeys : (adds.map (fun q => q.1.Key)).Nodup) :
    ∃ w, run w0 (addCalls adds) = some w ∧
      w.evicted.map (eventAt w.heap) =
        (adds.take (adds.length - s)).map (fun q => some q.1) ∧
      w.buffer.map (eventAt w.heap) = (adds.drop (adds.length - s)).map (fun q => some q.1) ∧
      (∀ a ∈ w.evicted, ∃ mt, listenMeta w a = some mt ∧ mt.RepeatTimes = 0) ∧
      w.popped.map Prod.snd = (adds.drop s).map (fun q => submitOutcome pool q.2.2) ∧
      w.submitted.map (eventAt w.heap) =
        (((adds.take (adds.length - s)).zip (adds.drop s)).filter
          (fun p => decide (submitOutcome pool p.2.2.2 = Outcome.accepted))).map
          (fun p => some p.1.1) ∧
      ((∀ q ∈ adds.drop s, submitOutcome pool q.2.2 = Outcome.accepted) →
        w.submitted = w.evicted) := by
  have hinv := New_inv hn
  have h0 : 0 ≤ w0.size := by rw [hs]; exact Int.natCast_nonneg s
  obtain ⟨hheap, hpop, hbuf, hpool, htab, -⟩ := New_fields hn
  have hz0 : ZeroRepeat w0 := by
    intro a y hy
    rw [hheap] at hy
    simp at hy
  obtain ⟨w, hr, hi, hz, hf, hlen, hp⟩ :=
    run_addCalls hinv (New_cap hn h0 h64) hz0 s hs (by rw [hbuf]; exact Nat.zero_le s) adds hkeys
      (by intro q _; rw [htab]; rfl)
  rw [hpop, hbuf, hpool] at hp
  simp only [List.map_nil, List.nil_append, List.length_nil, Nat.sub_zero] at hp
  have hh := run_heap hinv hr
  rw [hheap, hf] at hh
  simp only [List.map_nil, List.nil_append, List.map_map] at hh
  have hheaplen : w.heap.length = adds.length := by
    have := congrArg List.length hh
    simpa using this
  have hev : (w.evicted ++ w.buffer).map (eventAt w.heap) = adds.map (fun q => some q.1) := by
    rw [hi.evicted_append_buffer, map_eventAt_range]
    have hfst := congrArg (List.map (fun q : Event × Int => some q.1)) hh
    simp only [List.map_map] at hfst
    exact hfst
  have hsum : w.evicted.length + w.buffer.length = adds.length := by
    have := congrArg List.length hi.evicted_append_buffer
    simpa [hheaplen] using this
  have hevlen : w.evicted.length = adds.length - s := by
    rw [hbuf, hs] at hlen
    simp only [List.length_nil] at hlen
    push_cast at hlen
    omega
  rw [List.map_append] at hev
  have htake := congrArg (List.take (adds.length - s)) hev
  have hdrop := congrArg (List.drop (adds.length - s)) hev
  rw [List.take_left' (by simpa using hevlen), ← List.map_take] at htake
  rw [List.drop_left' (by simpa using hevlen), ← List.map_drop] at hdrop
  have hlt : ∀ a ∈ w.evicted, a < w.heap.length := by
    intro a ha
    have h2 : a ∈ w.evicted ++ w.buffer := List.mem_append_left _ ha
    rw [hi.evicted_append_buffer, List.mem_range] at h2
    exact h2
  refine ⟨w, hr, htake, hdrop, ?_, hp, ?_, ?_⟩
  · intro a ha
    have halt := hlt a ha
    have hy := List.getElem?_eq_getElem halt
    exact ⟨{ AddTime := timeAdd (w.heap[a]).expireAt (negDuration w.duration)
             RepeatTimes := (w.heap[a]).repeatTimes },
      by simp only [listenMeta, hy], hz a _ hy⟩
  · have h1 := filter_zip_map (eventAt w.heap) (fun o : Outcome => o)
      (fun o => decide (o = Outcome.accepted)) w.evicted (w.popped.map Prod.snd)
    have h2 := filter_zip_map (fun q : Event × Int × Bool => some q.1)
      (fun q : Event × Int × Bool => submitOutcome pool q.2.2)
      (fun o => decide (o = Outcome.accepted)) (adds.take (adds.length - s)) (adds.drop s)
    rw [submitted_eq_zip, List.map_map]
    have hid : (w.popped.map Prod.snd).map (fun o : Outcome => o) = w.popped.map Prod.snd :=
      List.map_id _
    rw [hid, htake, hp] at h1
    rw [hp]
    exact h1.symm.trans h2
  · intro hall
    apply AllAccepted.submitted
    intro q hq
    have hm : q.2 ∈ w.popped.map Prod.snd := List.mem_map_of_mem _ hq
    rw [hp, List.mem_map] at hm
    obtain ⟨r, hr1, hr2⟩ := hm
    rw [← hr2]
    exact hall r hr1

theorem overflow_evicts_oldest_witness :
    ∃ w, run demoWindowNonBlock (addCalls demoOverflow) = some w ∧
      w.evicted.map (eventAt w.heap) =
        (demoOverflow.take (demoOverflow.length - 2)).map (fun q => some q.1) ∧
      w.buffer.map (eventAt w.heap) =
        (demoOverflow.drop (demoOverflow.length - 2)).map (fun q => some q.1) ∧
      (∀ a ∈ w.evicted, ∃ mt, listenMeta w a = some mt ∧ mt.RepeatTimes = 0) ∧
      w.popped.map Prod.snd =
        (demoOverflow.drop 2).map
          (fun q => submitOutcome (some { nonblocking := true, released := false }) q.2.2) ∧
      w.submitted.map (eventAt w.heap) =
        (((demoOverflow.take (demoOverflow.length - 2)).zip (demoOverflow.drop 2)).filter
          (fun p =>
            decide
              (submitOutcome (some { nonblocking := true, released := false }) p.2.2.2 =
                Outcome.accepted))).map
          (fun p => some p.1.1) ∧
      ((∀ q ∈ demoOverflow.drop 2,
          submitOutcome (some { nonblocking := true, released := false }) q.2.2 =
            Outcome.accepted) →
        w.submitted = w.evicted) :=
  overflow_evicts_oldest [WithNonBlockPool 1, WithSize 2, WithDuration 10]
    (some { nonblocking := true, released := false }) 0 demoWindowNonBlock (by decide) 2
    (by decide) (by decide) demoOverflow (by decide)

/-- C8 (expiry lower bound).  In an execution from a new window whose
duration is an `int64`, in which no clock reading is earlier than the one
before it and the timer fires only while pending and at or after its
deadline, when the timer fires at `now` and pops an entry, that entry is the
entry of a call of `Add` for a new key made at some reading `t`, its expiry
time is `t + duration`, and `t + duration ≤ now`. -/
theorem expiry_lower_bound (options : List ConfigOption) (pool : Option Pool) (now0 : Int)
    (w0 : Window) (hn : New options pool now0 = some w0) (hd : isInt64 w0.duration)
    (pre : List Op) (now : Int) (ok : Bool)
    (hty : timely w0 now0 (pre ++ [Op.fire now ok]) = true) :
    ∃ w w1 r, run w0 pre = some w ∧ fire w now ok = some (w1, r) ∧
      ∀ a, r = some a → ∃ q, (firstArrivals w0 pre)[a]? = some q ∧
        expireAtOf w.heap a = q.2 + w0.duration ∧ q.2 + w0.duration ≤ now := by
  have hinv := New_inv hn
  obtain ⟨-, -, hbuf, -⟩ := New_fields hn
  have ht0 : TimerInv w0 now0 := by
    refine ⟨hd, ?_, ?_⟩
    · intro a ha; rw [hbuf] at ha; cases ha
    · intro a rest hb; rw [hbuf] at hb; cases hb
  obtain ⟨w, t1, hr, hi, hti, dl, hdl, hdle⟩ := timely_fire hinv ht0 pre now ok hty
  cases hb : w.buffer with
  | nil =>
    refine ⟨w, disarm w, none, hr, fire_nil hi hb now ok, ?_⟩
    intro a ha; cases ha
  | cons b rest =>
    refine ⟨w, afterPop (disarm w) now ok, some b, hr, fire_cons hi hb now ok, ?_⟩
    intro a ha
    simp only [Option.some.injEq] at ha
    subst ha
    have hmem : b ∈ w.buffer := by rw [hb]; exact List.mem_cons_self _ _
    obtain ⟨q, y, hq, hy, -, hy2⟩ := run_entry hn hr (hi.mem_lt hmem)
    obtain ⟨dl2, hdl2, hle2⟩ := hti.armed b rest hb
    rw [hdl] at hdl2
    simp only [Option.some.injEq] at hdl2
    subst hdl2
    have hexp : expireAtOf w.heap b = q.2 + w0.duration := by
      simp only [expireAtOf, hy, hy2, timeAdd, (run_size hinv hr).2.1]
    refine ⟨q, hq, hexp, ?_⟩
    rw [← hexp]
    omega

theorem expiry_lower_bound_witness :
    ∃ w w1 r, run demoWindow (demoOps.take 4) = some w ∧ fire w 12 true = some (w1, r) ∧
      ∀ a, r = some a → ∃ q, (firstArrivals demoWindow (demoOps.take 4))[a]? = some q ∧
        expireAtOf w.heap a = q.2 + demoWindow.duration ∧ q.2 + demoWindow.duration ≤ 12 :=
  expiry_lower_bound demoOptions (some { nonblocking := false, released := false }) 0 demoWindow
    (by decide) (by decide) (demoOps.take 4) 12 true (by decide)

/-- C9 (a failed submission drops the callback only).  In a reachable state
with a pool, let a step pop an entry while `Submit` returns an error.  The
entry is recorded as refused; it is out of the buffer and the table holds
neither its key nor its address; buffer, table, `head`, `curr`, heap and
timer are the ones the same step leaves when `Submit` succeeds; and in every
later state no task was submitted for the entry, it is not in the buffer
again, and it was popped once. -/
theorem submission_failure_drops_callback (w : Window) (hreach : Reachable w) (op : Op)
    (w1 : Window) (hs : step w op = some w1) (hpop : w1.popped ≠ w.popped) (p : Pool)
    (hp : w.pool = some p) (hfail : p.Submit op.ok = false) :
    ∃ a, w1.popped = w.popped ++ [(a, Outcome.refused)] ∧
      a ∉ w1.buffer ∧ tableLoad w1.table (keyAt w1.heap a) = none ∧
      (∀ q ∈ w1.table, q.2 ≠ a) ∧ w1.head = w1.buffer.head? ∧
      (∃ w1s, step w (op.withOk true) = some w1s ∧ w1s.buffer = w1.buffer ∧
        w1s.table = w1.table ∧ w1s.head = w1.head ∧ w1s.curr = w1.curr ∧
        w1s.heap = w1.heap ∧ w1s.expiration = w1.expiration) ∧
      ∀ (ops : List Op) (w2 : Window), run w1 ops = some w2 →
        a ∉ w2.submitted ∧ a ∉ w2.buffer ∧ w2.evicted.count a = 1 := by
  have hinv := hreach.inv
  have htr := step_trans hinv hs
  have hinv1 := trans_inv hinv htr
  have hout : submitOutcome w.pool op.ok = Outcome.refused := by
    simp [submitOutcome, hp, hfail]
  have later : ∀ (v : Window) (a : Nat) (rest : List Nat) (now : Int) (ok : Bool), Inv v →
      v.buffer = a :: rest → submitOutcome v.pool ok = Outcome.refused →
      ∀ (ops : List Op) (w2 : Window), run (afterPop v now ok) ops = some w2 →
        a ∉ w2.submitted ∧ a ∉ w2.buffer ∧ w2.evicted.count a = 1 := by
    intro v a rest now ok hv hb hre ops w2 hr
    obtain ⟨g1, -, -, g4⟩ := afterPop_front hv hb now ok
    have hmem : a ∈ v.buffer := by rw [hb]; exact List.mem_cons_self _ _
    have halt : a < (afterPop v now ok).heap.length := hv.mem_lt hmem
    obtain ⟨r1, r2, r3⟩ := run_gone (afterPop_inv hv hb now ok) halt g1 hr
    rw [g4, hre] at r2
    simp only [reduceCtorEq, if_false] at r2
    exact ⟨List.count_eq_zero.mp r2, r1, r3⟩
  cases htr with
  | dup e now ok old hl => exact absurd rfl hpop
  | push e now ok hl hcap hov => exact absurd rfl hpop
  | idle now ok hb => exact absurd (disarm_popped w) hpop
  | overflow e now ok hl hcap hov =>
    have hv := afterPush_inv hinv hl now
    obtain ⟨a, rest, hb⟩ : ∃ a rest, (afterPush w e now).buffer = a :: rest := by
      cases hbb : (afterPush w e now).buffer with
      | nil =>
        have : (afterPush w e now).buffer = w.buffer ++ [w.heap.length] := rfl
        rw [this] at hbb; simp at hbb
      | cons a rest => exact ⟨a, rest, rfl⟩
    obtain ⟨g1, g2, g3, -⟩ := afterPop_front hv hb now ok
    have hre : submitOutcome (afterPush w e now).pool ok = Outcome.refused := hout
    refine ⟨a, ?_, g1, g2, g3, hinv1.head, ?_, later _ a rest now ok hv hb hre⟩
    · show w.popped ++ [((afterPush w e now).buffer.headD 0, submitOutcome w.pool ok)] = _
      rw [hb]
      simp only [Op.ok] at hout
      rw [hout]; rfl
    · exact ⟨afterPop (afterPush w e now) now true,
        trans_step hinv (Trans.overflow e now true hl hcap hov), rfl, rfl, rfl, rfl, rfl, rfl⟩
  | expire now ok b rest hb =>
    have hv := disarm_inv hinv
    have hb2 : (disarm w).buffer = b :: rest := by rw [disarm_buffer]; exact hb
    obtain ⟨g1, g2, g3, -⟩ := afterPop_front hv hb2 now ok
    have hre : submitOutcome (disarm w).pool ok = Outcome.refused := by
      rw [disarm_pool]; exact hout
    refine ⟨b, ?_, g1, g2, g3, hinv1.head, ?_, later _ b rest now ok hv hb2 hre⟩
    · show (disarm w).popped ++ [((disarm w).buffer.headD 0, submitOutcome (disarm w).pool ok)] = _
      rw [hb2, hre, disarm_popped]; rfl
    · exact ⟨afterPop (disarm w) now true,
        trans_step hinv (Trans.expire now true b rest hb), rfl, rfl, rfl, rfl, rfl, rfl⟩

theorem submission_failure_drops_callback_witness :
    ∃ a, (afterPop (disarm demoWindowA) 11 false).popped =
        demoWindowA.popped ++ [(a, Outcome.refused)] ∧
      a ∉ (afterPop (disarm demoWindowA) 11 false).buffer ∧
      tableLoad (afterPop (disarm demoWindowA) 11 false).table
        (keyAt (afterPop (disarm demoWindowA) 11 false).heap a) = none ∧
      (∀ q ∈ (afterPop (disarm demoWindowA) 11 false).table, q.2 ≠ a) ∧
      (afterPop (disarm demoWindowA) 11 false).head =
        (afterPop (disarm demoWindowA) 11 false).buffer.head? ∧
      (∃ w1s, step demoWindowA ((Op.fire 11 false).withOk true) = some w1s ∧
        w1s.buffer = (afterPop (disarm demoWindowA) 11 false).buffer ∧
        w1s.table = (afterPop (disarm demoWindowA) 11 false).table ∧
        w1s.head = (afterPop (disarm demoWindowA) 11 false).head ∧
        w1s.curr = (afterPop (disarm demoWindowA) 11 false).curr ∧
        w1s.heap = (afterPop (disarm demoWindowA) 11 false).heap ∧
        w1s.expiration = (afterPop (disarm demoWindowA) 11 false).expiration) ∧
      ∀ (ops : List Op) (w2 : Window),
        run (afterPop (disarm demoWindowA) 11 false) ops = some w2 →
        a ∉ w2.submitted ∧ a ∉ w2.buffer ∧ w2.evicted.count a = 1 :=
  submission_failure_drops_callback demoWindowA
    ⟨demoOptions, some { nonblocking := false, released := false }, 0, demoWindow,
      [Op.add { ID := "A", Name := "a1" } 1 true], by decide, by decide⟩
    (Op.fire 11 false) (afterPop (disarm demoWindowA) 11 false) (by decide) (by decide)
    { nonblocking := false, released := false } rfl rfl

/-- C10 (popping an empty buffer does nothing).  In a reachable state whose
buffer is empty, `pop` returns no entry and leaves the state as it is, so the
table, the buffer, `head`, `curr`, the timer and the record of popped entries
are unchanged; when the timer fires, its callback returns no entry and
leaves the state as it is, but for the timer, which has fired and is not
armed again. -/
theorem empty_pop_noop (w : Window) (hreach : Reachable w) (hb : w.buffer = []) (now : Int)
    (ok : Bool) :
    pop w now ok = some (w, none) ∧ w.head = none ∧ w.curr = none ∧ w.table = [] ∧
      ∃ t, w.expiration = some t ∧
        fire w now ok = some ({ w with expiration := some { t with deadline := none } }, none) := by
  have hinv := hreach.inv
  obtain ⟨t, ht, hcb⟩ := hinv.timer
  refine ⟨pop_nil hinv hb now ok, ?_, ?_, ?_, t, ht, ?_⟩
  · rw [hinv.head, hb]; rfl
  · rw [hinv.curr, hb]; rfl
  · rw [hinv.table, hb]; rfl
  · rw [fire_nil hinv hb]
    simp [disarm, ht]

theorem empty_pop_noop_witness :
    pop demoWindow 10 true = some (demoWindow, none) ∧ demoWindow.head = none ∧
      demoWindow.curr = none ∧ demoWindow.table = [] ∧
      ∃ t, demoWindow.expiration = some t ∧
        fire demoWindow 10 true =
          some ({ demoWindow with expiration := some { t with deadline := none } }, none) :=
  empty_pop_noop demoWindow
    ⟨demoOptions, some { nonblocking := false, released := false }, 0, demoWindow, [],
      by decide, rfl⟩
    rfl 10 true

/-! ### Configuration -/

theorem foldl_options (calls : List OptionCall) (c0 : Config) :
    ((calls.map OptionCall.toOption).foldl (fun c opt => opt c) c0).size =
        (lastSize calls).getD c0.size ∧
      ((calls.map OptionCall.toOption).foldl (fun c opt => opt c) c0).duration =
        (lastDuration calls).getD c0.duration ∧
      ((calls.map OptionCall.toOption).foldl (fun c opt => opt c) c0).poolSize =
        ((lastPool calls).map Prod.fst).getD c0.poolSize ∧
      ((calls.map OptionCall.toOption).foldl (fun c opt => opt c) c0).block =
        ((lastPool calls).map Prod.snd).getD c0.block := by
  induction calls generalizing c0 with
  | nil => exact ⟨rfl, rfl, rfl, rfl⟩
  | cons c rest ih =>
    obtain ⟨h1, h2, h3, h4⟩ := ih (c.toOption c0)
    simp only [List.map_cons, List.foldl_cons]
    rw [h1, h2, h3, h4]
    refine ⟨?_, ?_, ?_, ?_⟩
    · simp only [lastSize]
      cases lastSize rest with
      | some v => rfl
      | none => cases c <;> rfl
    · simp only [lastDuration]
      cases lastDuration rest with
      | some v => rfl
      | none => cases c <;> rfl
    · simp only [lastPool]
      cases lastPool rest with
      | some v => rfl
      | none => cases c <;> rfl
    · simp only [lastPool]
      cases lastPool rest with
      | some v => rfl
      | none => cases c <;> rfl

/-- C13 (configuration defaults and overrides).  `New` without options makes
a window of size 300 and duration 3 s whose pool is asked for with 20 workers
and blocking submission.  For every list of calls of `WithSize`,
`WithDuration`, `WithBlockPool` and `WithNonBlockPool`, each of size,
duration, pool size and blocking flag of the configuration is the value of
the last call that sets it, or its default when no call does; `New` returns a
window unless `size + 1` is negative as an `int`, and the window has the size
and the duration of the configuration. -/
theorem config_defaults_and_overrides (calls : List OptionCall) (pool : Option Pool)
    (now : Int) :
    (New [] pool now).map (fun w => (w.size, w.duration, w.config, poolArguments w.config)) =
        some (300, 3000000000,
          { size := 300, duration := 3000000000, poolSize := 20, block := true }, (20, false)) ∧
      (configOf (calls.map OptionCall.toOption)).size = (lastSize calls).getD 300 ∧
      (configOf (calls.map OptionCall.toOption)).duration =
        (lastDuration calls).getD 3000000000 ∧
      (configOf (calls.map OptionCall.toOption)).poolSize =
        ((lastPool calls).map Prod.fst).getD 20 ∧
      (configOf (calls.map OptionCall.toOption)).block =
        ((lastPool calls).map Prod.snd).getD true ∧
      (New (calls.map OptionCall.toOption) pool now).map
          (fun w => (w.size, w.duration, w.config, w.pool)) =
        if wrap64 ((configOf (calls.map OptionCall.toOption)).size + 1) < 0 then none
        else some ((configOf (calls.map OptionCall.toOption)).size,
          (configOf (calls.map OptionCall.toOption)).duration,
          configOf (calls.map OptionCall.toOption), pool) := by
  obtain ⟨h1, h2, h3, h4⟩ := foldl_options calls defaultConfig
  refine ⟨?_, h1, h2, h3, h4, ?_⟩
  · simp [New, defaultConfig, wrap64, poolArguments]
  · simp only [New, configOf]
    split <;> rfl

/-- C15 (index-queue bijection).  In every reachable state the table holds a
key exactly when a buffered entry carries it, no two buffered entries carry
the same key, no key or entry occurs twice, the table maps a key to an
address exactly when that address is the buffered entry carrying the key, and
the entries of the table are the entries of the buffer. -/
theorem index_queue_bijection (w : Window) (hreach : Reachable w) :
    (∀ k, (∃ a, tableLoad w.table k = some a) ↔ ∃ a ∈ w.buffer, keyAt w.heap a = k) ∧
      (w.buffer.map (keyAt w.heap)).Nodup ∧ w.buffer.Nodup ∧ (w.table.map Prod.fst).Nodup ∧
      (∀ k a, tableLoad w.table k = some a ↔ (a ∈ w.buffer ∧ keyAt w.heap a = k)) ∧
      w.table.map Prod.snd = w.buffer ∧
      ∀ a ∈ w.buffer, ∃ e, w.heap[a]? = some e ∧ e.Key = keyAt w.heap a := by
  have hinv := hreach.inv
  have hiff : ∀ k a, tableLoad w.table k = some a ↔ (a ∈ w.buffer ∧ keyAt w.heap a = k) := by
    intro k a
    constructor
    · exact fun h => hinv.load_some h
    · rintro ⟨ha, hk⟩
      cases hl : tableLoad w.table k with
      | none => exact absurd hk (hinv.load_none hl a ha)
      | some b =>
        obtain ⟨hb, hkb⟩ := hinv.load_some hl
        rw [hinv.key_inj hb ha (hkb.trans hk.symm)]
  have hnd : w.buffer.Nodup := by
    rw [hinv.buf]; exact List.nodup_range' _ _
  refine ⟨?_, hinv.keys, hnd, ?_, hiff, ?_, ?_⟩
  · intro k
    constructor
    · rintro ⟨a, ha⟩
      exact ⟨a, (hiff k a).mp ha⟩
    · rintro ⟨a, ha, hk⟩
      exact ⟨a, (hiff k a).mpr ⟨ha, hk⟩⟩
  · have := hinv.keys
    rw [hinv.table, List.map_map]
    exact this
  · conv_lhs => rw [hinv.table]
    rw [List.map_map]
    exact List.map_id _
  · intro a ha
    obtain ⟨e, he⟩ := hinv.get ha
    exact ⟨e, he, by simp [keyAt, he]⟩

theorem index_queue_bijection_witness :
    (∀ k, (∃ a, tableLoad demoWindowA.table k = some a) ↔
        ∃ a ∈ demoWindowA.buffer, keyAt demoWindowA.heap a = k) ∧
      (demoWindowA.buffer.map (keyAt demoWindowA.heap)).Nodup ∧ demoWindowA.buffer.Nodup ∧
      (demoWindowA.table.map Prod.fst).Nodup ∧
      (∀ k a, tableLoad demoWindowA.table k = some a ↔
        (a ∈ demoWindowA.buffer ∧ keyAt demoWindowA.heap a = k)) ∧
      demoWindowA.table.map Prod.snd = demoWindowA.buffer ∧
      ∀ a ∈ demoWindowA.buffer, ∃ e, demoWindowA.heap[a]? = some e ∧
        e.Key = keyAt demoWindowA.heap a :=
  index_queue_bijection demoWindowA
    ⟨demoOptions, some { nonblocking := false, released := false }, 0, demoWindow,
      [Op.add { ID := "A", Name := "a1" } 1 true], by decide, by decide⟩

/-- C17 (the push never hits the hard capacity).  A new window of size at
least 0 has a channel of capacity `size + 1`; every sequence of calls of `Add`
and timer firings run one at a time runs to its end; in the state it leaves
the buffer holds at most `size` entries, fewer than the capacity, and every
call of `Add` in that state returns: the send in `pushBuffer` does not block. -/
theorem push_never_blocks (options : List ConfigOption) (pool : Option Pool) (now0 : Int)
    (w0 : Window) (hn : New options pool now0 = some w0)
    (h0 : 0 ≤ w0.size) (h64 : w0.size ≤ maxInt64) (ops : List Op) :
    w0.bufferCap = w0.size + 1 ∧
      ∃ w, run w0 ops = some w ∧ w.bufferCap = w0.size + 1 ∧
        (w.buffer.length : Int) ≤ w0.size ∧ (w.buffer.length : Int) < w.bufferCap ∧
        ∀ (e : Event) (now : Int) (ok : Bool), ∃ w1, Add w e now ok = some w1 := by
  have hinv := New_inv hn
  have hcap := New_cap hn h0 h64
  obtain ⟨w, hr, hi, hc⟩ := run_total hinv hcap ops
  have hsz := (run_size hinv hr).1
  refine ⟨hcap.2, w, hr, ?_, ?_, ?_, ?_⟩
  · rw [hc.2, hsz]
  · rw [← hsz]; exact hc.1
  · have := hc.1
    rw [hc.2]
    omega
  · intro e now ok
    obtain ⟨w1, hs⟩ := step_total hi hc (Op.add e now ok)
    exact ⟨w1, hs⟩

theorem push_never_blocks_witness :
    demoWindow.bufferCap = demoWindow.size + 1 ∧
      ∃ w, run demoWindow demoOps = some w ∧ w.bufferCap = demoWindow.size + 1 ∧
        (w.buffer.length : Int) ≤ demoWindow.size ∧ (w.buffer.length : Int) < w.bufferCap ∧
        ∀ (e : Event) (now : Int) (ok : Bool), ∃ w1, Add w e now ok = some w1 :=
  push_never_blocks demoOptions (some { nonblocking := false, released := false }) 0 demoWindow
    (by decide) (by decide) (by decide) demoOps

/-! ### A window of size 0 -/

theorem run_zero {w : Window} (h : Inv w) (hc : Cap w) (hs : w.size = 0) (hb : w.buffer = [])
    (hz : ZeroRepeat w) (adds : List (Event × Int × Bool)) :
    ∃ w1, run w (addCalls adds) = some w1 ∧ Inv w1 ∧ w1.buffer = [] ∧ ZeroRepeat w1 ∧
      w1.duplicates = w.duplicates ∧
      w1.heap.map WinEvent.ident =
        w.heap.map WinEvent.ident ++ adds.map (fun q => (q.1, timeAdd q.2.1 w.duration)) ∧
      w1.popped.map Prod.snd =
        w.popped.map Prod.snd ++ adds.map (fun q => submitOutcome w.pool q.2.2) := by
  induction adds generalizing w with
  | nil => exact ⟨w, rfl, h, hb, hz, rfl, by simp, by simp⟩
  | cons q adds ih =>
    have hl : tableLoad w.table q.1.Key = none := by
      rw [h.table, hb]; rfl
    have hcap : (w.buffer.length : Int) < w.bufferCap := by
      have := hc.1
      rw [hc.2]; omega
    have hov : w.size < (w.buffer.length : Int) + 1 := by
      rw [hs, hb]; simp
    have ht := Trans.overflow q.1 q.2.1 q.2.2 hl hcap hov
    have hst := trans_step h ht
    have hi2 := trans_inv h ht
    have hc2 := trans_cap hc ht
    obtain ⟨hz2, -⟩ := trans_add_new h hc ht hl hz
    have hb2 : (afterPop (afterPush w q.1 q.2.1) q.2.1 q.2.2).buffer = [] := by
      show (w.buffer ++ [w.heap.length]).tail = []
      rw [hb]; rfl
    obtain ⟨w1, hr1, hi1, hb1, hz1, hd1, hh1, hp1⟩ := ih hi2 hc2 hs hb2 hz2
    refine ⟨w1, ?_, hi1, hb1, hz1, hd1, ?_, ?_⟩
    · show run w (Op.add q.1 q.2.1 q.2.2 :: addCalls adds) = some w1
      simp only [run, hst]
      exact hr1
    · rw [hh1]
      have : (afterPop (afterPush w q.1 q.2.1) q.2.1 q.2.2).heap = (afterPush w q.1 q.2.1).heap :=
        rfl
      rw [this, afterPush_map_ident]
      simp [afterPop, afterPush]
    · rw [hp1]
      simp [afterPop, afterPush]

/-- C20 (a window of size 0 never buffers or deduplicates).  In a new window
of size 0, every sequence of calls of `Add` run one at a time runs to its
end; the entries popped are the entries of the calls, one for each call in
the order of the calls, whatever the keys, each handed to `Submit` with the
outcome of its own call and `RepeatTimes = 0`; `OnDuplicate` is never called;
and in the state left the buffer and the table are empty and `head` and
`curr` are nil.  As this holds for every sequence, it holds after every call. -/
theorem zero_size_never_buffers (options : List ConfigOption) (pool : Option Pool) (now0 : Int)
    (w0 : Window) (hn : New options pool now0 = some w0) (hs : w0.size = 0)
    (adds : List (Event × Int × Bool)) :
    ∃ w, run w0 (addCalls adds) = some w ∧
      w.buffer = [] ∧ w.table = [] ∧ w.head = none ∧ w.curr = none ∧ w.duplicates = [] ∧
      w.evicted = List.range adds.length ∧
      w.evicted.map (eventAt w.heap) = adds.map (fun q => some q.1) ∧
      w.popped.map Prod.snd = adds.map (fun q => submitOutcome pool q.2.2) ∧
      ∀ a ∈ w.evicted, ∃ mt, listenMeta w a = some mt ∧ mt.RepeatTimes = 0 := by
  have hinv := New_inv hn
  have hcap := New_cap hn (by rw [hs]) (by rw [hs]; decide)
  obtain ⟨hheap, hpop, hbuf, hpool, htab, hdup⟩ := New_fields hn
  have hz0 : ZeroRepeat w0 := by
    intro a y hy
    rw [hheap] at hy
    simp at hy
  obtain ⟨w, hr, hi, hb, hz, hd, hh, hp⟩ := run_zero hinv hcap hs hbuf hz0 adds
  rw [hheap] at hh
  rw [hpop, hpool] at hp
  simp only [List.map_nil, List.nil_append] at hh hp
  have hlen : w.heap.length = adds.length := by
    have := congrArg List.length hh
    simpa using this
  have hev : w.evicted = List.range w.heap.length := by
    have := hi.evicted_append_buffer
    rw [hb, List.append_nil] at this
    exact this
  refine ⟨w, hr, hb, ?_, ?_, ?_, ?_, ?_, ?_, hp, ?_⟩
  · rw [hi.table, hb]; rfl
  · rw [hi.head, hb]; rfl
  · rw [hi.curr, hb]; rfl
  · rw [hd, hdup]
  · rw [hev, hlen]
  · rw [hev, map_eventAt_range]
    have hfst := congrArg (List.map (fun q : Event × Int => some q.1)) hh
    simp only [List.map_map] at hfst
    exact hfst
  · intro a ha
    rw [hev, List.mem_range] at ha
    have hy := List.getElem?_eq_getElem ha
    exact ⟨{ AddTime := timeAdd (w.heap[a]).expireAt (negDuration w.duration)
             RepeatTimes := (w.heap[a]).repeatTimes },
      by simp only [listenMeta, hy], hz a _ hy⟩

theorem zero_size_never_buffers_witness :
    ∃ w, run demoWindowZero (addCalls demoCalls) = some w ∧
      w.buffer = [] ∧ w.table = [] ∧ w.head = none ∧ w.curr = none ∧ w.duplicates = [] ∧
      w.evicted = List.range demoCalls.length ∧
      w.evicted.map (eventAt w.heap) = demoCalls.map (fun q => some q.1) ∧
      w.popped.map Prod.snd =
        demoCalls.map
          (fun q => submitOutcome (some { nonblocking := false, released := false }) q.2.2) ∧
      ∀ a ∈ w.evicted, ∃ mt, listenMeta w a = some mt ∧ mt.RepeatTimes = 0 :=
  zero_size_never_buffers [WithBlockPool 3, WithSize 0, WithDuration 10]
    (some { nonblocking := false, released := false }) 0 demoWindowZero (by decide) rfl
    demoCalls

/-! ### Expiry times under a clock that does not go backwards -/

theorem sorted_afterPush {w : Window} (h : Inv w) {t now : Int} (hs : SortedInv w t)
    (hle : t ≤ now) (e : Event) : SortedInv (afterPush w e now) now := by
  have hE : ∀ a ∈ w.buffer, expireAtOf (afterPush w e now).heap a = expireAtOf w.heap a :=
    fun a ha => expireAtOf_afterPush_lt w e now (h.mem_lt ha)
  have hEn : expireAtOf (afterPush w e now).heap w.heap.length = now + w.duration := by
    rw [expireAtOf_afterPush_length h, timeAdd]
  have hmem : ∀ a, a ∈ (afterPush w e now).buffer → a ∈ w.buffer ∨ a = w.heap.length := by
    intro a ha
    have ha2 : a ∈ w.buffer ++ [w.heap.length] := ha
    rwa [List.mem_append, List.mem_singleton] at ha2
  refine ⟨?_, ?_⟩
  · intro a ha
    show _ ≤ now + w.duration
    rcases hmem a ha with h1 | h1
    · rw [hE a h1]
      have := hs.hi a h1
      omega
    · rw [h1, hEn]
  · intro a ha b hb hab
    rcases hmem a ha with h1 | h1 <;> rcases hmem b hb with h2 | h2
    · rw [hE a h1, hE b h2]; exact hs.mono a h1 b h2 hab
    · rw [hE a h1, h2, hEn]
      have := hs.hi a h1
      omega
    · have := h.mem_lt h2
      omega
    · rw [h1, h2]

theorem sorted_afterPop {v : Window} {t : Int} (hs : SortedInv v t) (now : Int) (ok : Bool) :
    SortedInv (afterPop v now ok) t :=
  ⟨fun a ha => hs.hi a (List.mem_of_mem_tail ha),
    fun a ha b hb hab => hs.mono a (List.mem_of_mem_tail ha) b (List.mem_of_mem_tail hb) hab⟩

theorem sorted_weaken {w : Window} {t t1 : Int} (hs : SortedInv w t) (hle : t ≤ t1) :
    SortedInv w t1 :=
  ⟨fun a ha => by have := hs.hi a ha; omega, hs.mono⟩

theorem sorted_disarm {w : Window} {t : Int} (hs : SortedInv w t) : SortedInv (disarm w) t := by
  refine ⟨?_, ?_⟩
  · intro a ha
    rw [disarm_buffer] at ha
    rw [disarm_heap, disarm_duration]
    exact hs.hi a ha
  · intro a ha b hb hab
    rw [disarm_buffer] at ha hb
    rw [disarm_heap]
    exact hs.mono a ha b hb hab

theorem trans_sorted {w : Window} {op : Op} {w1 : Window} (h : Inv w) {t : Int}
    (hs : SortedInv w t) (htr : Trans w op w1) (hle : t ≤ op.now) : SortedInv w1 op.now := by
  cases htr with
  | dup e now ok old hl =>
    simp only [Op.now] at hle ⊢
    refine ⟨?_, ?_⟩
    · intro a ha
      show expireAtOf (bumpRepeat w.heap old) a ≤ now + w.duration
      rw [expireAtOf_bumpRepeat]
      have := hs.hi a ha
      omega
    · intro a ha b hb hab
      show expireAtOf (bumpRepeat w.heap old) a ≤ expireAtOf (bumpRepeat w.heap old) b
      rw [expireAtOf_bumpRepeat, expireAtOf_bumpRepeat]
      exact hs.mono a ha b hb hab
  | push e now ok hl hcap hov => exact sorted_afterPush h hs hle e
  | overflow e now ok hl hcap hov => exact sorted_afterPop (sorted_afterPush h hs hle e) now ok
  | idle now ok hb => exact sorted_disarm (sorted_weaken hs hle)
  | expire now ok b rest hb => exact sorted_afterPop (sorted_disarm (sorted_weaken hs hle)) now ok

theorem run_sorted {w : Window} {t : Int} (h : Inv w) (hs : SortedInv w t) {ops : List Op}
    {w1 : Window} (hr : run w ops = some w1) (hm : monotoneClock t ops = true) :
    ∃ t1, SortedInv w1 t1 := by
  induction ops generalizing w t with
  | nil =>
    simp only [run, Option.some.injEq] at hr
    subst hr
    exact ⟨t, hs⟩
  | cons op ops ih =>
    simp only [run] at hr
    simp only [monotoneClock, Bool.and_eq_true, decide_eq_true_eq] at hm
    cases hst : step w op with
    | none => rw [hst] at hr; cases hr
    | some w2 =>
      rw [hst] at hr
      have htr := step_trans h hst
      exact ih (trans_inv h htr) (trans_sorted h hs htr hm.1) hr hm.2

/-! ### Following `next` -/

theorem follow_range (heap : List WinEvent) (n : Nat) :
    ∀ (s fuel : Nat), n ≤ fuel →
      (∀ a, s ≤ a → a < s + n → ∀ e, heap[a]? = some e →
        e.next = if a + 1 < s + n then some (a + 1) else none) →
      (∀ a, s ≤ a → a < s + n → ∃ e, heap[a]? = some e) →
      follow heap fuel (if n = 0 then none else some s) = List.range' s n := by
  induction n with
  | zero =>
    intro s fuel _ _ _
    cases fuel <;> rfl
  | succ n ih =>
    intro s fuel hf hnext hget
    cases fuel with
    | zero => omega
    | succ f =>
      obtain ⟨e, he⟩ := hget s (Nat.le_refl s) (by omega)
      have hn := hnext s (Nat.le_refl s) (by omega) e he
      simp only [Nat.succ_ne_zero, if_false, follow, he, List.range'_succ]
      congr 1
      have hnx : e.next = if n = 0 then none else some (s + 1) := by
        rw [hn]
        by_cases h0 : n = 0
        · simp [h0]
        · have : s + 1 < s + (n + 1) := by omega
          simp [h0, this]
      rw [hnx]
      apply ih (s + 1) f (by omega)
      · intro a h1 h2 x hx
        rw [hnext a (by omega) (by omega) x hx]
        have : s + 1 + n = s + (n + 1) := by omega
        rw [this]
      · intro a h1 h2
        exact hget a (by omega) (by omega)

theorem follow_buffer {w : Window} (h : Inv w) {fuel : Nat} (hf : w.buffer.length ≤ fuel) :
    follow w.heap fuel w.head = w.buffer := by
  have hle := h.le
  have hb := h.buf
  have hbl : w.base + w.buffer.length = w.heap.length := by
    simp only [Window.base]; omega
  have hhead : w.head = if w.buffer.length = 0 then none else some w.base := by
    rw [h.head]
    conv_lhs => rw [hb]
    rw [List.head?_range']
  have hmem : ∀ a, w.base ≤ a → a < w.base + w.buffer.length → a ∈ w.buffer := by
    intro a h1 h2
    rw [hb, List.mem_range'_1]
    exact ⟨h1, h2⟩
  rw [hhead]
  conv_rhs => rw [hb]
  apply follow_range w.heap w.buffer.length w.base fuel hf
  · intro a h1 h2 e he
    rw [h.next a (hmem a h1 h2) e he, hbl]
  · intro a h1 h2
    exact h.get (hmem a h1 h2)

/-- C16 (head and tail pointers).  In a state that calls of `Add` and timer
firings, run one at a time under a clock that does not go backwards, reach
from a new window: `head` is nil exactly when the buffer is empty and is the
front entry otherwise, and no buffered entry expires before it; `curr` is nil
exactly when the buffer is empty and is the last entry otherwise, and its
`next` is nil; and following `next` from `head` visits the buffered entries
in the order of the buffer and then stops. -/
theorem head_tail_pointers (options : List ConfigOption) (pool : Option Pool) (now0 : Int)
    (w0 : Window) (hn : New options pool now0 = some w0) (ops : List Op) (w : Window)
    (hr : run w0 ops = some w) (hm : monotoneClock now0 ops = true) :
    (w.head = none ↔ w.buffer = []) ∧ w.head = w.buffer.head? ∧
      (∀ h, w.head = some h → ∀ a ∈ w.buffer, expireAtOf w.heap h ≤ expireAtOf w.heap a) ∧
      (w.curr = none ↔ w.buffer = []) ∧ w.curr = w.buffer.getLast? ∧
      (∀ c, w.curr = some c → ∃ e, w.heap[c]? = some e ∧ e.next = none) ∧
      ∀ fuel, w.buffer.length ≤ fuel → follow w.heap fuel w.head = w.buffer := by
  have hinv0 := New_inv hn
  obtain ⟨-, -, hbuf, -⟩ := New_fields hn
  have hs0 : SortedInv w0 now0 := by
    refine ⟨?_, ?_⟩
    · intro a ha; rw [hbuf] at ha; cases ha
    · intro a ha; rw [hbuf] at ha; cases ha
  have hinv := run_inv hinv0 hr
  obtain ⟨t1, hs⟩ := run_sorted hinv0 hs0 hr hm
  refine ⟨?_, hinv.head, ?_, ?_, hinv.curr, ?_, fun fuel hf => follow_buffer hinv hf⟩
  · rw [hinv.head]
    cases w.buffer <;> simp
  · intro h hh a ha
    rw [hinv.head] at hh
    cases hb : w.buffer with
    | nil => rw [hb] at hh; cases hh
    | cons b rest =>
      rw [hb] at hh
      simp only [List.head?_cons, Option.some.injEq] at hh
      subst hh
      have hbm : b ∈ w.buffer := by rw [hb]; exact List.mem_cons_self _ _
      obtain ⟨hbase, -, -⟩ := hinv.front hb
      have hba : b ≤ a := by
        have := hinv.buf
        rw [this, List.mem_range'_1] at ha
        omega
      exact hs.mono b hbm a ha hba
  · rw [hinv.curr]
    constructor
    · intro hl
      exact List.getLast?_eq_none_iff.mp hl
    · intro hb
      rw [hb]; rfl
  · intro c hc
    rw [hinv.curr] at hc
    obtain ⟨hc1, hc2⟩ := hinv.last hc
    obtain ⟨e, he⟩ := hinv.get hc2
    refine ⟨e, he, ?_⟩
    rw [hinv.next c hc2 e he]
    simp [hc1]

theorem head_tail_pointers_witness :
    (demoWindowA.head = none ↔ demoWindowA.buffer = []) ∧
      demoWindowA.head = demoWindowA.buffer.head? ∧
      (∀ h, demoWindowA.head = some h → ∀ a ∈ demoWindowA.buffer,
        expireAtOf demoWindowA.heap h ≤ expireAtOf demoWindowA.heap a) ∧
      (demoWindowA.curr = none ↔ demoWindowA.buffer = []) ∧
      demoWindowA.curr = demoWindowA.buffer.getLast? ∧
      (∀ c, demoWindowA.curr = some c → ∃ e, demoWindowA.heap[c]? = some e ∧ e.next = none) ∧
      ∀ fuel, demoWindowA.buffer.length ≤ fuel →
        follow demoWindowA.heap fuel demoWindowA.head = demoWindowA.buffer :=
  head_tail_pointers demoOptions (some { nonblocking := false, released := false }) 0
    demoWindow (by decide) [Op.add { ID := "A", Name := "a1" } 1 true] demoWindowA (by decide)
    (by decide)

/-! ### The deadline of the timer -/

theorem add_timeSub_exact {x now : Int} (h1 : minInt64 ≤ x - now) (h2 : x - now ≤ maxInt64) :
    now + timeSub x now = x := by
  unfold timeSub
  simp only [minInt64, maxInt64] at h1 h2 ⊢
  split
  · omega
  · split <;> omega

theorem exact_afterPop {v : Window} {lo now : Int} (ok : Bool) (hd : isInt64 v.duration)
    (hle : lo ≤ now) (hspan : now ≤ lo + v.duration - minInt64)
    (hlo : ∀ a ∈ v.buffer, lo + v.duration ≤ expireAtOf v.heap a)
    (hhi : ∀ a ∈ v.buffer, expireAtOf v.heap a ≤ now + v.duration) :
    ExactInv (afterPop v now ok) lo now := by
  refine ⟨hd, hle, ?_, ?_, ?_⟩
  · intro a ha
    exact hlo a (List.mem_of_mem_tail ha)
  · intro a ha
    exact hhi a (List.mem_of_mem_tail ha)
  · intro a rest hb
    have hb2 : v.buffer.tail = a :: rest := hb
    have hmem : a ∈ v.buffer := List.mem_of_mem_tail (by rw [hb2]; exact List.mem_cons_self _ _)
    have hdl : (afterPop v now ok).deadline =
        some (now + timeSub (expireAtOf v.heap a) now) := by
      simp [Window.deadline, afterPop, hb2]
    rw [hdl]
    show some (now + timeSub (expireAtOf v.heap a) now) = some (expireAtOf v.heap a)
    rw [add_timeSub_exact]
    · have := hlo a hmem
      omega
    · have := hhi a hmem
      have := hd.2
      omega

theorem exact_afterPush_bounds {w : Window} (h : Inv w) {lo t now : Int} (hx : ExactInv w lo t)
    (hle : t ≤ now) (e : Event) :
    (∀ a ∈ (afterPush w e now).buffer,
        lo + (afterPush w e now).duration ≤ expireAtOf (afterPush w e now).heap a) ∧
      ∀ a ∈ (afterPush w e now).buffer,
        expireAtOf (afterPush w e now).heap a ≤ now + (afterPush w e now).duration := by
  have hlo := hx.le
  have key : ∀ a ∈ (afterPush w e now).buffer,
      lo + w.duration ≤ expireAtOf (afterPush w e now).heap a ∧
        expireAtOf (afterPush w e now).heap a ≤ now + w.duration := by
    intro a ha
    have ha2 : a ∈ w.buffer ++ [w.heap.length] := ha
    rw [List.mem_append, List.mem_singleton] at ha2
    rcases ha2 with h1 | h1
    · rw [expireAtOf_afterPush_lt w e now (h.mem_lt h1)]
      have := hx.lo a h1
      have := hx.hi a h1
      omega
    · rw [h1, expireAtOf_afterPush_length h, timeAdd]
      omega
  exact ⟨fun a ha => (key a ha).1, fun a ha => (key a ha).2⟩

theorem afterPush_deadline_nil {w : Window} (hb : w.buffer = []) (hd : isInt64 w.duration)
    (e : Event) (now : Int) : (afterPush w e now).deadline = some (now + w.duration) := by
  have h1 : (afterPush w e now).deadline =
      some (now + timeSub (timeAdd now w.duration) now) := by
    simp [Window.deadline, afterPush, hb]
  rw [h1, add_timeSub_exact]
  · rfl
  · simp only [timeAdd]
    have := hd.1
    omega
  · simp only [timeAdd]
    have := hd.2
    omega

theorem afterPush_deadline_cons {w : Window} {b : Nat} {rest : List Nat}
    (hb : w.buffer = b :: rest) (e : Event) (now : Int) :
    (afterPush w e now).deadline = w.deadline := by
  simp [Window.deadline, afterPush, hb]

theorem trans_exact {w : Window} {op : Op} {w1 : Window} (h : Inv w) {lo t : Int}
    (hx : ExactInv w lo t) (htr : Trans w op w1) (hle : t ≤ op.now)
    (hspan : op.now ≤ lo + w.duration - minInt64) : ExactInv w1 lo op.now := by
  have hlo := hx.le
  cases htr with
  | dup e now ok old hl =>
    simp only [Op.now] at hle hspan ⊢
    refine ⟨hx.dur, by omega, ?_, ?_, ?_⟩
    · intro a ha
      show lo + w.duration ≤ expireAtOf (bumpRepeat w.heap old) a
      rw [expireAtOf_bumpRepeat]
      exact hx.lo a ha
    · intro a ha
      show expireAtOf (bumpRepeat w.heap old) a ≤ now + w.duration
      rw [expireAtOf_bumpRepeat]
      have := hx.hi a ha
      omega
    · intro a rest hb
      show w.deadline = some (expireAtOf (bumpRepeat w.heap old) a)
      rw [expireAtOf_bumpRepeat]
      exact hx.armed a rest hb
  | push e now ok hl hcap hov =>
    simp only [Op.now] at hle hspan ⊢
    obtain ⟨b1, b2⟩ := exact_afterPush_bounds h hx hle e
    refine ⟨hx.dur, by omega, b1, b2, ?_⟩
    intro a rest hb
    have hb2 : w.buffer ++ [w.heap.length] = a :: rest := hb
    cases hw : w.buffer with
    | nil =>
      rw [hw] at hb2
      simp only [List.nil_append, List.cons.injEq] at hb2
      obtain ⟨ha, -⟩ := hb2
      subst ha
      rw [afterPush_deadline_nil hw hx.dur, expireAtOf_afterPush_length h, timeAdd]
    | cons b rest2 =>
      rw [hw] at hb2
      simp only [List.cons_append, List.cons.injEq] at hb2
      obtain ⟨ha, -⟩ := hb2
      subst ha
      have hbm : b ∈ w.buffer := by rw [hw]; exact List.mem_cons_self _ _
      rw [afterPush_deadline_cons hw, expireAtOf_afterPush_lt w e now (h.mem_lt hbm)]
      exact hx.armed b rest2 hw
  | overflow e now ok hl hcap hov =>
    simp only [Op.now] at hle hspan ⊢
    obtain ⟨b1, b2⟩ := exact_afterPush_bounds h hx hle e
    exact exact_afterPop ok hx.dur (by omega) hspan b1 b2
  | idle now ok hb =>
    simp only [Op.now] at hle hspan ⊢
    refine ⟨by rw [disarm_duration]; exact hx.dur, by omega, ?_, ?_, ?_⟩
    · intro a ha; rw [disarm_buffer, hb] at ha; cases ha
    · intro a ha; rw [disarm_buffer, hb] at ha; cases ha
    · intro a rest hb2; rw [disarm_buffer, hb] at hb2; cases hb2
  | expire now ok b rest hb =>
    simp only [Op.now] at hle hspan ⊢
    apply exact_afterPop ok (by rw [disarm_duration]; exact hx.dur) (by omega)
      (by rw [disarm_duration]; exact hspan)
    · intro a ha
      rw [disarm_buffer] at ha
      rw [disarm_heap, disarm_duration]
      exact hx.lo a ha
    · intro a ha
      rw [disarm_buffer] at ha
      rw [disarm_heap, disarm_duration]
      have := hx.hi a ha
      omega

theorem run_exact {w : Window} {lo t : Int} (h : Inv w) (hx : ExactInv w lo t) {ops : List Op}
    {w1 : Window} (hr : run w ops = some w1) (hm : monotoneClock t ops = true)
    (hspan : ∀ op ∈ ops, op.now ≤ lo + w.duration - minInt64) :
    ∃ t1, ExactInv w1 lo t1 := by
  induction ops generalizing w t with
  | nil =>
    simp only [run, Option.some.injEq] at hr
    subst hr
    exact ⟨t, hx⟩
  | cons op ops ih =>
    simp only [run] at hr
    simp only [monotoneClock, Bool.and_eq_true, decide_eq_true_eq] at hm
    cases hst : step w op with
    | none => rw [hst] at hr; cases hr
    | some w2 =>
      rw [hst] at hr
      have htr := step_trans h hst
      have hdur := (trans_size htr).2.1
      refine ih (trans_inv h htr)
        (trans_exact h hx htr hm.1 (hspan op (List.mem_cons_self _ _))) hr hm.2 ?_
      intro o ho
      rw [hdur]
      exact hspan o (List.mem_cons_of_mem _ ho)

/-- C14 (the timer tracks the head).  In a state that calls of `Add` and
timer firings, run one at a time, reach from a new window whose duration is
an `int64`, under a clock that does not go backwards and has not advanced by
more than `2^63 ns + duration` since the window was made (so that `Sub` does
not saturate): while the buffer is not empty, `head` is its front entry and
the timer is pending with the expiry time of that entry as deadline.  This
covers the state after an eviction that leaves entries buffered.  Moreover a
call of `Add` on the empty buffer arms the timer at `now + duration`, the
expiry time of the new entry, and a call of `Add` for a new key on a
non-empty buffer that does not overflow leaves the deadline as it is. -/
theorem timer_tracks_head (options : List ConfigOption) (pool : Option Pool) (now0 : Int)
    (w0 : Window) (hn : New options pool now0 = some w0) (hd : isInt64 w0.duration)
    (ops : List Op) (w : Window) (hr : run w0 ops = some w)
    (hm : monotoneClock now0 ops = true)
    (hspan : ∀ op ∈ ops, op.now ≤ now0 + w0.duration - minInt64) :
    (∀ a rest, w.buffer = a :: rest →
        w.head = some a ∧ w.deadline = some (expireAtOf w.heap a)) ∧
      (∀ e now ok w1, Add w e now ok = some w1 → w.buffer = [] →
        w1.deadline = some (now + w.duration) ∧
          expireAtOf w1.heap w.heap.length = now + w.duration) ∧
      ∀ e now ok w1, Add w e now ok = some w1 → tableLoad w.table e.Key = none →
        w.buffer ≠ [] → (w.buffer.length : Int) + 1 ≤ w.size → w1.deadline = w.deadline := by
  have hinv0 := New_inv hn
  obtain ⟨-, -, hbuf, -⟩ := New_fields hn
  have hx0 : ExactInv w0 now0 now0 := by
    refine ⟨hd, le_refl _, ?_, ?_, ?_⟩
    · intro a ha; rw [hbuf] at ha; cases ha
    · intro a ha; rw [hbuf] at ha; cases ha
    · intro a rest hb; rw [hbuf] at hb; cases hb
  have hinv := run_inv hinv0 hr
  obtain ⟨t1, hx⟩ := run_exact hinv0 hx0 hr hm hspan
  refine ⟨?_, ?_, ?_⟩
  · intro a rest hb
    refine ⟨?_, hx.armed a rest hb⟩
    rw [hinv.head, hb]; rfl
  · intro e now ok w1 hs hb
    have htr : Trans w (Op.add e now ok) w1 := step_trans hinv hs
    have hE := expireAtOf_afterPush_length hinv e now
    rw [timeAdd] at hE
    cases htr with
    | dup e now ok old hl =>
      have := (hinv.load_some hl).1
      rw [hb] at this
      cases this
    | push e now ok hl hcap hov => exact ⟨afterPush_deadline_nil hb hx.dur e now, hE⟩
    | overflow e now ok hl hcap hov =>
      refine ⟨?_, hE⟩
      have hdl : (afterPop (afterPush w e now) now ok).deadline = (afterPush w e now).deadline := by
        have hbt : (afterPush w e now).buffer.tail = [] := by
          show (w.buffer ++ [w.heap.length]).tail = []
          rw [hb]; rfl
        simp [Window.deadline, afterPop, hbt]
      rw [hdl]
      exact afterPush_deadline_nil hb hx.dur e now
  · intro e now ok w1 hs hl hne hno
    have htr : Trans w (Op.add e now ok) w1 := step_trans hinv hs
    obtain ⟨b, rest, hb⟩ := List.exists_cons_of_ne_nil hne
    cases htr with
    | dup e now ok old hl2 => rw [hl] at hl2; cases hl2
    | push e now ok hl hcap hov => exact afterPush_deadline_cons hb e now
    | overflow e now ok hl hcap hov => omega

theorem timer_tracks_head_witness :
    (∀ a rest, demoWindowA.buffer = a :: rest →
        demoWindowA.head = some a ∧
          demoWindowA.deadline = some (expireAtOf demoWindowA.heap a)) ∧
      (∀ e now ok w1, Add demoWindowA e now ok = some w1 → demoWindowA.buffer = [] →
        w1.deadline = some (now + demoWindowA.duration) ∧
          expireAtOf w1.heap demoWindowA.heap.length = now + demoWindowA.duration) ∧
      ∀ e now ok w1, Add demoWindowA e now ok = some w1 →
        tableLoad demoWindowA.table e.Key = none → demoWindowA.buffer ≠ [] →
        (demoWindowA.buffer.length : Int) + 1 ≤ demoWindowA.size →
        w1.deadline = demoWindowA.deadline :=
  timer_tracks_head demoOptions (some { nonblocking := false, released := false }) 0
    demoWindow (by decide) (by decide) [Op.add { ID := "A", Name := "a1" } 1 true] demoWindowA
    (by decide) (by decide) (by decide)

/-! ### A key after its entry has left the buffer -/

theorem run_cap {w : Window} (h : Inv w) (hc : Cap w) {ops : List Op} {w1 : Window}
    (hr : run w ops = some w1) : Cap w1 := by
  obtain ⟨w2, hr2, -, hc2⟩ := run_total h hc ops
  rw [hr] at hr2
  cases hr2
  exact hc2

/-- The step that takes a buffered entry out of the buffer takes its key out
of the table. -/
theorem trans_evict_table {w : Window} {op : Op} {w1 : Window} (h : Inv w) (ht : Trans w op w1)
    {a : Nat} (ha : a ∈ w.buffer) (ha1 : a ∉ w1.buffer) :
    tableLoad w1.table (keyAt w.heap a) = none := by
  have head_eq : ∀ l : List Nat, a ∈ l → a ∉ l.tail → ∃ rest, l = a :: rest := by
    intro l h1 h2
    cases l with
    | nil => cases h1
    | cons b rest =>
      rcases List.mem_cons.mp h1 with h3 | h3
      · exact ⟨rest, by rw [h3]⟩
      · exact absurd h3 h2
  cases ht with
  | dup e now ok old hl => exact absurd ha ha1
  | push e now ok hl hcap hov =>
    exact absurd (List.mem_append_left _ ha : a ∈ w.buffer ++ [w.heap.length]) ha1
  | idle now ok hb => rw [disarm_buffer] at ha1; exact absurd ha ha1
  | overflow e now ok hl hcap hov =>
    have hv := afterPush_inv h hl now
    obtain ⟨rest, hb⟩ := head_eq (afterPush w e now).buffer
      (List.mem_append_left _ ha : a ∈ w.buffer ++ [w.heap.length]) ha1
    obtain ⟨-, g2, -, -⟩ := afterPop_front hv hb now ok
    rw [keyAt_afterPush_lt w e now (h.mem_lt ha)] at g2
    exact g2
  | expire now ok b rest hb =>
    have hv := disarm_inv h
    have ha1b : a ∉ (disarm w).buffer.tail := ha1
    obtain ⟨rest2, hb2⟩ := head_eq (disarm w).buffer (by rw [disarm_buffer]; exact ha) ha1b
    obtain ⟨-, g2, -, -⟩ := afterPop_front hv hb2 now ok
    rw [disarm_heap] at g2
    exact g2

/-- A step that is not a call of `Add` with key `k` leaves `k` out of the
table. -/
theorem trans_absent {w : Window} {op : Op} {w1 : Window} (ht : Trans w op w1) {k : String}
    (hk : tableLoad w.table k = none) (hop : op.addsKey k = false) :
    tableLoad w1.table k = none := by
  cases op with
  | add e now ok =>
    simp only [Op.addsKey, decide_eq_false_iff_not] at hop
    exact trans_add_absent ht hk hop
  | fire now ok =>
    cases ht with
    | idle now ok hb => rw [disarm_table]; exact hk
    | expire now ok b rest hb =>
      show tableLoad (disarm w).table.tail k = none
      rw [disarm_table]
      rw [tableLoad_eq_none_iff] at hk ⊢
      exact fun q hq => hk q (List.mem_of_mem_tail hq)

theorem run_absent {w : Window} (h : Inv w) {ops : List Op} {w1 : Window}
    (hr : run w ops = some w1) {k : String} (hk : tableLoad w.table k = none)
    (hc : countAdds k ops = 0) : tableLoad w1.table k = none := by
  induction ops generalizing w with
  | nil =>
    simp only [run, Option.some.injEq] at hr
    subst hr
    exact hk
  | cons op ops ih =>
    simp only [run] at hr
    rw [countAdds_cons] at hc
    cases hst : step w op with
    | none => rw [hst] at hr; cases hr
    | some w2 =>
      rw [hst] at hr
      have htr := step_trans h hst
      have hop : op.addsKey k = false := by
        cases hb : op.addsKey k with
        | false => rfl
        | true => rw [hb] at hc; simp at hc
      exact ih (trans_inv h htr) hr (trans_absent htr hk hop) (by omega)

theorem listenMeta_congr {w w1 : Window} {a : Nat} (hh : w1.heap[a]? = w.heap[a]?)
    (hd : w1.duration = w.duration) : listenMeta w1 a = listenMeta w a := by
  simp only [listenMeta, hh, hd]

/-- C18 (a key is new again after eviction).  In a state reached from a new
window of size at least 0, let a step take the buffered entry at `a`, of key
`k`, out of the buffer (by the timer or by overflow), let further steps
follow, none of them a call of `Add` with key `k`, and let `Add` then be
called for an event `e` of key `k`.  The steps and the call return; the
table does not hold `k` before the call; the call makes a new entry with
event `e`, counter 0 and expiry time `now + duration`, which comes last in
the order of popped and buffered entries and is the last entry of the buffer
when the size is not 0; `OnDuplicate` is not called; and the `Meta` that
`Listen` receives for the entry at `a` is what it was before the call and
right after the eviction. -/
theorem key_new_after_eviction (options : List ConfigOption) (pool : Option Pool) (now0 : Int)
    (w0 : Window) (hn : New options pool now0 = some w0)
    (h0 : 0 ≤ w0.size) (h64 : w0.size ≤ maxInt64)
    (pre : List Op) (w : Window) (hr : run w0 pre = some w) (op : Op) (a : Nat)
    (hev : evicts w op a = true) (mid : List Op) (hmid : countAdds (keyAt w.heap a) mid = 0)
    (e : Event) (hk : e.Key = keyAt w.heap a) (now : Int) (ok : Bool) :
    ∃ w1 w2 w3, step w op = some w1 ∧ run w1 mid = some w2 ∧ Add w2 e now ok = some w3 ∧
      tableLoad w2.table e.Key = none ∧
      w3.heap[w2.heap.length]? =
        some { expireAt := now + w2.duration, UniqueEvent := e, next := none, repeatTimes := 0 } ∧
      w3.evicted ++ w3.buffer = (w2.evicted ++ w2.buffer) ++ [w2.heap.length] ∧
      (0 < w2.size → w3.buffer.getLast? = some w2.heap.length) ∧
      w3.duplicates = w2.duplicates ∧ a ≠ w2.heap.length ∧
      listenMeta w3 a = listenMeta w2 a ∧ listenMeta w2 a = listenMeta w1 a := by
  have hinv0 := New_inv hn
  have hinv := run_inv hinv0 hr
  have hcap := run_cap hinv0 (New_cap hn h0 h64) hr
  simp only [evicts, Bool.and_eq_true, decide_eq_true_eq] at hev
  obtain ⟨ha, hev2⟩ := hev
  cases hst : step w op with
  | none => rw [hst] at hev2; cases hev2
  | some w1 =>
    rw [hst] at hev2
    simp only [decide_eq_true_eq] at hev2
    have htr := step_trans hinv hst
    have hinv1 := trans_inv hinv htr
    have hcap1 := trans_cap hcap htr
    obtain ⟨-, -, -, -, halt1⟩ := trans_evict hinv htr ha hev2
    have htab1 := trans_evict_table hinv htr ha hev2
    obtain ⟨w2, hr2, hinv2, hcap2⟩ := run_total hinv1 hcap1 mid
    have htab2 := run_absent hinv1 hr2 htab1 hmid
    obtain ⟨f1, f2, -⟩ := run_frozen hinv1 halt1 hev2 hr2
    have halt2 : a < w2.heap.length := by
      by_contra hcon
      have h3 : w2.heap[a]? = none := List.getElem?_eq_none (by omega)
      rw [f1, List.getElem?_eq_getElem halt1] at h3
      cases h3
    obtain ⟨w3, hs3⟩ := step_total hinv2 hcap2 (Op.add e now ok)
    have htr3 := step_trans hinv2 hs3
    have hinv3 := trans_inv hinv2 htr3
    rw [← hk] at htab2
    obtain ⟨hget, -⟩ := trans_first hinv2 htr3 htab2
    obtain ⟨g1, -, -, -⟩ := trans_frozen hinv2 htr3 halt2 f2
    have hd3 := (trans_size htr3).2.1
    have hd2 := (run_size hinv1 hr2).2.1
    have hlen3 : w3.heap.length = w2.heap.length + 1 := by
      cases htr3 with
      | dup e now ok old hl => rw [htab2] at hl; cases hl
      | push e now ok hl hcap hov => exact afterPush_heap_length w2 e now
      | overflow e now ok hl hcap hov => exact afterPush_heap_length w2 e now
    refine ⟨w1, w2, w3, rfl, hr2, hs3, htab2, hget, ?_, ?_, ?_, by omega,
      listenMeta_congr g1 hd3, listenMeta_congr f1 hd2⟩
    · rw [hinv3.evicted_append_buffer, hinv2.evicted_append_buffer, hlen3, List.range_succ]
    · intro hpos
      cases htr3 with
      | dup e now ok old hl => rw [htab2] at hl; cases hl
      | push e now ok hl hcap hov =>
        show (w2.buffer ++ [w2.heap.length]).getLast? = _
        simp
      | overflow e now ok hl hcap hov =>
        show (w2.buffer ++ [w2.heap.length]).tail.getLast? = _
        cases hb : w2.buffer with
        | nil =>
          rw [hb] at hov
          simp at hov
          omega
        | cons b rest => simp
    · cases htr3 with
      | dup e now ok old hl => rw [htab2] at hl; cases hl
      | push e now ok hl hcap hov => rfl
      | overflow e now ok hl hcap hov => rfl

theorem key_new_after_eviction_witness :
    ∃ w1 w2 w3, step demoWindowA (Op.fire 11 true) = some w1 ∧
      run w1 [Op.add { ID := "B", Name := "b1" } 12 true] = some w2 ∧
      Add w2 { ID := "A", Name := "a3" } 13 true = some w3 ∧
      tableLoad w2.table (Event.Key { ID := "A", Name := "a3" }) = none ∧
      w3.heap[w2.heap.length]? =
        some { expireAt := 13 + w2.duration, UniqueEvent := { ID := "A", Name := "a3" },
               next := none, repeatTimes := 0 } ∧
      w3.evicted ++ w3.buffer = (w2.evicted ++ w2.buffer) ++ [w2.heap.length] ∧
      (0 < w2.size → w3.buffer.getLast? = some w2.heap.length) ∧
      w3.duplicates = w2.duplicates ∧ 0 ≠ w2.heap.length ∧
      listenMeta w3 0 = listenMeta w2 0 ∧ listenMeta w2 0 = listenMeta w1 0 :=
  key_new_after_eviction demoOptions (some { nonblocking := false, released := false }) 0
    demoWindow (by decide) (by decide) (by decide) [Op.add { ID := "A", Name := "a1" } 1 true]
    demoWindowA (by decide) (Op.fire 11 true) 0 (by decide)
    [Op.add { ID := "B", Name := "b1" } 12 true] (by decide) { ID := "A", Name := "a3" }
    (by decide) 13 true

/-! ### `Close` -/

theorem Close_eq {w : Window} (h : Inv w) {p : Pool} (hp : w.pool = some p) :
    Close w = some { disarm w with pool := some { p with released := true } } := by
  obtain ⟨t, ht, -⟩ := h.timer
  simp [Close, ht, hp, disarm]

theorem Close_fields {w : Window} (h : Inv w) {p : Pool} (hp : w.pool = some p) {wc : Window}
    (hc : Close w = some wc) :
    wc.deadline = none ∧ wc.pool = some { p with released := true } ∧ wc.buffer = w.buffer ∧
      wc.table = w.table ∧ wc.heap = w.heap ∧ wc.head = w.head ∧ wc.curr = w.curr ∧
      wc.popped = w.popped ∧ wc.duplicates = w.duplicates ∧ wc.size = w.size ∧
      wc.duration = w.duration ∧ wc.bufferCap = w.bufferCap := by
  obtain ⟨t, ht, -⟩ := h.timer
  simp only [Close, ht, hp, Option.some.injEq] at hc
  subst hc
  exact ⟨by simp [Window.deadline], rfl, rfl, rfl, rfl, rfl, rfl, rfl, rfl, rfl, rfl, rfl⟩

theorem Close_inv {w : Window} (h : Inv w) {wc : Window} (hc : Close w = some wc) : Inv wc := by
  obtain ⟨t, ht, hcb⟩ := h.timer
  cases hp : w.pool with
  | none => simp [Close, ht, hp] at hc
  | some p =>
    simp only [Close, ht, hp, Option.some.injEq] at hc
    subst hc
    exact ⟨h.le, h.buf, h.pop, h.table, h.keys, h.next, h.head, h.curr, ⟨_, rfl, hcb⟩, h.dups⟩

theorem Close_released {w : Window} {wc : Window} (hc : Close w = some wc) : Released wc := by
  unfold Close at hc
  split at hc
  · simp only [Option.some.injEq] at hc
    subst hc
    exact ⟨_, rfl, rfl⟩
  · cases hc

theorem submitOutcome_released {w : Window} (hrel : Released w) (ok : Bool) :
    submitOutcome w.pool ok = Outcome.refused := by
  obtain ⟨p, hp, hr⟩ := hrel
  simp [submitOutcome, hp, Pool.Submit, hr]

theorem trans_released {w : Window} {op : Op} {w1 : Window} (ht : Trans w op w1)
    (hrel : Released w) : Released w1 ∧ w1.submitted = w.submitted := by
  have hpool := (trans_size ht).2.2
  obtain ⟨p, hp, hr⟩ := hrel
  refine ⟨⟨p, hpool.trans hp, hr⟩, ?_⟩
  have hre : ∀ ok, submitOutcome w.pool ok = Outcome.refused :=
    fun ok => submitOutcome_released ⟨p, hp, hr⟩ ok
  cases ht with
  | dup e now ok old hl => rfl
  | push e now ok hl hcap hov => rfl
  | overflow e now ok hl hcap hov =>
    rw [afterPop_submitted]
    have : submitOutcome (afterPush w e now).pool ok = Outcome.refused := hre ok
    rw [this]
    simp only [reduceCtorEq, if_false, List.append_nil]
    rfl
  | idle now ok hb => simp [Window.submitted, disarm_popped]
  | expire now ok b rest hb =>
    rw [afterPop_submitted, disarm_pool, hre ok]
    simp only [reduceCtorEq, if_false, List.append_nil]
    simp [Window.submitted, disarm_popped]

theorem act_released {w : Window} (h : Inv w) (hrel : Released w) {a : Action} {w1 : Window}
    (ha : act w a = some w1) : Inv w1 ∧ Released w1 ∧ w1.submitted = w.submitted := by
  cases a with
  | op o =>
    have htr := step_trans h ha
    obtain ⟨r1, r2⟩ := trans_released htr hrel
    exact ⟨trans_inv h htr, r1, r2⟩
  | close =>
    obtain ⟨p, hp, hr⟩ := hrel
    have hc : Close w = some w1 := ha
    obtain ⟨-, -, -, -, -, -, -, hpop, -⟩ := Close_fields h hp hc
    exact ⟨Close_inv h hc, Close_released hc, by simp [Window.submitted, hpop]⟩

theorem runActions_released {w : Window} (h : Inv w) (hrel : Released w) {acts : List Action}
    {w1 : Window} (hr : runActions w acts = some w1) :
    Inv w1 ∧ Released w1 ∧ w1.submitted = w.submitted := by
  induction acts generalizing w with
  | nil =>
    simp only [runActions, Option.some.injEq] at hr
    subst hr
    exact ⟨h, hrel, rfl⟩
  | cons a acts ih =>
    simp only [runActions] at hr
    cases ha : act w a with
    | none => rw [ha] at hr; cases hr
    | some w2 =>
      rw [ha] at hr
      obtain ⟨i2, r2, s2⟩ := act_released h hrel ha
      obtain ⟨i1, r1, s1⟩ := ih i2 r2 hr
      exact ⟨i1, r1, s1.trans s2⟩

theorem Close_idem {wc : Window} (h : Inv wc) (hd : wc.deadline = none) {p : Pool}
    (hp : wc.pool = some p) (hr : p.released = true) : Close wc = some wc := by
  obtain ⟨t, ht, -⟩ := h.timer
  have htd : t.deadline = none := by
    simpa [Window.deadline, ht] using hd
  cases wc
  cases p
  cases t
  simp only at ht hp hr htd
  subst ht hp hr htd
  rfl

/-- C11 (no dispatch after `Close`).  In a reachable state with a pool,
`Close` returns; it leaves the timer not pending, so that the timer cannot
fire in that state, and the pool released, so that `Submit` fails; the
buffer is as before; and after every later sequence of calls (`Add`, timer
callback, `Close`) the tasks accepted by the pool are the ones accepted
before `Close`: no entry is handed to `Listen`, and none of the entries
buffered at `Close` is among them. -/
theorem no_dispatch_after_close (w : Window) (hreach : Reachable w) (p : Pool)
    (hp : w.pool = some p) :
    ∃ wc, Close w = some wc ∧ wc.deadline = none ∧
      wc.pool = some { p with released := true } ∧ wc.buffer = w.buffer ∧
      wc.submitted = w.submitted ∧
      (∀ (t now : Int) (ok : Bool) (ops : List Op),
        timely wc t (Op.fire now ok :: ops) = false) ∧
      (∀ ok, submitOutcome wc.pool ok = Outcome.refused) ∧
      ∀ (acts : List Action) (w2 : Window), runActions wc acts = some w2 →
        w2.submitted = w.submitted ∧ ∀ a ∈ w.buffer, a ∉ w2.submitted := by
  have hinv := hreach.inv
  have hc := Close_eq hinv hp
  obtain ⟨f1, f2, f3, -, -, -, -, f8, -⟩ := Close_fields hinv hp hc
  have hrel := Close_released hc
  have hsub : ({ disarm w with pool := some { p with released := true } } : Window).submitted =
      w.submitted := by
    simp [Window.submitted, disarm_popped]
  refine ⟨_, hc, f1, f2, f3, hsub, ?_, fun ok => submitOutcome_released hrel ok, ?_⟩
  · intro t now ok ops
    simp only [timely, f1, Bool.and_false, Bool.false_and]
  · intro acts w2 hr
    obtain ⟨-, -, s1⟩ := runActions_released (Close_inv hinv hc) hrel hr
    refine ⟨s1.trans hsub, ?_⟩
    intro a ha hmem
    rw [s1, hsub] at hmem
    exact hinv.not_mem_evicted ha (submitted_sublist w a hmem)

theorem no_dispatch_after_close_witness :
    ∃ wc, Close demoWindowA = some wc ∧ wc.deadline = none ∧
      wc.pool = some { ({ nonblocking := false, released := false } : Pool) with
        released := true } ∧
      wc.buffer = demoWindowA.buffer ∧ wc.submitted = demoWindowA.submitted ∧
      (∀ (t now : Int) (ok : Bool) (ops : List Op),
        timely wc t (Op.fire now ok :: ops) = false) ∧
      (∀ ok, submitOutcome wc.pool ok = Outcome.refused) ∧
      ∀ (acts : List Action) (w2 : Window), runActions wc acts = some w2 →
        w2.submitted = demoWindowA.submitted ∧ ∀ a ∈ demoWindowA.buffer, a ∉ w2.submitted :=
  no_dispatch_after_close demoWindowA
    ⟨demoOptions, some { nonblocking := false, released := false }, 0, demoWindow,
      [Op.add { ID := "A", Name := "a1" } 1 true], by decide, by decide⟩
    { nonblocking := false, released := false } rfl

/-- C12, as stated, fails: `Close` stops the timer of a new window, and the
call of `Add` that follows arms it again (at 11) while the pool stays
released. -/
theorem add_after_close_rearms_counterexample :
    (Close demoWindow).map (fun wc => (wc.deadline, wc.pool)) =
        some (none, some { nonblocking := false, released := true }) ∧
      ((Close demoWindow).bind
          (fun wc => Add wc { ID := "A", Name := "a1" } 1 true)).map
        (fun w1 => (w1.deadline, w1.pool, w1.buffer)) =
        some (some 11, some { nonblocking := false, released := true }, [0]) := by
  decide

/-- C12, amended (`Close` is idempotent; the pool stays released).  In a
reachable state with a pool, `Close` returns and `Close` of the state it
leaves returns that state: the timer is not pending, the pool is released,
and buffer, table, heap, `head`, `curr` and the records are as before the
first `Close`.  After every later sequence of calls the pool is still
released.  The timer stays not pending under a call of `Add` for a buffered
key and under a call of `Add` for a new key onto a non-empty buffer that
does not overflow; a call of `Add` on the empty buffer arms it again. -/
theorem close_idempotent (w : Window) (hreach : Reachable w) (p : Pool)
    (hp : w.pool = some p) :
    ∃ wc, Close w = some wc ∧ Close wc = some wc ∧ wc.deadline = none ∧
      wc.pool = some { p with released := true } ∧ wc.buffer = w.buffer ∧
      wc.table = w.table ∧ wc.heap = w.heap ∧ wc.head = w.head ∧ wc.curr = w.curr ∧
      wc.popped = w.popped ∧ wc.duplicates = w.duplicates ∧
      (∀ (acts : List Action) (w2 : Window), runActions wc acts = some w2 → Released w2) ∧
      (∀ e now ok old, tableLoad wc.table e.Key = some old →
        ∃ w1, Add wc e now ok = some w1 ∧ w1.deadline = none) ∧
      (∀ e now ok w1, Add wc e now ok = some w1 → tableLoad wc.table e.Key = none →
        wc.buffer ≠ [] → (wc.buffer.length : Int) + 1 ≤ wc.size → w1.deadline = none) ∧
      ∀ e now ok w1, Add wc e now ok = some w1 → wc.buffer = [] → w1.deadline ≠ none := by
  have hinv := hreach.inv
  obtain ⟨wc, hc⟩ : ∃ wc, Close w = some wc := ⟨_, Close_eq hinv hp⟩
  obtain ⟨f1, f2, f3, f4, f5, f6, f7, f8, f9, -⟩ := Close_fields hinv hp hc
  have hrel := Close_released hc
  have hinvc := Close_inv hinv hc
  refine ⟨wc, hc, Close_idem hinvc f1 f2 rfl, f1, f2, f3, f4, f5, f6, f7, f8, f9, ?_, ?_, ?_, ?_⟩
  · intro acts w2 hr
    exact (runActions_released hinvc hrel hr).2.1
  · intro e now ok old hl
    exact ⟨_, Add_dup hinvc now ok hl, f1⟩
  · intro e now ok w1 hs hl hne hno
    have htr : Trans wc (Op.add e now ok) w1 := step_trans hinvc hs
    obtain ⟨b, rest, hb⟩ := List.exists_cons_of_ne_nil hne
    cases htr with
    | dup e now ok old hl2 => rw [hl] at hl2; cases hl2
    | push e now ok hl hcap hov => rw [afterPush_deadline_cons hb]; exact f1
    | overflow e now ok hl hcap hov => omega
  · intro e now ok w1 hs hb
    have htr : Trans wc (Op.add e now ok) w1 := step_trans hinvc hs
    cases htr with
    | dup e now ok old hl =>
      have := (hinvc.load_some hl).1
      rw [hb] at this
      cases this
    | push e now ok hl hcap hov => simp [Window.deadline, afterPush, hb]
    | overflow e now ok hl hcap hov =>
      have hbt : (afterPush wc e now).buffer.tail = [] := by
        show (wc.buffer ++ [wc.heap.length]).tail = []
        rw [hb]; rfl
      have hdl : (afterPop (afterPush wc e now) now ok).deadline =
          (afterPush wc e now).deadline := by
        simp [Window.deadline, afterPop, hbt]
      rw [hdl]
      simp [Window.deadline, afterPush, hb]

theorem close_idempotent_witness :
    ∃ wc, Close demoWindowA = some wc ∧ Close wc = some wc ∧ wc.deadline = none ∧
      wc.pool = some { ({ nonblocking := false, released := false } : Pool) with
        released := true } ∧
      wc.buffer = demoWindowA.buffer ∧ wc.table = demoWindowA.table ∧
      wc.heap = demoWindowA.heap ∧ wc.head = demoWindowA.head ∧ wc.curr = demoWindowA.curr ∧
      wc.popped = demoWindowA.popped ∧ wc.duplicates = demoWindowA.duplicates ∧
      (∀ (acts : List Action) (w2 : Window), runActions wc acts = some w2 → Released w2) ∧
      (∀ e now ok old, tableLoad wc.table e.Key = some old →
        ∃ w1, Add wc e now ok = some w1 ∧ w1.deadline = none) ∧
      (∀ e now ok w1, Add wc e now ok = some w1 → tableLoad wc.table e.Key = none →
        wc.buffer ≠ [] → (wc.buffer.length : Int) + 1 ≤ wc.size → w1.deadline = none) ∧
      ∀ e now ok w1, Add wc e now ok = some w1 → wc.buffer = [] → w1.deadline ≠ none :=
  close_idempotent demoWindowA
    ⟨demoOptions, some { nonblocking := false, released := false }, 0, demoWindow,
      [Op.add { ID := "A", Name := "a1" } 1 true], by decide, by decide⟩
    { nonblocking := false, released := false } rfl

/-! ### Two goroutines -/

theorem map_w_finish (x : Option Shared) :
    Option.map (fun s => s.w)
        (match x with
          | none => none
          | some s1 => runInstrs s1 []) =
      Option.map (fun s => s.w) x := by
  cases x <;> rfl

/-- Run without interruption, the statements of the timer callback do what
`fire` does. -/
theorem runInstrs_timerProgram (w : Window) (c : Option Nat) (now : Int) (ok : Bool)
    {t : Timer} (ht : w.expiration = some t) (hcb : t.callback = Callback.popThenReset) :
    (runInstrs { w := w, c := c, e := none, popLock := false } (timerProgram now ok)).map
        (fun s => s.w) =
      (fire w now ok).map Prod.fst := by
  obtain ⟨dl, cb⟩ := t
  simp only at hcb
  subst hcb
  cases hb : w.buffer with
  | nil =>
    simp only [timerProgram, runInstrs, Instr.exec, ht, fire, pop, hb]
    by_cases hh : w.head = none
    · simp [hh, resetExpiration, hb, runInstrs, Instr.exec]
    · simp [hh, resetExpiration, hb, runInstrs, Instr.exec]
  | cons a rest =>
    cases ha : w.heap[a]? with
    | none => simp [timerProgram, runInstrs, Instr.exec, ht, fire, pop, hb, ha]
    | some x =>
      cases hn : x.next with
      | none =>
        cases rest with
        | nil =>
          simp [timerProgram, runInstrs, Instr.exec, ht, fire, pop, hb, ha, hn, resetExpiration]
        | cons b rest2 =>
          simp [timerProgram, runInstrs, Instr.exec, ht, fire, pop, hb, ha, hn, resetExpiration]
      | some n =>
        cases rest with
        | nil =>
          simp [timerProgram, runInstrs, Instr.exec, ht, fire, pop, hb, ha, hn, resetExpiration]
        | cons b rest2 =>
          cases hx : w.heap[n]? with
          | none =>
            simp [timerProgram, runInstrs, Instr.exec, ht, fire, pop, hb, ha, hn, hx,
              resetExpiration]
          | some fe =>
            simp [timerProgram, runInstrs, Instr.exec, ht, fire, pop, hb, ha, hn, hx,
              resetExpiration, armExpiration]

theorem armExpiration_size (w : Window) (now d : Int) : (armExpiration w now d).size = w.size := by
  unfold armExpiration; split <;> rfl

theorem armExpiration_buffer (w : Window) (now d : Int) :
    (armExpiration w now d).buffer = w.buffer := by
  unfold armExpiration; split <;> rfl

/-- Run without interruption, the statements of `pushBuffer` do what
`pushBuffer` does. -/
theorem runInstrs_pushProgram (w : Window) (e : Option Nat) (a : Nat) (now : Int) (ok : Bool) :
    (runInstrs { w := w, c := none, e := e, popLock := false } (pushProgram a now ok)).map
        (fun s => s.w) =
      pushBuffer w a now ok := by
  by_cases hcap : (w.buffer.length : Int) < w.bufferCap
  swap
  · simp [pushProgram, runInstrs, Instr.exec, pushBuffer, hcap]
  simp only [pushProgram, runInstrs, Instr.exec, pushBuffer, hcap, if_true]
  cases hc : w.curr with
  | some c =>
    simp only []
    cases hce : w.heap[c]? with
    | none => rfl
    | some ce =>
      simp only [runInstrs, Instr.exec]
      by_cases hov : w.size < ((w.buffer ++ [a]).length : Int)
      · simp only [hov, if_true, Bool.false_eq_true, if_false]
        generalize pop _ now ok = r
        cases r <;> rfl
      · simp only [hov, if_false]
        rfl
  | none =>
    simp only []
    cases hwe : w.heap[a]? with
    | none => rfl
    | some we =>
      simp only [runInstrs, Instr.exec, armExpiration_size, armExpiration_buffer]
      by_cases hov : w.size < ((w.buffer ++ [a]).length : Int)
      · simp only [hov, if_true, Bool.false_eq_true, if_false]
        generalize pop _ now ok = r
        cases r <;> rfl
      · simp only [hov, if_false]
        rfl

/-- A call of `Add` for a new key is the allocation of the entry followed by
the statements of `pushBuffer`. -/
theorem Add_eq_pushProgram (w : Window) (e : Event) (now : Int) (ok : Bool)
    (hl : tableLoad w.table e.Key = none) :
    Add w e now ok =
      (runInstrs { w := addPrelude w e now, c := none, e := none, popLock := false }
        (pushProgram w.heap.length now ok)).map (fun s => s.w) := by
  rw [runInstrs_pushProgram]
  simp only [Add, hl, addPrelude, newEntry]

/-- C19 (concurrent push and timer pop).  The window of size 2 holds one
entry A; a producer has called `Add` for a new key B while the timer fires.
`raceSchedule` interleaves the statements of `pushBuffer` and of the timer
callback, each in its own order and with `popLock` held only by the timer.
Run from that state, it ends with B in the buffer, `head` and `curr` nil and
the timer not pending: `head` is not the front entry, `curr` is not the last
entry, and a buffered entry is left without an armed timer.  Run one after
the other in either order, the two goroutines leave `head` and `curr` at B
with the timer armed at B's expiry time. -/
theorem concurrent_push_pop_race :
    isInterleaving (pushProgram 1 11 true) (timerProgram 11 true) raceSchedule = true ∧
      (runInstrs raceStart raceSchedule).map
          (fun s => (s.w.buffer, s.w.head, s.w.curr, s.w.deadline, s.popLock)) =
        some ([1], none, none, none, false) ∧
      (runInstrs raceStart (pushProgram 1 11 true ++ timerProgram 11 true)).map
          (fun s => (s.w.buffer, s.w.head, s.w.curr, s.w.deadline)) =
        some ([1], some 1, some 1, some 21) ∧
      (runInstrs raceStart (timerProgram 11 true ++ pushProgram 1 11 true)).map
          (fun s => (s.w.buffer, s.w.head, s.w.curr, s.w.deadline)) =
        some ([1], some 1, some 1, some 21) := by
  refine ⟨by decide, by decide, by decide, by decide⟩

end SlidingWindow
